import Mathlib

/-! NonblockingQueue (hotspot/share/utilities/nonblockingQueue.inline.hpp)

A shallow embedding of the intrusive lock-free queue and a verification of its
behaviour, for calls executed without interference and for calls whose atomic
steps interleave.

Pointers are addresses (`Nat`).  `NULL` is address `0`; the end-marker of a
queue is the queue's own address (`reinterpret_cast<const T*>(this)`), kept in
the field `self`.  The memory of the nodes is the map `slot`, which gives, for
a node address, the content of that node's next-slot (`*next_ptr(node)`).

Every operation is the sequential composition of the atomic steps it performs
in the source (`load`, `store`, `xchg`, `cmpxchg`), each of which is a function
on the state.  The `assert`s of the source are part of the embedding: an
operation whose assertion fails yields the fault named by the assertion's
message.
-/

namespace NonblockingQueue

/-- The null pointer. -/
abbrev NULL : Nat := 0

/-- Ways in which a call does not return a value: a failed `assert` (tagged by
the message of the assertion), a dereference of `NULL`, or a loop that did not
finish within the number of iterations granted to it. -/
inductive Fault
  | precondition
  | invariant
  | null_deref
  | out_of_fuel
  deriving DecidableEq

/-- The queue object together with the memory it works on: `self` is the
address of the queue object (`this`), `head` and `tail` are the fields `_head`
and `_tail`, and `slot a` is the next-slot of the node at address `a`. -/
structure State where
  self : Nat
  head : Nat
  tail : Nat
  slot : Nat → Nat

/-- `next(node)`: atomic load of the node's next-slot. -/
def next (s : State) (node : Nat) : Nat := s.slot node

/-- `set_next(node, new_next)`: atomic store to the node's next-slot. -/
def set_next (s : State) (node new_next : Nat) : State :=
  { s with slot := fun a => if a = node then new_next else s.slot a }

/-- The constructor: `_head(NULL), _tail(NULL)`, for a queue object placed at
address `self` in a memory whose next-slots are `slot`. -/
def new (self : Nat) (slot : Nat → Nat) : State :=
  { self := self, head := NULL, tail := NULL, slot := slot }

/-- The destructor's two assertions (`ASSERT` builds). -/
def destroy (s : State) : Except Fault Unit :=
  if s.head ≠ NULL then .error .precondition
  else if s.tail ≠ NULL then .error .precondition
  else .ok ()

/-- `end_marker()`: the queue's own address, cast to a node pointer. -/
def end_marker (s : State) : Nat := s.self

/-- `first()`. -/
def first (s : State) : Nat :=
  let head := s.head
  if head = NULL then end_marker s else head

/-- `is_end(entry)`. -/
def is_end (s : State) (entry : Nat) : Bool := decide (entry = end_marker s)

/-- `empty()`. -/
def empty (s : State) : Bool := decide (s.head = NULL)

/-- The loop of `length()`, with `cur` and `result` as loop variables.  The
first argument bounds the number of evaluations of the loop condition.
`next(*cur)` with `cur == NULL` dereferences the null pointer, which is
reported as a fault.  The counter is a `size_t`; it counts pairwise distinct
addresses, so it is kept as an unbounded natural number. -/
def length_loop (s : State) : Nat → Nat → Nat → Except Fault Nat
  | 0, _, _ => .error .out_of_fuel
  | fuel + 1, cur, result =>
    if is_end s cur then .ok result
    else if cur = NULL then .error .null_deref
    else length_loop s fuel (next s cur) (result + 1)

/-- `length()`. -/
def length (s : State) (fuel : Nat) : Except Fault Nat :=
  length_loop s fuel (first s) 0

/-- `Atomic::xchg(&_tail, v)`: returns the previous value. -/
def xchg_tail (s : State) (v : Nat) : Nat × State :=
  (s.tail, { s with tail := v })

/-- `Atomic::store(&_head, v)`. -/
def store_head (s : State) (v : Nat) : State := { s with head := v }

/-- `Atomic::store(&_tail, v)`. -/
def store_tail (s : State) (v : Nat) : State := { s with tail := v }

/-- `Atomic::cmpxchg(&_head, compare, exchange)`: returns the value found. -/
def cmpxchg_head (s : State) (compare exchange : Nat) : Nat × State :=
  (s.head, if s.head = compare then { s with head := exchange } else s)

/-- `Atomic::cmpxchg(&_tail, compare, exchange)`: returns the value found. -/
def cmpxchg_tail (s : State) (compare exchange : Nat) : Nat × State :=
  (s.tail, if s.tail = compare then { s with tail := exchange } else s)

/-- `Atomic::cmpxchg(next_ptr(*node), compare, exchange)`: returns the value
found. -/
def cmpxchg_next (s : State) (node compare exchange : Nat) : Nat × State :=
  (s.slot node, if s.slot node = compare then set_next s node exchange else s)

/-- `append(first, last)`, executed without interference.  The three
assertions are checked as in an `ASSERT` build. -/
def append (s : State) (first last : Nat) : Except Fault State :=
  if next s last ≠ NULL then .error .precondition
  else
    let s1 := set_next s last (end_marker s)
    let x := xchg_tail s1 last
    let old_tail := x.1
    let s2 := x.2
    if old_tail = NULL then
      if s2.head ≠ NULL then .error .invariant
      else .ok (store_head s2 first)
    else
      let c := cmpxchg_next s2 old_tail (end_marker s2) first
      let s3 := c.2
      if is_end s3 c.1 then .ok s3
      else
        let old_head := s3.head
        if ¬ (old_head = NULL ∨ old_head = old_tail) then .error .invariant
        else .ok (store_head s3 first)

/-- Modelled from the spec: the body of `push` is in nonblockingQueue.hpp,
which is not among the sources; section 4.4 and the comment above `append`
say that a push is the degenerate append in which the pushed node is both the
head and the tail of the appended list. -/
def push (s : State) (node : Nat) : Except Fault State := append s node node

/-- `try_pop(node_ptr)`, executed without interference.  The result is the
returned `bool`, the content of `*node_ptr` after the call (`node_ptr` is its
content before the call), and the state after the call. -/
def try_pop (s : State) (node_ptr : Nat) : Bool × Nat × State :=
  let old_head := s.head
  if old_head = NULL then (true, NULL, s)
  else
    let next_node := s.slot old_head
    if ¬ is_end s next_node then
      let c := cmpxchg_head s old_head next_node
      if old_head ≠ c.1 then (false, node_ptr, c.2)
      else if next_node = NULL then (false, node_ptr, c.2)
      else (true, old_head, set_next c.2 old_head NULL)
    else
      let c := cmpxchg_next s old_head next_node NULL
      if is_end c.2 c.1 then
        let s1 := (cmpxchg_head c.2 old_head NULL).2
        let s2 := (cmpxchg_tail s1 old_head NULL).2
        (true, old_head, s2)
      else (false, node_ptr, c.2)

/-- The loop of `pop()`: `while (!try_pop(&result)) {}`.  The first argument
bounds the number of calls to `try_pop`. -/
def pop_loop : Nat → State → Nat → Except Fault (Nat × State)
  | 0, _, _ => .error .out_of_fuel
  | fuel + 1, s, result =>
    let r := try_pop s result
    if r.1 then .ok (r.2.1, r.2.2) else pop_loop fuel r.2.2 r.2.1

/-- `pop()`: returns the popped node (or `NULL`) and the state after. -/
def pop (s : State) (fuel : Nat) : Except Fault (Nat × State) :=
  pop_loop fuel s NULL

/-- `take_all()`: returns the pair and the state after. -/
def take_all (s : State) : (Nat × Nat) × State :=
  let tail := s.tail
  let s1 := if tail ≠ NULL then set_next s tail NULL else s
  let result := (s1.head, tail)
  let s2 := store_head s1 NULL
  let s3 := store_tail s2 NULL
  (result, s3)

/-- A call made by a single-threaded client that only pushes and pops. -/
inductive Op
  | push (node : Nat)
  | pop
  deriving DecidableEq

/-- The nodes pushed by a sequence of calls, in push order. -/
def pushed : List Op → List Nat
  | [] => []
  | .push n :: ops => n :: pushed ops
  | .pop :: ops => pushed ops

/-- Executes a sequence of calls on the queue, one after the other, and
collects the values returned by the calls to `pop()`.  Every `pop()` may call
`try_pop` up to `fuel` times.  The first fault ends the execution. -/
def run (fuel : Nat) : State → List Op → Except Fault (State × List Nat)
  | s, [] => .ok (s, [])
  | s, .push n :: ops =>
    match push s n with
    | .error e => .error e
    | .ok s1 => run fuel s1 ops
  | s, .pop :: ops =>
    match pop s fuel with
    | .error e => .error e
    | .ok r =>
      match run fuel r.2 ops with
      | .error e => .error e
      | .ok t => .ok (t.1, r.1 :: t.2)

/-- The FIFO of the specification, as a list: a push adds at the back, a pop
removes and returns the front, and a pop on the empty list returns null.  The
result is the list of the values returned by the pops. -/
def fifo_spec : List Nat → List Op → List Nat
  | _, [] => []
  | q, .push n :: ops => fifo_spec (q ++ [n]) ops
  | q, .pop :: ops => q.headD NULL :: fifo_spec q.tail ops

/-- `Linked slot z l`: the next-slot of every node of `l` holds the node that
follows it in `l`, and the next-slot of the last node of `l` holds `z`. -/
def Linked (slot : Nat → Nat) (z : Nat) : List Nat → Prop
  | [] => True
  | a :: l => slot a = l.headD z ∧ Linked slot z l

instance Linked.instDecidable (slot : Nat → Nat) (z : Nat) :
    (l : List Nat) → Decidable (Linked slot z l)
  | [] => isTrue trivial
  | _ :: l => @instDecidableAnd _ _ _ (Linked.instDecidable slot z l)

/-- A real node of the queue `s`: an address that is neither null nor the
end-marker of `s`. -/
def IsNode (s : State) (n : Nat) : Prop := n ≠ NULL ∧ n ≠ end_marker s

instance (s : State) (n : Nat) : Decidable (IsNode s n) := instDecidableAnd

/-- `WellFormed s L`: the queue `s` is well-formed with contents `L`.  The
end-marker is not null and the members of `L` are real nodes; `head` and
`tail` are null when `L` is empty; otherwise `head` is the first node of `L`,
every node's next-slot holds the following node, `tail` is the last node and
its next-slot holds the end-marker. -/
def WellFormed (s : State) (L : List Nat) : Prop :=
  end_marker s ≠ NULL ∧ (∀ n ∈ L, IsNode s n) ∧
  s.head = L.headD NULL ∧ s.tail = L.getLastD NULL ∧
  Linked s.slot (end_marker s) L

instance (s : State) (L : List Nat) : Decidable (WellFormed s L) := by
  unfold WellFormed; infer_instance

/-- The states that a single-threaded client can reach from a newly
constructed queue by calls to `push`, `append`, `try_pop`, `pop` and
`take_all`.  A pushed node is a real node.  An appended sublist `M` consists
of real nodes that are linked through their next-slots, the next-slot of the
last one being null; `append` receives its first and its last node.  A call
that faults does not return, hence reaches no state. -/
inductive Reachable : State → Prop
  | new (self : Nat) (slot : Nat → Nat) : self ≠ NULL → Reachable (new self slot)
  | push {s s1 : State} (n : Nat) :
      Reachable s → IsNode s n → push s n = .ok s1 → Reachable s1
  | append {s s1 : State} (M : List Nat) :
      Reachable s → M ≠ [] → (∀ n ∈ M, IsNode s n) → Linked s.slot NULL M →
      append s (M.headD NULL) (M.getLastD NULL) = .ok s1 → Reachable s1
  | try_pop {s : State} (node_ptr : Nat) :
      Reachable s → Reachable (try_pop s node_ptr).2.2
  | pop {s s1 : State} (fuel r : Nat) :
      Reachable s → pop s fuel = .ok (r, s1) → Reachable s1
  | take_all {s : State} : Reachable s → Reachable (take_all s).2

/-- The content of the FIFO of the specification after a sequence of calls. -/
def fifo_final : List Nat → List Op → List Nat
  | q, [] => q
  | q, .push n :: ops => fifo_final (q ++ [n]) ops
  | q, .pop :: ops => fifo_final q.tail ops

/-! ## Concrete states

A queue object at address `100` in a memory whose next-slots are all null,
and the states it is in after `push(1)` and then `push(2)`. -/

/-- The newly constructed queue. -/
def demo0 : State := new 100 (fun _ => NULL)

/-- The queue that holds node `1`. -/
def demo1 : State :=
  { self := 100, head := 1, tail := 1, slot := fun a => if a = 1 then 100 else NULL }

/-- The queue that holds the nodes `1` and `2`. -/
def demo2 : State :=
  { self := 100, head := 1, tail := 2,
    slot := fun a => if a = 1 then 2 else if a = 2 then 100 else demo1.slot a }

/-- The queue that holds node `1`, in a memory where the nodes `2` and `3`
have been linked into the sublist `2, 3` by their owner. -/
def demo1c : State :=
  { self := 100, head := 1, tail := 1,
    slot := fun a => if a = 2 then 3 else demo1.slot a }

/-- The queue object at address `100` with `head = tail = 1` while the
next-slot of node `1` is null: the state in which a competing `try_pop` has
claimed the last node `1` and has not yet cleared `head` and `tail`. -/
def demoLost : State :=
  { self := 100, head := 1, tail := 1, slot := fun _ => NULL }

/-- What a single-threaded client knows of its past use of the queue: `ins`
are the nodes that have been inserted by `push` or `append`; `det` are the
nodes that have been returned by `try_pop` or `pop` or detached by `take_all`;
`kept` are the nodes that `take_all` detached as nodes other than the last
one and that have not been inserted again since. -/
structure History where
  ins : List Nat
  det : List Nat
  kept : List Nat

/-- The node that a call of `try_pop` or `pop` hands to its caller, if any. -/
def returned (ret : Bool) (node : Nat) : List Nat :=
  if ret = true ∧ node ≠ NULL then [node] else []

/-- The states of `Reachable`, together with the history of the calls that
lead to them.  `take_all` detaches the nodes `L` of the queue. -/
inductive Traced : State → History → Prop
  | new (self : Nat) (slot : Nat → Nat) :
      self ≠ NULL → Traced (new self slot) ⟨[], [], []⟩
  | push {s s1 : State} {h : History} (n : Nat) :
      Traced s h → IsNode s n → push s n = .ok s1 →
      Traced s1 ⟨n :: h.ins, h.det, h.kept.filter (fun k => decide (k ≠ n))⟩
  | append {s s1 : State} {h : History} (M : List Nat) :
      Traced s h → M ≠ [] → (∀ n ∈ M, IsNode s n) → Linked s.slot NULL M →
      append s (M.headD NULL) (M.getLastD NULL) = .ok s1 →
      Traced s1 ⟨M ++ h.ins, h.det, h.kept.filter (fun k => decide (k ∉ M))⟩
  | try_pop {s : State} {h : History} (node_ptr : Nat) :
      Traced s h →
      Traced (try_pop s node_ptr).2.2
        ⟨h.ins, returned (try_pop s node_ptr).1 (try_pop s node_ptr).2.1 ++ h.det, h.kept⟩
  | pop {s s1 : State} {h : History} (fuel r : Nat) :
      Traced s h → pop s fuel = .ok (r, s1) →
      Traced s1 ⟨h.ins, returned true r ++ h.det, h.kept⟩
  | take_all {s : State} {h : History} (L : List Nat) :
      Traced s h → WellFormed s L →
      Traced (take_all s).2 ⟨h.ins, L ++ h.det, L.dropLast ++ h.kept⟩

/-- The invariant that ties the history to the memory: the nodes of the
queue have been inserted; an inserted node that is not in the queue has been
detached, and its next-slot is null unless it is one of the `kept` nodes; the
`kept` nodes are not in the queue and their next-slots are not null. -/
def HistInv (s : State) (L : List Nat) (h : History) : Prop :=
  (∀ n ∈ L, n ∈ h.ins) ∧
  (∀ n ∈ h.ins, n ∉ L → n ∈ h.det) ∧
  (∀ n ∈ h.ins, n ∉ L → n ∉ h.kept → s.slot n = NULL) ∧
  (∀ k ∈ h.kept, k ∈ h.det ∧ k ∉ L ∧ s.slot k ≠ NULL)

/-! ## Calls in progress

Under concurrent use a call is a sequence of atomic steps on the shared
state.  A `Thread` is a call at one of its atomic steps, with the values of
its local variables; the atomic steps of different threads interleave.  The
assertions of the source are steps of their own (they load from the shared
state), as in an `ASSERT` build. -/

/-- A call in progress: the next atomic step of the call, with the local
variables that are live at that step. -/
inductive Thread
  /-- `append(first, last)`, at `assert(next(last) == NULL, "precondition")`. -/
  | append_start (first last : Nat)
  /-- At `set_next(last, end_marker())`. -/
  | append_mark (first last : Nat)
  /-- At `old_tail = Atomic::xchg(&_tail, &last)`. -/
  | append_xchg (first last : Nat)
  /-- After `old_tail == NULL`, at `assert(Atomic::load(&_head) == NULL)`. -/
  | append_check_empty (first : Nat)
  /-- At `Atomic::cmpxchg(next_ptr(*old_tail), end_marker(), &first)`. -/
  | append_link (first old_tail : Nat)
  /-- After a failed compare-and-swap, at the load of `_head` and
  `assert((old_head == NULL) || (old_head == old_tail))`. -/
  | append_check_raced (first old_tail : Nat)
  /-- At `Atomic::store(&_head, &first)`. -/
  | append_install (first : Nat)
  /-- The call `append` has returned. -/
  | append_done
  /-- `try_pop(node_ptr)`, at `old_head = Atomic::load_acquire(&_head)`;
  `node_ptr` is the content of `*node_ptr`. -/
  | pop_start (node_ptr : Nat)
  /-- At `next_node = Atomic::load_acquire(next_ptr(*old_head))`. -/
  | pop_load_next (node_ptr old_head : Nat)
  /-- Clause 1, at `Atomic::cmpxchg(&_head, old_head, next_node)`. -/
  | pop_advance (node_ptr old_head next_node : Nat)
  /-- Clause 1c, at `set_next(*old_head, NULL)`. -/
  | pop_unlink (old_head : Nat)
  /-- At `Atomic::cmpxchg(next_ptr(*old_head), next_node, NULL)`. -/
  | pop_claim (node_ptr old_head next_node : Nat)
  /-- Clause 2, at `Atomic::cmpxchg(&_head, old_head, NULL)`. -/
  | pop_clear_head (old_head : Nat)
  /-- Clause 2, at `Atomic::cmpxchg(&_tail, old_head, NULL)`. -/
  | pop_clear_tail (old_head : Nat)
  /-- The call `try_pop` has returned `ret`, and `*node_ptr` holds `node_ptr`. -/
  | pop_done (ret : Bool) (node_ptr : Nat)
  /-- `take_all()`, at `tail = Atomic::load(&_tail)`. -/
  | take_start
  /-- At `if (tail != NULL) set_next(*tail, NULL)`. -/
  | take_clear (tail : Nat)
  /-- At `Atomic::load(&_head)`, for the result pair. -/
  | take_load_head (tail : Nat)
  /-- At `Atomic::store(&_head, NULL)`. -/
  | take_store_head (head tail : Nat)
  /-- At `Atomic::store(&_tail, NULL)`. -/
  | take_store_tail (head tail : Nat)
  /-- The call `take_all` has returned the pair `(head, tail)`. -/
  | take_done (head tail : Nat)
  /-- An assertion of the call has failed. -/
  | failed (f : Fault)
  deriving DecidableEq

/-- One atomic step of a call in progress on the shared state.  A call that
has returned or failed takes no step. -/
def Thread.step (s : State) : Thread → State × Thread
  | .append_start f l =>
    if next s l ≠ NULL then (s, .failed .precondition) else (s, .append_mark f l)
  | .append_mark f l => (set_next s l (end_marker s), .append_xchg f l)
  | .append_xchg f l =>
    let x := xchg_tail s l
    if x.1 = NULL then (x.2, .append_check_empty f) else (x.2, .append_link f x.1)
  | .append_check_empty f =>
    if s.head ≠ NULL then (s, .failed .invariant) else (s, .append_install f)
  | .append_link f old_tail =>
    let c := cmpxchg_next s old_tail (end_marker s) f
    if is_end c.2 c.1 then (c.2, .append_done) else (c.2, .append_check_raced f old_tail)
  | .append_check_raced f old_tail =>
    let old_head := s.head
    if ¬ (old_head = NULL ∨ old_head = old_tail) then (s, .failed .invariant)
    else (s, .append_install f)
  | .append_install f => (store_head s f, .append_done)
  | .append_done => (s, .append_done)
  | .pop_start p =>
    let old_head := s.head
    if old_head = NULL then (s, .pop_done true NULL) else (s, .pop_load_next p old_head)
  | .pop_load_next p old_head =>
    let next_node := s.slot old_head
    if ¬ is_end s next_node then (s, .pop_advance p old_head next_node)
    else (s, .pop_claim p old_head next_node)
  | .pop_advance p old_head next_node =>
    let c := cmpxchg_head s old_head next_node
    if old_head ≠ c.1 then (c.2, .pop_done false p)
    else if next_node = NULL then (c.2, .pop_done false p)
    else (c.2, .pop_unlink old_head)
  | .pop_unlink old_head => (set_next s old_head NULL, .pop_done true old_head)
  | .pop_claim p old_head next_node =>
    let c := cmpxchg_next s old_head next_node NULL
    if is_end c.2 c.1 then (c.2, .pop_clear_head old_head) else (c.2, .pop_done false p)
  | .pop_clear_head old_head => ((cmpxchg_head s old_head NULL).2, .pop_clear_tail old_head)
  | .pop_clear_tail old_head => ((cmpxchg_tail s old_head NULL).2, .pop_done true old_head)
  | .pop_done r n => (s, .pop_done r n)
  | .take_start => (s, .take_clear s.tail)
  | .take_clear tail => (if tail ≠ NULL then set_next s tail NULL else s, .take_load_head tail)
  | .take_load_head tail => (s, .take_store_head s.head tail)
  | .take_store_head head tail => (store_head s NULL, .take_store_tail head tail)
  | .take_store_tail head tail => (store_tail s NULL, .take_done head tail)
  | .take_done head tail => (s, .take_done head tail)
  | .failed f => (s, .failed f)

/-- A call executed without interference: `n` atomic steps in a row. -/
def Thread.run : Nat → State → Thread → State × Thread
  | 0, s, t => (s, t)
  | n + 1, s, t =>
    let r := Thread.step s t
    Thread.run n r.1 r.2

/-- The number of atomic steps that a call in progress can still take, at
most. -/
def Thread.rank : Thread → Nat
  | .append_start _ _ => 6
  | .append_mark _ _ => 5
  | .append_xchg _ _ => 4
  | .append_link _ _ => 3
  | .append_check_empty _ => 2
  | .append_check_raced _ _ => 2
  | .append_install _ => 1
  | .append_done => 0
  | .pop_start _ => 5
  | .pop_load_next _ _ => 4
  | .pop_advance _ _ _ => 2
  | .pop_claim _ _ _ => 3
  | .pop_unlink _ => 1
  | .pop_clear_head _ => 2
  | .pop_clear_tail _ => 1
  | .pop_done _ _ => 0
  | .take_start => 5
  | .take_clear _ => 4
  | .take_load_head _ => 3
  | .take_store_head _ _ => 2
  | .take_store_tail _ _ => 1
  | .take_done _ _ => 0
  | .failed _ => 0

/-- The shared state and the calls in progress, one per thread. -/
structure Config where
  state : State
  threads : List Thread

/-- Thread `i` takes one atomic step (nothing happens if there is no thread
`i`). -/
def Config.step (c : Config) (i : Nat) : Config :=
  match c.threads[i]? with
  | none => c
  | some t =>
    { state := (Thread.step c.state t).1,
      threads := c.threads.set i (Thread.step c.state t).2 }

/-- An interleaving: the threads take their atomic steps in the order given
by the schedule, a list of thread indices. -/
def Config.exec (c : Config) (sched : List Nat) : Config :=
  sched.foldl Config.step c

/-! ## Two concurrent pushes onto an empty queue -/

/-- The push of node `n` has not yet exchanged `tail`. -/
def NotSwapped (s : State) (n : Nat) (t : Thread) : Prop :=
  (t = .append_start n n ∧ s.slot n = NULL) ∨ (t = .append_mark n n ∧ s.slot n = NULL) ∨
  (t = .append_xchg n n ∧ s.slot n = end_marker s)

/-- The push of node `n` has exchanged `tail` and has found it null. -/
def SwappedFirst (s : State) (n : Nat) (t : Thread) : Prop :=
  (t = .append_check_empty n ∧ s.head = NULL) ∨ (t = .append_install n ∧ s.head = NULL) ∨
  (t = .append_done ∧ s.head = n)

/-- The push of node `n` has exchanged `tail` and has found node `m` in it. -/
def SwappedSecond (s : State) (n m : Nat) (t : Thread) : Prop :=
  (t = .append_link n m ∧ s.slot m = end_marker s) ∨ (t = .append_done ∧ s.slot m = n)

/-- The shared states and the steps that two concurrent pushes of the nodes
`X` and `Y` onto the empty queue at address `self` can be at. -/
def TwoPushes (self X Y : Nat) (s : State) (tX tY : Thread) : Prop :=
  s.self = self ∧
    ((NotSwapped s X tX ∧ NotSwapped s Y tY ∧ s.head = NULL ∧ s.tail = NULL) ∨
     (SwappedFirst s X tX ∧ NotSwapped s Y tY ∧ s.tail = X ∧ s.slot X = self) ∨
     (NotSwapped s X tX ∧ SwappedFirst s Y tY ∧ s.tail = Y ∧ s.slot Y = self) ∨
     (SwappedFirst s X tX ∧ SwappedSecond s Y X tY ∧ s.tail = Y ∧ s.slot Y = self) ∨
     (SwappedSecond s X Y tX ∧ SwappedFirst s Y tY ∧ s.tail = X ∧ s.slot X = self))

/-! ## A push concurrent with a `try_pop` on a queue of one node -/

/-- The push of `B` has exchanged `tail`, has found node `A` in it, and the
consumer has claimed `A` before the compare-and-swap of the push. -/
def PushRaced (A B : Nat) (t : Thread) : Prop :=
  t = .append_link B A ∨ t = .append_check_raced B A ∨ t = .append_install B

/-- The shared states and the steps that a `push(B)` and a `try_pop(node_ptr)`
can be at when they run concurrently on the queue at address `self` that
holds the single node `A`; `p` is the content of `*node_ptr` at the call. -/
def PushPop (self A B p : Nat) (s : State) (tP tC : Thread) : Prop :=
  s.self = self ∧
  (((tC = .pop_start p ∨ tC = .pop_load_next p A ∨ tC = .pop_claim p A self) ∧ s.head = A ∧
      ((NotSwapped s B tP ∧ s.tail = A ∧ s.slot A = self) ∨
       (tP = .append_link B A ∧ s.tail = B ∧ s.slot A = self ∧ s.slot B = self) ∨
       (tP = .append_done ∧ s.tail = B ∧ s.slot A = B ∧ s.slot B = self))) ∨
   ((tC = .pop_advance p A B ∨ tC = .pop_done false p) ∧ tP = .append_done ∧
      s.head = A ∧ s.tail = B ∧ s.slot A = B ∧ s.slot B = self) ∨
   (tC = .pop_unlink A ∧ tP = .append_done ∧
      s.head = B ∧ s.tail = B ∧ s.slot A = B ∧ s.slot B = self) ∨
   (s.slot A = NULL ∧
     ((tC = .pop_clear_head A ∧ NotSwapped s B tP ∧ s.head = A ∧ s.tail = A) ∨
      (tC = .pop_clear_head A ∧ PushRaced A B tP ∧
        s.head = A ∧ s.tail = B ∧ s.slot B = self) ∨
      (tC = .pop_clear_tail A ∧ NotSwapped s B tP ∧ s.head = NULL ∧ s.tail = A) ∨
      (tC = .pop_done true A ∧ NotSwapped s B tP ∧ s.head = NULL ∧ s.tail = NULL) ∨
      ((tC = .pop_clear_tail A ∨ tC = .pop_done true A) ∧ PushRaced A B tP ∧
        s.head = NULL ∧ s.tail = B ∧ s.slot B = self) ∨
      (tC = .pop_done true A ∧ tP = .append_check_empty B ∧
        s.head = NULL ∧ s.tail = B ∧ s.slot B = self) ∨
      ((tC = .pop_clear_head A ∨ tC = .pop_clear_tail A ∨ tC = .pop_done true A) ∧
        tP = .append_done ∧ s.head = B ∧ s.tail = B ∧ s.slot B = self))))

/-! ## Any number of threads

Producers call `push` with nodes that are not in a queue, consumers call
`try_pop` (the body of the loop of `pop`); every thread is either between two
calls or at an atomic step of its call, and the atomic steps of all threads
interleave in any order. -/

/-- A thread between two calls: its last call has returned. -/
def Thread.idle : Thread → Bool
  | .append_done => true
  | .pop_done _ _ => true
  | .take_done _ _ => true
  | _ => false

/-- What happens next: thread `i` calls `push(node)`, thread `i` calls
`try_pop` with `*node_ptr = node_ptr`, or thread `i` takes the next atomic step
of its call in progress. -/
inductive Event
  | push (i node : Nat)
  | try_pop (i node_ptr : Nat)
  | step (i : Nat)
  deriving DecidableEq

/-- The node that a step hands to the caller of `try_pop`: the step completes a
call (`t` is in progress, `t1` has returned) with the result `true` and a node
in `*node_ptr`. -/
def Thread.delivers (t t1 : Thread) : List Nat :=
  match t1 with
  | .pop_done true n => if t.idle = true ∨ n = NULL then [] else [n]
  | _ => []

/-- The shared state, the threads, and two logs: the nodes passed to `push` so
far and the nodes returned by `try_pop` so far, latest first. -/
structure Machine where
  state : State
  threads : List Thread
  pushed : List Nat
  popped : List Nat

/-- A queue that has just been constructed, and `n` threads between calls. -/
def Machine.start (self : Nat) (slot : Nat → Nat) (n : Nat) : Machine :=
  { state := new self slot, threads := List.replicate n .append_done, pushed := [], popped := [] }

/-- One event.  A call is started by a thread that is between calls; `push` is
called with a real node that has not been pushed before and whose next-slot is
null (the precondition of `append`).  An event that cannot happen leaves the
machine as it is. -/
def Machine.fire (c : Machine) : Event → Machine
  | .push i n =>
    match c.threads[i]? with
    | none => c
    | some t =>
      if t.idle = true ∧ n ∉ c.pushed ∧ IsNode c.state n ∧ next c.state n = NULL then
        { c with threads := c.threads.set i (.append_start n n), pushed := n :: c.pushed }
      else c
  | .try_pop i p =>
    match c.threads[i]? with
    | none => c
    | some t =>
      if t.idle = true then { c with threads := c.threads.set i (.pop_start p) } else c
  | .step i =>
    match c.threads[i]? with
    | none => c
    | some t =>
      let r := Thread.step c.state t
      { state := r.1, threads := c.threads.set i r.2, pushed := c.pushed,
        popped := Thread.delivers t r.2 ++ c.popped }

/-- The machine after a sequence of events. -/
def Machine.exec (c : Machine) (evs : List Event) : Machine :=
  evs.foldl Machine.fire c

/-- The node that a `push` in progress is pushing. -/
def Thread.holding : Thread → Option Nat
  | .append_start f _ => some f
  | .append_mark f _ => some f
  | .append_xchg f _ => some f
  | .append_check_empty f => some f
  | .append_link f _ => some f
  | .append_check_raced f _ => some f
  | .append_install f => some f
  | _ => none

/-- The node of a `push` in progress that has not yet exchanged `tail`. -/
def Thread.unlinked : Thread → Option Nat
  | .append_start f _ => some f
  | .append_mark f _ => some f
  | .append_xchg f _ => some f
  | _ => none

/-- The node that a `try_pop` in progress has claimed and not yet returned. -/
def Thread.claimed : Thread → Option Nat
  | .pop_unlink n => some n
  | .pop_clear_head n => some n
  | .pop_clear_tail n => some n
  | _ => none

/-- `Adjacent a b l`: the node `b` follows the node `a` in `l`. -/
def Adjacent (a b : Nat) : List Nat → Prop
  | [] => False
  | x :: l => (x = a ∧ l.head? = some b) ∨ Adjacent a b l

/-- The head is null or it still holds the last claimed node, which was claimed
by the compare-and-swap of its next-slot (Clause 2 of `try_pop`). -/
def Stale (gone adv : List Nat) (s : State) : Prop :=
  s.head = NULL ∨ (gone.getLast? = some s.head ∧ s.head ∉ adv)

/-- The node `oh` has been loaded from `head`: it is claimed, or it is the
first unclaimed node and `head` holds it. -/
def Seen (gone live : List Nat) (s : State) (oh : Nat) : Prop :=
  oh ∈ gone ∨ (live.head? = some oh ∧ s.head = oh)

/-- The push of `n` has exchanged `tail` and has found `m` in it, and `m` has
been claimed by Clause 2 before the push could link `n` behind it: the push
will install `n` as the head. -/
def Raced (gone live adv : List Nat) (s : State) (n m : Nat) : Prop :=
  gone.getLast? = some m ∧ live.head? = some n ∧ s.slot m = NULL ∧ m ∉ adv ∧
  (s.head = NULL ∨ s.head = m)

/-- What a thread at a given step knows.  The nodes that have exchanged `tail`
are, in the order of the exchanges, `gone ++ live`: the nodes of `gone` have
been claimed by a `try_pop`, those of `adv` by advancing the head (Clause 1c),
and the nodes of `live` have not been claimed. -/
def Local (gone live adv : List Nat) (s : State) : Thread → Prop
  | .append_start f l => f = l ∧ f ∉ gone ++ live ∧ s.slot f = NULL ∧ IsNode s f
  | .append_mark f l => f = l ∧ f ∉ gone ++ live ∧ s.slot f = NULL ∧ IsNode s f
  | .append_xchg f l => f = l ∧ f ∉ gone ++ live ∧ s.slot f = s.self ∧ IsNode s f
  | .append_check_empty n => live.head? = some n ∧ s.head = NULL
  | .append_link n m => (Adjacent m n live ∧ s.slot m = s.self) ∨ Raced gone live adv s n m
  | .append_check_raced n m => Raced gone live adv s n m
  | .append_install n => live.head? = some n ∧ Stale gone adv s
  | .append_done => True
  | .pop_start _ => True
  | .pop_load_next _ oh => Seen gone live s oh
  | .pop_advance _ oh nn =>
    Seen gone live s oh ∧ nn ≠ s.self ∧
      ((nn = NULL ∧ oh ∈ gone) ∨
       (nn ≠ NULL ∧ (oh ∈ adv ∨ (live.head? = some oh ∧ s.slot oh = nn))))
  | .pop_claim _ oh nn => nn = s.self ∧ Seen gone live s oh
  | .pop_unlink oh => oh ∈ adv
  | .pop_clear_head oh => oh ∈ gone ∧ oh ∉ adv ∧ s.slot oh = NULL
  | .pop_clear_tail oh => oh ∈ gone ∧ oh ∉ adv ∧ s.slot oh = NULL ∧ s.head ≠ oh
  | .pop_done _ _ => True
  | .take_done _ _ => True
  | _ => False

/-- The invariant of the machine.  `gone ++ live` lists the nodes that have
exchanged `tail`, in that order; see `Local`.  A link between two unclaimed
nodes is in place or the push of the second one is in progress; `head` holds
the first unclaimed node or the push of that node is in progress; the next-slot
of a claimed node is null or its claimer is about to clear it. -/
structure Inv (gone live adv : List Nat) (s : State) (ths : List Thread)
    (pushed popped : List Nat) : Prop where
  self_ne : s.self ≠ NULL
  nodup : (gone ++ live).Nodup
  nodes : ∀ n ∈ gone ++ live, IsNode s n
  adv_sub : ∀ n ∈ adv, n ∈ gone
  tail_ok : live.getLast? = some s.tail ∨
    (live = [] ∧ ((s.tail = NULL ∧ s.head = NULL) ∨
      (gone.getLast? = some s.tail ∧ s.tail ∉ adv ∧ s.tail ∈ ths.filterMap Thread.claimed ∧
        (s.head = NULL ∨ s.head = s.tail))))
  head_ok : ∀ n, live.head? = some n →
    s.head = n ∨ (n ∈ ths.filterMap Thread.holding ∧ Stale gone adv s)
  links : ∀ a b, Adjacent a b live →
    s.slot a = b ∨ (s.slot a = s.self ∧ b ∈ ths.filterMap Thread.holding)
  last_link : ∀ a, live.getLast? = some a → s.slot a = s.self
  gone_slots : ∀ n ∈ gone, s.slot n = NULL ∨
    (n ∈ adv ∧ n ∈ ths.filterMap Thread.claimed ∧ s.slot n ≠ s.self)
  claimed : (popped ++ ths.filterMap Thread.claimed).Perm gone
  holding : (ths.filterMap Thread.holding).Nodup
  pushed_nodup : pushed.Nodup
  pushed_perm : pushed.Perm (gone ++ live ++ ths.filterMap Thread.unlinked)
  loc : ∀ t ∈ ths, Local gone live adv s t

/-- The machine satisfies the invariant, for some bookkeeping of the nodes
that have exchanged `tail`. -/
def Machine.Good (c : Machine) : Prop :=
  ∃ gone live adv, Inv gone live adv c.state c.threads c.pushed c.popped

/-- A run of two producers (threads 0 and 1, pushing the nodes 1, 2 and 3, 4)
and two consumers (threads 2 and 3) that drains the queue.  It goes through
every atomic step of `push` and `try_pop`: a push onto the empty queue, a push
that links its node, a push that finds its predecessor claimed and installs its
node as the head, claims by Clause 1c and by Clause 2, and lost races. -/
def demoEvents : List Event :=
  [.push 1 3, .step 1, .step 1, .push 0 1, .step 0, .step 0, .step 1, .try_pop 2 0, .step 1,
   .step 1, .step 0, .push 1 4, .step 1, .step 1, .step 1, .step 1, .step 2, .try_pop 3 0,
   .step 0, .step 3, .step 2, .step 2, .step 3, .step 3, .try_pop 3 0, .push 0 2, .step 2,
   .step 3, .step 3, .step 3, .step 3, .try_pop 2 0, .try_pop 3 0, .step 2, .step 0, .step 0,
   .step 3, .step 3, .step 2, .step 2, .step 3, .step 0, .step 2, .step 2, .try_pop 2 0,
   .step 0, .step 0, .step 0, .step 2, .step 2, .step 2, .step 2, .step 2]

/-! ## Linked lists in the memory of the nodes -/

theorem headD_append (l1 l2 : List Nat) (z : Nat) :
    (l1 ++ l2).headD z = l1.headD (l2.headD z) := by
  cases l1 <;> rfl

theorem Linked_append (slot : Nat → Nat) (z : Nat) (l1 l2 : List Nat) :
    Linked slot z (l1 ++ l2) ↔ Linked slot (l2.headD z) l1 ∧ Linked slot z l2 := by
  induction l1 with
  | nil => simp [Linked]
  | cons a l ih =>
    show (slot a = (l ++ l2).headD z ∧ Linked slot z (l ++ l2)) ↔
      (slot a = l.headD (l2.headD z) ∧ Linked slot (l2.headD z) l) ∧ Linked slot z l2
    rw [ih, headD_append]
    tauto

theorem Linked_congr {slot slot1 : Nat → Nat} (z : Nat) {l : List Nat}
    (h : ∀ a ∈ l, slot1 a = slot a) : Linked slot1 z l ↔ Linked slot z l := by
  induction l with
  | nil => simp [Linked]
  | cons a l ih =>
    have ha := h a (List.mem_cons_self a l)
    have hl := ih (fun b hb => h b (List.mem_cons_of_mem a hb))
    simp only [Linked, ha, hl]

theorem Linked_slot_mem {slot : Nat → Nat} {z : Nat} {l : List Nat}
    (h : Linked slot z l) {a : Nat} (ha : a ∈ l) : slot a ∈ l ∨ slot a = z := by
  induction l with
  | nil => simp at ha
  | cons b l ih =>
    obtain ⟨hb, hl⟩ := h
    rcases List.mem_cons.mp ha with rfl | hal
    · cases l with
      | nil => right; simpa using hb
      | cons c t => left; simp [hb]
    · rcases ih hl hal with h1 | h1
      · left; exact List.mem_cons_of_mem b h1
      · right; exact h1

/-- A linked list is determined by its first node. -/
theorem Linked_unique {slot : Nat → Nat} {z : Nat} :
    ∀ {l1 l2 : List Nat}, Linked slot z l1 → Linked slot z l2 →
      (∀ a ∈ l1, a ≠ z) → (∀ a ∈ l2, a ≠ z) → l1.headD z = l2.headD z → l1 = l2
  | [], [], _, _, _, _, _ => rfl
  | [], b :: l2, _, _, _, h2, h => by
    exact absurd h.symm (h2 b (List.mem_cons_self b l2))
  | a :: l1, [], _, _, h1, _, h => by
    exact absurd h (h1 a (List.mem_cons_self a l1))
  | a :: l1, b :: l2, k1, k2, h1, h2, h => by
    have hab : a = b := h
    subst hab
    have := Linked_unique k1.2 k2.2 (fun c hc => h1 c (List.mem_cons_of_mem a hc))
      (fun c hc => h2 c (List.mem_cons_of_mem a hc)) (k1.1.symm.trans k2.1)
    rw [this]

/-- The nodes of a linked list that does not contain its own terminator are
pairwise distinct. -/
theorem Linked_nodup {slot : Nat → Nat} {z : Nat} {l : List Nat}
    (h : Linked slot z l) (hz : ∀ a ∈ l, a ≠ z) : l.Nodup := by
  induction l with
  | nil => exact List.nodup_nil
  | cons a l ih =>
    refine List.nodup_cons.mpr ⟨?_, ih h.2 (fun c hc => hz c (List.mem_cons_of_mem a hc))⟩
    intro hal
    obtain ⟨p, q, rfl⟩ := List.append_of_mem hal
    have hq : Linked slot z (a :: q) := ((Linked_append slot z p (a :: q)).mp h.2).2
    have hzq : ∀ c ∈ a :: q, c ≠ z := fun c hc =>
      hz c (List.mem_cons_of_mem a (List.mem_append_right p hc))
    have := Linked_unique hq h hzq hz rfl
    have hlen := congrArg List.length this
    simp at hlen
    omega

theorem Linked_getLastD {slot : Nat → Nat} {z : Nat} {l : List Nat}
    (h : Linked slot z l) (hl : l ≠ []) (d : Nat) : slot (l.getLastD d) = z := by
  induction l generalizing d with
  | nil => exact absurd rfl hl
  | cons a l ih =>
    cases l with
    | nil => simpa [Linked] using h.1
    | cons b t =>
      have := ih h.2 (List.cons_ne_nil b t) a
      simpa using this

theorem exists_snoc {l : List Nat} (h : l ≠ []) : ∃ l0 b, l = l0 ++ [b] := by
  rcases List.eq_nil_or_concat l with h1 | ⟨l0, b, h1⟩
  · exact absurd h1 h
  · exact ⟨l0, b, by simpa using h1⟩

theorem headD_snoc_irrel (l0 : List Nat) (b d1 d2 : Nat) :
    (l0 ++ [b]).headD d1 = (l0 ++ [b]).headD d2 := by
  cases l0 <;> rfl

/-- Re-targeting the last node of a linked list. -/
theorem Linked_relink {slot slot1 : Nat → Nat} {z z1 : Nat} {l0 : List Nat} {b : Nat}
    (h : Linked slot z (l0 ++ [b])) (h0 : ∀ a ∈ l0, slot1 a = slot a)
    (hb : slot1 b = z1) : Linked slot1 z1 (l0 ++ [b]) := by
  rw [Linked_append] at h ⊢
  refine ⟨(Linked_congr _ h0).mpr h.1, ?_⟩
  simpa [Linked] using hb

theorem WellFormed.nodup {s : State} {L : List Nat} (h : WellFormed s L) : L.Nodup :=
  Linked_nodup h.2.2.2.2 (fun a ha => (h.2.1 a ha).2)

theorem WellFormed.slot_ne_null {s : State} {L : List Nat} (h : WellFormed s L)
    {a : Nat} (ha : a ∈ L) : s.slot a ≠ NULL := by
  rcases Linked_slot_mem h.2.2.2.2 ha with h1 | h1
  · exact (h.2.1 _ h1).1
  · rw [h1]; exact h.1

/-- The effect of `append` on a well-formed queue. -/
theorem append_wellFormed {s : State} {L M : List Nat} (hwf : WellFormed s L)
    (hM : M ≠ []) (hnode : ∀ n ∈ M, IsNode s n) (hlink : Linked s.slot NULL M)
    (hdisj : ∀ n ∈ M, n ∉ L) :
    ∃ s1, append s (M.headD NULL) (M.getLastD NULL) = .ok s1 ∧ WellFormed s1 (L ++ M) ∧
      s1.self = s.self ∧ s1.tail = M.getLastD NULL ∧
      s1.head = (if L = [] then M.headD NULL else s.head) ∧
      ∀ a, s1.slot a =
        if a = M.getLastD NULL then s.self
        else if a = s.tail ∧ L ≠ [] then M.headD NULL else s.slot a := by
  obtain ⟨hself, hLn, hhead, htail, hL⟩ := hwf
  have hMnd : M.Nodup := Linked_nodup hlink (fun a ha => (hnode a ha).1)
  obtain ⟨M0, l, rfl⟩ := exists_snoc hM
  have hl0 : s.slot l = 0 := by
    have := Linked_getLastD hlink hM 0
    rwa [List.getLastD_concat] at this
  have hlM0 : l ∉ M0 := by
    intro h
    have := List.disjoint_of_nodup_append hMnd h (List.mem_singleton_self l)
    exact this
  have hlnode : IsNode s l := hnode l (by simp)
  have hlL : l ∉ L := hdisj l (by simp)
  rw [List.getLastD_concat]
  by_cases hLe : L = []
  · subst hLe
    simp only [List.headD_nil, List.getLastD_nil] at hhead htail
    refine ⟨{ s with head := (M0 ++ [l]).headD NULL, tail := l,
                     slot := fun a => if a = l then s.self else s.slot a }, ?_, ?_, rfl, rfl, ?_, ?_⟩
    · simp [append, next, hl0, set_next, xchg_tail, htail, hhead, store_head, end_marker]
    · refine ⟨hself, ?_, ?_, ?_, ?_⟩
      · intro n hn; exact hnode n (by simpa using hn)
      · simp only [List.nil_append]
      · simp
      · simp only [List.nil_append]
        refine Linked_relink hlink (fun a ha => ?_) (by simp [end_marker])
        have : a ≠ l := fun h => hlM0 (h ▸ ha)
        simp [this]
    · simp
    · intro a; simp
  · obtain ⟨L0, t, rfl⟩ := exists_snoc hLe
    rw [List.getLastD_concat] at htail
    have htnode : IsNode s t := hLn t (by simp)
    have htl : t ≠ l := fun h => hlL (h ▸ (by simp))
    have htslot : s.slot t = s.self := by
      have := Linked_getLastD hL hLe 0
      rwa [List.getLastD_concat] at this
    have hLnd : (L0 ++ [t]).Nodup := Linked_nodup hL (fun a ha => (hLn a ha).2)
    have htL0 : t ∉ L0 := fun h =>
      List.disjoint_of_nodup_append hLnd h (List.mem_singleton_self t)
    refine ⟨{ s with tail := l,
                     slot := fun a => if a = t then (M0 ++ [l]).headD NULL
                                      else if a = l then s.self else s.slot a }, ?_, ?_, rfl, rfl, ?_, ?_⟩
    · simp [append, next, hl0, set_next, xchg_tail, htail, htnode.1, cmpxchg_next, htl,
        htslot, end_marker, is_end]
    · refine ⟨hself, ?_, ?_, ?_, ?_⟩
      · intro n hn
        rcases List.mem_append.mp hn with h | h
        · exact hLn n h
        · exact hnode n h
      · rw [headD_append]; simpa [headD_append] using hhead
      · rw [← List.append_assoc, List.getLastD_concat]
      · rw [Linked_append]
        constructor
        · refine Linked_relink hL (fun a ha => ?_) ?_
          · have h1 : a ≠ t := fun h => htL0 (h ▸ ha)
            have h2 : a ≠ l := fun h => hlL (h ▸ (by simp [ha]))
            simp [h1, h2]
          · show (if t = t then (M0 ++ [l]).headD NULL else _) = (M0 ++ [l]).headD _
            rw [if_pos rfl]; exact headD_snoc_irrel _ _ _ _
        · refine Linked_relink hlink (fun a ha => ?_) ?_
          · have h1 : a ≠ t := fun h => hdisj a (by simp [ha]) (h ▸ (by simp))
            have h2 : a ≠ l := fun h => hlM0 (h ▸ ha)
            simp [h1, h2]
          · simp [htl.symm, end_marker]
    · simp [hLe]
    · intro a
      by_cases h1 : a = l
      · subst h1; simp [htl.symm]
      · by_cases h2 : a = t
        · subst h2; simp [h1, htail]
        · simp [h1, h2, htail]

/-! ## The operations on a well-formed queue -/

/-- A sublist that ends with a null next-slot shares no node with the queue. -/
theorem WellFormed.disjoint_of_linked {s : State} {L : List Nat} (hwf : WellFormed s L) :
    ∀ {M : List Nat}, (∀ n ∈ M, IsNode s n) → Linked s.slot NULL M → ∀ n ∈ M, n ∉ L
  | [], _, _, n, hn => by simp at hn
  | a :: M, hnode, hlink, n, hn => by
    have ih := WellFormed.disjoint_of_linked hwf
      (fun c hc => hnode c (List.mem_cons_of_mem a hc)) hlink.2
    rcases List.mem_cons.mp hn with rfl | h
    · intro hL
      have h1 := hlink.1
      rcases Linked_slot_mem hwf.2.2.2.2 hL with h2 | h2
      · cases M with
        | nil => exact (hwf.2.1 _ h2).1 (by simpa using h1)
        | cons b M1 =>
          exact ih b (List.mem_cons_self b M1) (by simpa [h1] using h2)
      · cases M with
        | nil => exact hwf.1 (by rw [← h2, h1]; rfl)
        | cons b M1 =>
          exact (hnode b (by simp)).2 (by rw [← h2, h1]; rfl)
    · exact ih n h

/-- The effect of `try_pop` on an empty queue. -/
theorem try_pop_of_head_null {s : State} (h : s.head = NULL) (p : Nat) :
    try_pop s p = (true, NULL, s) := by
  simp [try_pop, h]

/-- The effect of `try_pop` on a well-formed non-empty queue. -/
theorem try_pop_wellFormed {s : State} {a : Nat} {t : List Nat}
    (hwf : WellFormed s (a :: t)) (p : Nat) :
    ∃ s1, try_pop s p = (true, a, s1) ∧ WellFormed s1 t ∧ s1.self = s.self ∧
      s1.head = t.headD NULL ∧ s1.tail = (if t = [] then NULL else s.tail) ∧
      ∀ b, s1.slot b = if b = a then NULL else s.slot b := by
  have hnd := hwf.nodup
  obtain ⟨hself, hLn, hhead, htail, hL⟩ := hwf
  have ha : IsNode s a := hLn a (List.mem_cons_self a t)
  simp only [List.headD_cons] at hhead
  cases t with
  | nil =>
    have hslot : s.slot a = s.self := hL.1
    simp only [List.getLastD_cons, List.getLastD_nil] at htail
    refine ⟨{ s with head := NULL, tail := NULL,
                     slot := fun b => if b = a then NULL else s.slot b }, ?_, ?_, rfl, rfl, ?_, ?_⟩
    · simp [try_pop, hhead, ha.1, hslot, is_end, end_marker, cmpxchg_next, set_next,
        cmpxchg_head, cmpxchg_tail, htail]
    · exact ⟨hself, by simp, rfl, rfl, trivial⟩
    · simp
    · intro b; rfl
  | cons b t1 =>
    have hslot : s.slot a = b := hL.1
    have hb : IsNode s b := hLn b (by simp)
    have hab : a ∉ b :: t1 := (List.nodup_cons.mp hnd).1
    refine ⟨{ s with head := b, slot := fun c => if c = a then NULL else s.slot c },
      ?_, ?_, rfl, rfl, ?_, ?_⟩
    · have h1 : ¬ b = s.self := hb.2
      have h2 : ¬ b = 0 := hb.1
      simp [try_pop, hhead, ha.1, hslot, is_end, end_marker, cmpxchg_head, set_next, h1, h2]
    · refine ⟨hself, fun n hn => hLn n (List.mem_cons_of_mem a hn), rfl, ?_, ?_⟩
      · simpa [List.getLastD_cons] using htail
      · refine (Linked_congr _ (fun c hc => ?_)).mpr hL.2
        have : c ≠ a := fun h => hab (h ▸ hc)
        simp [this]
    · simp
    · intro c; rfl

/-- The effect of `pop` on a well-formed queue: one call to `try_pop` suffices. -/
theorem pop_wellFormed {s : State} {L : List Nat} (hwf : WellFormed s L) (fuel : Nat) :
    ∃ s1, pop s (fuel + 1) = .ok (L.headD NULL, s1) ∧ try_pop s NULL = (true, L.headD NULL, s1) ∧
      WellFormed s1 L.tail := by
  cases L with
  | nil =>
    refine ⟨s, ?_, try_pop_of_head_null hwf.2.2.1 _, hwf⟩
    simp [pop, pop_loop, try_pop_of_head_null hwf.2.2.1]
  | cons a t =>
    obtain ⟨s1, h1, h2, -⟩ := try_pop_wellFormed hwf NULL
    exact ⟨s1, by simp [pop, pop_loop, h1], h1, h2⟩

/-- The effect of `take_all` on a well-formed queue. -/
theorem take_all_wellFormed {s : State} {L : List Nat} (hwf : WellFormed s L) :
    (take_all s).1 = (L.headD NULL, L.getLastD NULL) ∧ WellFormed (take_all s).2 [] ∧
      (take_all s).2.self = s.self ∧
      ∀ b, (take_all s).2.slot b = if b = s.tail ∧ L ≠ [] then NULL else s.slot b := by
  obtain ⟨hself, hLn, hhead, htail, hL⟩ := hwf
  refine ⟨?_, ⟨?_, by simp, rfl, rfl, trivial⟩, ?_, ?_⟩
  · simp only [take_all, store_head, store_tail, ← hhead, ← htail]
    split <;> rfl
  · simp only [take_all, store_head, store_tail, end_marker]
    split <;> exact hself
  · simp only [take_all, store_head, store_tail]
    split <;> rfl
  · intro b
    by_cases hLe : L = []
    · subst hLe
      have : s.tail = 0 := htail
      simp [take_all, store_head, store_tail, this]
    · obtain ⟨L0, t, rfl⟩ := exists_snoc hLe
      rw [List.getLastD_concat] at htail
      have : s.tail ≠ 0 := by rw [htail]; exact (hLn t (by simp)).1
      simp [take_all, store_head, store_tail, this, set_next]

theorem pop_zero (s : State) : pop s 0 = .error .out_of_fuel := rfl

theorem push_wellFormed {s : State} {L : List Nat} (hwf : WellFormed s L) {n : Nat}
    (hn : IsNode s n) (hpre : next s n = NULL) :
    ∃ s1, push s n = .ok s1 ∧ WellFormed s1 (L ++ [n]) ∧ s1.self = s.self ∧
      s1.head ≠ NULL ∧
      ∀ a, s1.slot a =
        if a = n then s.self else if a = s.tail ∧ L ≠ [] then n else s.slot a := by
  have hnode : ∀ m ∈ [n], IsNode s m := by
    intro m hm; rw [List.mem_singleton.mp hm]; exact hn
  have hlink : Linked s.slot NULL [n] := ⟨hpre, trivial⟩
  obtain ⟨s1, h1, h2, h3, -, h5, h6⟩ := append_wellFormed hwf (List.cons_ne_nil n [])
    hnode hlink (hwf.disjoint_of_linked hnode hlink)
  refine ⟨s1, h1, h2, h3, ?_, h6⟩
  rw [h5]
  split
  · exact hn.1
  · rename_i hL
    obtain ⟨a, t, rfl⟩ := List.exists_cons_of_ne_nil hL
    rw [hwf.2.2.1]
    exact (hwf.2.1 a (List.mem_cons_self a t)).1

theorem push_precondition {s s1 : State} {n : Nat} (h : push s n = .ok s1) :
    next s n = NULL := by
  by_contra hne
  simp [push, append, hne] at h

theorem append_precondition {s s1 : State} {f l : Nat} (h : append s f l = .ok s1) :
    next s l = NULL := by
  by_contra hne
  simp [append, hne] at h

/-- Every state reached in single-threaded use is well-formed. -/
theorem reachable_wellFormed {s : State} (h : Reachable s) : ∃ L, WellFormed s L := by
  induction h with
  | new self slot hself => exact ⟨[], hself, by simp, rfl, rfl, trivial⟩
  | @push s s1 n _ hn hpush ih =>
    obtain ⟨L, hwf⟩ := ih
    obtain ⟨s2, h1, h2, -⟩ := push_wellFormed hwf hn (push_precondition hpush)
    rw [h1] at hpush
    cases hpush
    exact ⟨_, h2⟩
  | @append s s1 M _ hM hnode hlink happ ih =>
    obtain ⟨L, hwf⟩ := ih
    obtain ⟨s2, h1, h2, -⟩ := append_wellFormed hwf hM hnode hlink
      (hwf.disjoint_of_linked hnode hlink)
    rw [h1] at happ
    cases happ
    exact ⟨_, h2⟩
  | @try_pop s p _ ih =>
    obtain ⟨L, hwf⟩ := ih
    cases L with
    | nil => rw [try_pop_of_head_null hwf.2.2.1]; exact ⟨[], hwf⟩
    | cons a t =>
      obtain ⟨s1, h1, h2, -⟩ := try_pop_wellFormed hwf p
      rw [h1]; exact ⟨t, h2⟩
  | @pop s s1 fuel r _ hpop ih =>
    obtain ⟨L, hwf⟩ := ih
    cases fuel with
    | zero => rw [pop_zero] at hpop; cases hpop
    | succ k =>
      obtain ⟨s2, h1, -, h2⟩ := pop_wellFormed hwf k
      rw [h1] at hpop
      cases hpop
      exact ⟨_, h2⟩
  | @take_all s _ ih =>
    obtain ⟨L, hwf⟩ := ih
    exact ⟨[], (take_all_wellFormed hwf).2.1⟩

/-- In a well-formed queue `head` and `tail` are both null (empty queue) or
both nodes of the queue, the next-slot of `tail` being the end-marker. -/
theorem WellFormed.head_tail {s : State} {L : List Nat} (h : WellFormed s L) :
    (L = [] ∧ s.head = NULL ∧ s.tail = NULL) ∨
    (L ≠ [] ∧ s.head ∈ L ∧ s.tail ∈ L ∧ s.slot s.tail = end_marker s) := by
  cases L with
  | nil => exact Or.inl ⟨rfl, h.2.2.1, h.2.2.2.1⟩
  | cons a t =>
    right
    have hne : a :: t ≠ [] := List.cons_ne_nil a t
    refine ⟨hne, ?_, ?_, ?_⟩
    · rw [h.2.2.1]; exact List.mem_cons_self a t
    · rw [h.2.2.2.1]
      obtain ⟨l0, b, hb⟩ := exists_snoc hne
      rw [hb, List.getLastD_concat]; simp
    · rw [h.2.2.2.1]; exact Linked_getLastD h.2.2.2.2 hne NULL

theorem demo1_reachable : Reachable demo1 :=
  Reachable.push 1 (Reachable.new 100 _ (by decide)) (by decide)
    (by rfl : push demo0 1 = .ok demo1)

theorem demo2_reachable : Reachable demo2 :=
  Reachable.push 2 demo1_reachable (by decide) (by rfl : push demo1 2 = .ok demo2)

/-! ## Sequences of calls -/

theorem try_pop_self (s : State) (p : Nat) : (try_pop s p).2.2.self = s.self := by
  unfold try_pop
  simp only [cmpxchg_head, cmpxchg_next, cmpxchg_tail, set_next]
  split_ifs <;> rfl

theorem IsNode_of_self {s s1 : State} (h : s1.self = s.self) {n : Nat}
    (hn : IsNode s n) : IsNode s1 n := by
  unfold IsNode end_marker at *
  rw [h]; exact hn

theorem run_push_ok (fuel : Nat) {s s1 : State} {n : Nat} (ops : List Op)
    (h : push s n = .ok s1) : run fuel s (.push n :: ops) = run fuel s1 ops := by
  simp [run, h]

theorem run_pop_ok (fuel : Nat) {s s1 : State} {r : Nat} (ops : List Op)
    (h : pop s fuel = .ok (r, s1)) :
    run fuel s (.pop :: ops) =
      match run fuel s1 ops with
      | .error e => .error e
      | .ok t => .ok (t.1, r :: t.2) := by
  simp [run, h]

/-- The queue refines the FIFO of the specification: from a well-formed queue
with contents `L`, a sequence of pushes (of real nodes) and pops either stops
at a push whose precondition fails, or returns what the FIFO started with `L`
returns, and ends well-formed with the contents that the FIFO ends with. -/
theorem run_refines (fuel : Nat) :
    ∀ (ops : List Op) (s : State) (L : List Nat), WellFormed s L →
      (∀ n ∈ pushed ops, IsNode s n) →
      run (fuel + 1) s ops = .error .precondition ∨
      ∃ s1, run (fuel + 1) s ops = .ok (s1, fifo_spec L ops) ∧
        WellFormed s1 (fifo_final L ops) ∧ s1.self = s.self
  | [], s, L, hwf, _ => Or.inr ⟨s, rfl, hwf, rfl⟩
  | .push n :: ops, s, L, hwf, hnodes => by
    have hn : IsNode s n := hnodes n (by simp [pushed])
    by_cases hpre : next s n = NULL
    · obtain ⟨s1, h1, h2, h3, -⟩ := push_wellFormed hwf hn hpre
      rw [run_push_ok _ ops h1]
      have ih := run_refines fuel ops s1 (L ++ [n]) h2
        (fun m hm => IsNode_of_self h3 (hnodes m (by simp [pushed, hm])))
      rcases ih with ih | ⟨s2, h4, h5, h6⟩
      · exact Or.inl ih
      · exact Or.inr ⟨s2, h4, h5, h6.trans h3⟩
    · left
      simp [run, push, append, hpre]
  | .pop :: ops, s, L, hwf, hnodes => by
    obtain ⟨s1, h1, h2, h3⟩ := pop_wellFormed hwf fuel
    have hs : s1.self = s.self := by
      have := try_pop_self s NULL
      rw [h2] at this; exact this
    rw [run_pop_ok _ ops h1]
    have ih := run_refines fuel ops s1 L.tail h3
      (fun m hm => IsNode_of_self hs (hnodes m (by simpa [pushed] using hm)))
    rcases ih with ih | ⟨s2, h4, h5, h6⟩
    · left; rw [ih]
    · right
      refine ⟨s2, ?_, ?_, h6.trans hs⟩
      · rw [h4]; rfl
      · exact h5

/-- In the FIFO of the specification, the nodes returned by the pops are, in
order, the first nodes of the initial content followed by the pushed nodes. -/
theorem fifo_spec_prefix :
    ∀ (ops : List Op) (L : List Nat), (∀ n ∈ L, n ≠ NULL) → (∀ n ∈ pushed ops, n ≠ NULL) →
      (fifo_spec L ops).filter (fun x => decide (x ≠ NULL)) <+: L ++ pushed ops
  | [], L, _, _ => by simp [fifo_spec]
  | .push n :: ops, L, hL, hp => by
    have ih := fifo_spec_prefix ops (L ++ [n])
      (fun m hm => by
        rcases List.mem_append.mp hm with h | h
        · exact hL m h
        · rw [List.mem_singleton.mp h]; exact hp n (by simp [pushed]))
      (fun m hm => hp m (by simp [pushed, hm]))
    simpa [fifo_spec, pushed] using ih
  | .pop :: ops, [], _, hp => by
    have ih := fifo_spec_prefix ops [] (by simp) (fun m hm => hp m (by simpa [pushed] using hm))
    simpa [fifo_spec, pushed] using ih
  | .pop :: ops, a :: q, hL, hp => by
    have ih := fifo_spec_prefix ops q (fun m hm => hL m (List.mem_cons_of_mem a hm))
      (fun m hm => hp m (by simpa [pushed] using hm))
    have ha : a ≠ NULL := hL a (List.mem_cons_self a q)
    simp only [fifo_spec, pushed, List.cons_append]
    rw [List.filter_cons_of_pos (by simpa using ha)]
    exact (List.prefix_cons_inj a).mpr ih

/-- Pushing pairwise distinct real nodes with null next-slots onto a
well-formed queue: every push returns, and the nodes are added at the back. -/
theorem run_pushes :
    ∀ (nodes : List Nat) (s : State) (L : List Nat), WellFormed s L → nodes.Nodup →
      (∀ n ∈ nodes, IsNode s n ∧ s.slot n = NULL) →
      ∃ s1, WellFormed s1 (L ++ nodes) ∧ s1.self = s.self ∧
        ∀ (fuel : Nat) (ops : List Op),
          run fuel s (nodes.map Op.push ++ ops) = run fuel s1 ops
  | [], s, L, hwf, _, _ => ⟨s, by simpa using hwf, rfl, fun _ _ => rfl⟩
  | a :: rest, s, L, hwf, hnd, hnodes => by
    obtain ⟨ha, ha0⟩ := hnodes a (List.mem_cons_self a rest)
    obtain ⟨s1, h1, h2, h3, -, h5⟩ := push_wellFormed hwf ha ha0
    have hrest : ∀ n ∈ rest, IsNode s1 n ∧ s1.slot n = NULL := by
      intro n hn
      obtain ⟨hn1, hn0⟩ := hnodes n (List.mem_cons_of_mem a hn)
      refine ⟨IsNode_of_self h3 hn1, ?_⟩
      have hna : n ≠ a := fun h => (List.nodup_cons.mp hnd).1 (h ▸ hn)
      have hnt : ¬ (n = s.tail ∧ L ≠ []) := by
        rintro ⟨h, hL⟩
        rcases hwf.head_tail with h6 | h6
        · exact hL h6.1
        · exact hwf.slot_ne_null h6.2.2.1 (h ▸ hn0)
      rw [h5, if_neg hna, if_neg hnt, hn0]
    obtain ⟨s2, h6, h7, h8⟩ := run_pushes rest s1 (L ++ [a]) h2 (List.nodup_cons.mp hnd).2 hrest
    refine ⟨s2, by simpa using h6, h7.trans h3, fun fuel ops => ?_⟩
    rw [List.map_cons, List.cons_append, run_push_ok fuel _ h1, h8]

/-- Popping as many times as a well-formed queue has nodes returns its
contents in order and leaves it empty. -/
theorem run_pops (fuel : Nat) :
    ∀ (L : List Nat) (s : State), WellFormed s L →
      ∃ s1, run (fuel + 1) s (List.replicate L.length Op.pop) = .ok (s1, L) ∧
        WellFormed s1 []
  | [], s, hwf => ⟨s, rfl, hwf⟩
  | a :: t, s, hwf => by
    obtain ⟨s1, h1, -, h3⟩ := pop_wellFormed hwf fuel
    obtain ⟨s2, h4, h5⟩ := run_pops fuel t s1 h3
    refine ⟨s2, ?_, h5⟩
    rw [List.length_cons, List.replicate_succ, run_pop_ok _ _ h1, h4]
    rfl

/-- The walk of `length()` along a linked list of real nodes that ends with
the end-marker. -/
theorem length_loop_linked (s : State) (fuel : Nat) :
    ∀ (l : List Nat) (r : Nat), (∀ n ∈ l, IsNode s n) → Linked s.slot (end_marker s) l →
      length_loop s (l.length + 1 + fuel) (l.headD (end_marker s)) r = .ok (r + l.length)
  | [], r, _, _ => by
    have hf : ([] : List Nat).length + 1 + fuel = fuel + 1 := by simp; omega
    rw [hf]
    simp [length_loop, is_end]
  | a :: t, r, hn, hl => by
    have ha := hn a (List.mem_cons_self a t)
    have ih := length_loop_linked s fuel t (r + 1)
      (fun n h => hn n (List.mem_cons_of_mem a h)) hl.2
    have hf : (a :: t).length + 1 + fuel = (t.length + 1 + fuel) + 1 := by
      simp; omega
    rw [hf, List.headD_cons]
    unfold length_loop
    have h1 : is_end s a = false := by simpa [is_end] using ha.2
    rw [h1]
    simp only [Bool.false_eq_true, if_false, if_neg ha.1, next, hl.1]
    rw [ih, List.length_cons]
    congr 1; omega

/-- On a well-formed queue `length()` returns the number of its nodes. -/
theorem length_wellFormed {s : State} {L : List Nat} (hwf : WellFormed s L) (fuel : Nat) :
    length s (L.length + 1 + fuel) = .ok L.length := by
  have hfirst : first s = L.headD (end_marker s) := by
    unfold first
    cases L with
    | nil => simp [hwf.2.2.1]
    | cons a t =>
      have : s.head = a := hwf.2.2.1
      simp [this, (hwf.2.1 a (List.mem_cons_self a t)).1]
  unfold length
  rw [hfirst, length_loop_linked s fuel L 0 hwf.2.1 hwf.2.2.2.2, Nat.zero_add]

theorem pushed_map_push (nodes : List Nat) : pushed (nodes.map Op.push) = nodes := by
  induction nodes with
  | nil => rfl
  | cons a t ih => simp [pushed, ih]

theorem fifo_spec_map_push (nodes : List Nat) :
    ∀ L : List Nat, fifo_spec L (nodes.map Op.push) = [] := by
  induction nodes with
  | nil => intro L; simp [fifo_spec]
  | cons a t ih => intro L; simp [fifo_spec, ih]

theorem fifo_final_map_push (nodes : List Nat) :
    ∀ L : List Nat, fifo_final L (nodes.map Op.push) = L ++ nodes := by
  induction nodes with
  | nil => intro L; simp [fifo_final]
  | cons a t ih => intro L; simp [fifo_final, ih]

/-! ## Which nodes have a null next-slot -/

theorem getLastD_mem {l : List Nat} (h : l ≠ []) (d : Nat) : l.getLastD d ∈ l := by
  obtain ⟨l0, b, rfl⟩ := exists_snoc h
  rw [List.getLastD_concat]; simp

/-- The contents of a well-formed queue are determined by the state. -/
theorem WellFormed.unique {s : State} {L1 L2 : List Nat} (h1 : WellFormed s L1)
    (h2 : WellFormed s L2) : L1 = L2 := by
  refine Linked_unique h1.2.2.2.2 h2.2.2.2.2 (fun a ha => (h1.2.1 a ha).2)
    (fun a ha => (h2.2.1 a ha).2) ?_
  have hh : L1.headD NULL = L2.headD NULL := h1.2.2.1.symm.trans h2.2.2.1
  cases L1 with
  | nil =>
    cases L2 with
    | nil => rfl
    | cons b t => exact absurd hh.symm (h2.2.1 b (List.mem_cons_self b t)).1
  | cons a t =>
    cases L2 with
    | nil => exact absurd hh (h1.2.1 a (List.mem_cons_self a t)).1
    | cons b t2 => exact hh

/-- The effect of `append` on the history invariant. -/
theorem HistInv.of_append {s s1 : State} {L M : List Nat} {h : History}
    (hwf : WellFormed s L) (hM : M ≠ []) (hi : HistInv s L h)
    (hslot : ∀ a, s1.slot a =
        if a = M.getLastD NULL then s.self
        else if a = s.tail ∧ L ≠ [] then M.headD NULL else s.slot a) :
    HistInv s1 (L ++ M) ⟨M ++ h.ins, h.det, h.kept.filter (fun k => decide (k ∉ M))⟩ := by
  obtain ⟨hb, hc, hd, he⟩ := hi
  have hfr : ∀ a, a ∉ L → a ∉ M → s1.slot a = s.slot a := by
    intro a haL haM
    have h1 : a ≠ M.getLastD NULL := fun e => haM (e ▸ getLastD_mem hM NULL)
    have h2 : ¬ (a = s.tail ∧ L ≠ []) := by
      rintro ⟨e, hL⟩
      rcases hwf.head_tail with h3 | h3
      · exact hL h3.1
      · exact haL (e ▸ h3.2.2.1)
    rw [hslot, if_neg h1, if_neg h2]
  refine ⟨?_, ?_, ?_, ?_⟩
  · intro n hn
    rcases List.mem_append.mp hn with h1 | h1
    · exact List.mem_append_right _ (hb n h1)
    · exact List.mem_append_left _ h1
  · intro n hn hnL
    have h1 : n ∉ L := fun e => hnL (List.mem_append_left _ e)
    have h2 : n ∉ M := fun e => hnL (List.mem_append_right _ e)
    rcases List.mem_append.mp hn with h3 | h3
    · exact absurd h3 h2
    · exact hc n h3 h1
  · intro n hn hnL hnk
    have h1 : n ∉ L := fun e => hnL (List.mem_append_left _ e)
    have h2 : n ∉ M := fun e => hnL (List.mem_append_right _ e)
    have h3 : n ∈ h.ins := by
      rcases List.mem_append.mp hn with h3 | h3
      · exact absurd h3 h2
      · exact h3
    have h4 : n ∉ h.kept := fun e => hnk (List.mem_filter.mpr ⟨e, by simpa using h2⟩)
    rw [hfr n h1 h2]
    exact hd n h3 h1 h4
  · intro k hk
    obtain ⟨hk1, hk2⟩ := List.mem_filter.mp hk
    have hkM : k ∉ M := by simpa using hk2
    obtain ⟨h1, h2, h3⟩ := he k hk1
    refine ⟨h1, ?_, ?_⟩
    · intro e
      rcases List.mem_append.mp e with h4 | h4
      · exact h2 h4
      · exact hkM h4
    · rw [hfr k h2 hkM]; exact h3

/-- The effect of a successful `try_pop` on the history invariant. -/
theorem HistInv.of_pop {s s1 : State} {L : List Nat} {h : History}
    (hwf : WellFormed s L) (hi : HistInv s L h)
    (hslot : ∀ b, s1.slot b = if b ∈ L.head? then NULL else s.slot b) :
    HistInv s1 L.tail ⟨h.ins, returned true (L.headD NULL) ++ h.det, h.kept⟩ := by
  obtain ⟨hb, hc, hd, he⟩ := hi
  cases L with
  | nil =>
    have hfr : ∀ b, s1.slot b = s.slot b := by intro b; simp [hslot]
    refine ⟨by simp, ?_, ?_, ?_⟩
    · intro n hn _; exact List.mem_append_right _ (hc n hn (by simp))
    · intro n hn _ hk; rw [hfr]; exact hd n hn (by simp) hk
    · intro k hk
      obtain ⟨h1, -, h3⟩ := he k hk
      exact ⟨List.mem_append_right _ h1, by simp, by rw [hfr]; exact h3⟩
  | cons a t =>
    have ha0 : a ≠ NULL := (hwf.2.1 a (List.mem_cons_self a t)).1
    have hret : returned true (List.headD (a :: t) NULL) = [a] := by
      simp [returned, ha0]
    have hslot1 : ∀ b, s1.slot b = if b = a then NULL else s.slot b := by
      intro b; rw [hslot]; simp [eq_comm]
    rw [hret]
    refine ⟨fun n hn => hb n (List.mem_cons_of_mem a hn), ?_, ?_, ?_⟩
    · intro n hn hnt
      have hnt1 : n ∉ t := hnt
      by_cases e : n = a
      · simp [e]
      · exact List.mem_append_right _ (hc n hn (by simp [e, hnt1]))
    · intro n hn hnt hk
      have hnt1 : n ∉ t := hnt
      by_cases e : n = a
      · rw [hslot1, if_pos e]
      · rw [hslot1, if_neg e]; exact hd n hn (by simp [e, hnt1]) hk
    · intro k hk
      obtain ⟨h1, h2, h3⟩ := he k hk
      have hka : k ≠ a := fun e => h2 (e ▸ List.mem_cons_self a t)
      refine ⟨List.mem_append_right _ h1, fun e => h2 (List.mem_cons_of_mem a e), ?_⟩
      rw [hslot1, if_neg hka]; exact h3

/-- The effect of `take_all` on the history invariant. -/
theorem HistInv.of_take_all {s : State} {L : List Nat} {h : History}
    (hwf : WellFormed s L) (hi : HistInv s L h) :
    HistInv (take_all s).2 [] ⟨h.ins, L ++ h.det, L.dropLast ++ h.kept⟩ := by
  obtain ⟨hb, hc, hd, he⟩ := hi
  obtain ⟨-, -, -, h4⟩ := take_all_wellFormed hwf
  by_cases hne : L = []
  · subst hne
    have hfr : ∀ b, (take_all s).2.slot b = s.slot b := by intro b; simp [h4]
    refine ⟨by simp, ?_, ?_, ?_⟩
    · intro n hn _; simpa using hc n hn (by simp)
    · intro n hn _ hk; rw [hfr]; exact hd n hn (by simp) (by simpa using hk)
    · intro k hk
      have hk1 : k ∈ h.kept := by simpa using hk
      obtain ⟨h1, -, h3⟩ := he k hk1
      exact ⟨by simpa using h1, by simp, by rw [hfr]; exact h3⟩
  · obtain ⟨L0, t, rfl⟩ := exists_snoc hne
    have htail : s.tail = t := by rw [hwf.2.2.2.1, List.getLastD_concat]
    have hnd := hwf.nodup
    have htL0 : t ∉ L0 := fun e =>
      List.disjoint_of_nodup_append hnd e (List.mem_singleton_self t)
    have hslot : ∀ b, (take_all s).2.slot b = if b = t then NULL else s.slot b := by
      intro b
      rw [h4, htail]
      by_cases e : b = t
      · rw [if_pos ⟨e, hne⟩, if_pos e]
      · rw [if_neg (fun x => e x.1), if_neg e]
    rw [List.dropLast_concat]
    refine ⟨by simp, ?_, ?_, ?_⟩
    · intro n hn _
      by_cases e : n ∈ L0 ++ [t]
      · exact List.mem_append_left _ e
      · exact List.mem_append_right _ (hc n hn e)
    · intro n hn _ hk
      have hk0 : n ∉ L0 := fun e => hk (List.mem_append_left _ e)
      have hk1 : n ∉ h.kept := fun e => hk (List.mem_append_right _ e)
      by_cases e : n = t
      · rw [hslot, if_pos e]
      · rw [hslot, if_neg e]
        exact hd n hn (by simp [hk0, e]) hk1
    · intro k hk
      rcases List.mem_append.mp hk with h1 | h1
      · have hkt : k ≠ t := fun e => htL0 (e ▸ h1)
        have hkL : k ∈ L0 ++ [t] := List.mem_append_left _ h1
        refine ⟨List.mem_append_left _ hkL, by simp, ?_⟩
        rw [hslot, if_neg hkt]
        exact hwf.slot_ne_null hkL
      · obtain ⟨h2, h3, h5⟩ := he k h1
        have hkt : k ≠ t := fun e => h3 (by simp [e])
        refine ⟨List.mem_append_right _ h2, by simp, ?_⟩
        rw [hslot, if_neg hkt]; exact h5

/-- The effect of `try_pop` on a well-formed queue, empty or not. -/
theorem try_pop_contents {s : State} {L : List Nat} (hwf : WellFormed s L) (p : Nat) :
    ∃ s1, try_pop s p = (true, L.headD NULL, s1) ∧ WellFormed s1 L.tail ∧
      ∀ b, s1.slot b = if b ∈ L.head? then NULL else s.slot b := by
  cases L with
  | nil => exact ⟨s, try_pop_of_head_null hwf.2.2.1 p, hwf, fun b => by simp⟩
  | cons a t =>
    obtain ⟨s1, h1, h2, -, -, -, h6⟩ := try_pop_wellFormed hwf p
    exact ⟨s1, h1, h2, fun b => by rw [h6]; simp [eq_comm]⟩

/-- Every traced state is well-formed and satisfies the history invariant. -/
theorem traced_inv {s : State} {h : History} (ht : Traced s h) :
    ∃ L, WellFormed s L ∧ HistInv s L h := by
  induction ht with
  | new self slot hself =>
    exact ⟨[], ⟨hself, by simp, rfl, rfl, trivial⟩, by simp [HistInv]⟩
  | @push s s1 h n _ hn hpush ih =>
    obtain ⟨L, hwf, hi⟩ := ih
    have hnode : ∀ m ∈ [n], IsNode s m := by
      intro m hm; rw [List.mem_singleton.mp hm]; exact hn
    have hlink : Linked s.slot NULL [n] := ⟨push_precondition hpush, trivial⟩
    obtain ⟨s2, h1, h2, -, -, -, h6⟩ := append_wellFormed hwf (List.cons_ne_nil n [])
      hnode hlink (hwf.disjoint_of_linked hnode hlink)
    have e : s1 = s2 := by
      have : push s n = .ok s2 := h1
      rw [this] at hpush; cases hpush; rfl
    subst e
    refine ⟨_, h2, ?_⟩
    have := HistInv.of_append hwf (List.cons_ne_nil n []) hi h6
    simpa using this
  | @append s s1 h M _ hM hnode hlink happ ih =>
    obtain ⟨L, hwf, hi⟩ := ih
    obtain ⟨s2, h1, h2, -, -, -, h6⟩ := append_wellFormed hwf hM hnode hlink
      (hwf.disjoint_of_linked hnode hlink)
    rw [h1] at happ
    cases happ
    exact ⟨_, h2, HistInv.of_append hwf hM hi h6⟩
  | @try_pop s h p _ ih =>
    obtain ⟨L, hwf, hi⟩ := ih
    obtain ⟨s1, h1, h2, h3⟩ := try_pop_contents hwf p
    rw [h1]
    exact ⟨_, h2, HistInv.of_pop hwf hi h3⟩
  | @pop s s1 h fuel r _ hpop ih =>
    obtain ⟨L, hwf, hi⟩ := ih
    cases fuel with
    | zero => rw [pop_zero] at hpop; cases hpop
    | succ k =>
      obtain ⟨s2, h1, h2, h3⟩ := try_pop_contents hwf NULL
      have hp : pop s (k + 1) = .ok (L.headD NULL, s2) := by
        simp [pop, pop_loop, h1]
      rw [hp] at hpop
      cases hpop
      exact ⟨_, h2, HistInv.of_pop hwf hi h3⟩
  | @take_all s h L _ hwfL ih =>
    obtain ⟨L1, hwf, hi⟩ := ih
    have e : L1 = L := hwf.unique hwfL
    subst e
    exact ⟨[], (take_all_wellFormed hwf).2.1, HistInv.of_take_all hwf hi⟩

/-- The histories lose no state: every reachable state has a history. -/
theorem reachable_traced {s : State} (h : Reachable s) : ∃ hist, Traced s hist := by
  induction h with
  | new self slot hself => exact ⟨_, Traced.new self slot hself⟩
  | push n _ hn hpush ih =>
    obtain ⟨hist, ht⟩ := ih
    exact ⟨_, Traced.push n ht hn hpush⟩
  | append M _ hM hnode hlink happ ih =>
    obtain ⟨hist, ht⟩ := ih
    exact ⟨_, Traced.append M ht hM hnode hlink happ⟩
  | try_pop p _ ih =>
    obtain ⟨hist, ht⟩ := ih
    exact ⟨_, Traced.try_pop p ht⟩
  | pop fuel r _ hpop ih =>
    obtain ⟨hist, ht⟩ := ih
    exact ⟨_, Traced.pop fuel r ht hpop⟩
  | take_all _ ih =>
    obtain ⟨hist, ht⟩ := ih
    obtain ⟨L, hwf, -⟩ := traced_inv ht
    exact ⟨_, Traced.take_all L ht hwf⟩

/-- Every traced state is reachable. -/
theorem traced_reachable {s : State} {h : History} (ht : Traced s h) : Reachable s := by
  induction ht with
  | new self slot hself => exact Reachable.new self slot hself
  | push n _ hn hpush ih => exact Reachable.push n ih hn hpush
  | append M _ hM hnode hlink happ ih => exact Reachable.append M ih hM hnode hlink happ
  | try_pop p _ ih => exact Reachable.try_pop p ih
  | pop fuel r _ hpop ih => exact Reachable.pop fuel r ih hpop
  | take_all L _ _ ih => exact Reachable.take_all ih

theorem demo2_traced : Traced demo2 ⟨[2, 1], [], []⟩ :=
  Traced.push 2
    (Traced.push 1 (Traced.new 100 _ (by decide)) (by decide)
      (by rfl : push demo0 1 = .ok demo1))
    (by decide) (by rfl : push demo1 2 = .ok demo2)

theorem demo2_taken_traced : Traced (take_all demo2).2 ⟨[2, 1], [1, 2], [1]⟩ :=
  Traced.take_all [1, 2] demo2_traced (by decide)

/-! ## Calls in progress: agreement with the calls executed without interference -/

theorem Thread.run_succ (n : Nat) (s : State) (t : Thread) :
    Thread.run (n + 1) s t = Thread.run n (Thread.step s t).1 (Thread.step s t).2 := rfl

theorem Thread.run_zero (s : State) (t : Thread) : Thread.run 0 s t = (s, t) := rfl

/-- The atomic steps of `try_pop`, taken in a row, are `try_pop`. -/
theorem run_pop_start (s : State) (p : Nat) :
    Thread.run 5 s (.pop_start p) =
      ((try_pop s p).2.2, .pop_done (try_pop s p).1 (try_pop s p).2.1) := by
  by_cases h1 : s.head = 0
  · simp [Thread.run_succ, Thread.run_zero, Thread.step, try_pop, h1]
  · by_cases h2 : s.slot s.head = s.self
    · simp [Thread.run_succ, Thread.run_zero, Thread.step, try_pop, h1, h2, is_end,
        end_marker, cmpxchg_next, cmpxchg_head, cmpxchg_tail, set_next]
    · by_cases h3 : s.slot s.head = 0
      · have h4 : ¬ 0 = s.self := fun e => h2 (h3.trans e)
        simp [Thread.run_succ, Thread.run_zero, Thread.step, try_pop, h1, h3, h4, is_end,
          end_marker, cmpxchg_next, cmpxchg_head, cmpxchg_tail, set_next]
      · simp [Thread.run_succ, Thread.run_zero, Thread.step, try_pop, h1, h2, h3, is_end,
          end_marker, cmpxchg_next, cmpxchg_head, cmpxchg_tail, set_next]

/-- The atomic steps of `take_all`, taken in a row, are `take_all`. -/
theorem run_take_start (s : State) :
    Thread.run 5 s .take_start =
      ((take_all s).2, .take_done (take_all s).1.1 (take_all s).1.2) := by
  by_cases h1 : s.tail = 0
  · simp [Thread.run_succ, Thread.run_zero, Thread.step, take_all, h1, store_head, store_tail]
  · simp [Thread.run_succ, Thread.run_zero, Thread.step, take_all, h1, store_head, store_tail,
      set_next]

/-- The atomic steps of `append`, taken in a row, are `append`: the call
returns in the state that `append` gives, or fails the assertion that `append`
fails. -/
theorem run_append_start (s : State) (f l : Nat) :
    match append s f l with
    | .ok s1 => Thread.run 6 s (.append_start f l) = (s1, .append_done)
    | .error e => (Thread.run 6 s (.append_start f l)).2 = .failed e := by
  by_cases h1 : s.slot l = 0
  · by_cases h2 : s.tail = 0
    · by_cases h3 : s.head = 0
      · simp [Thread.run_succ, Thread.run_zero, Thread.step, append, next, h1, h2, h3,
          xchg_tail, set_next, store_head, end_marker]
      · simp [Thread.run_succ, Thread.run_zero, Thread.step, append, next, h1, h2, h3,
          xchg_tail, set_next, store_head, end_marker]
    · by_cases h4 : (if s.tail = l then s.self else s.slot s.tail) = s.self
      · simp [Thread.run_succ, Thread.run_zero, Thread.step, append, next, h1, h2, h4,
          xchg_tail, set_next, store_head, end_marker, cmpxchg_next, is_end]
      · by_cases h5 : s.head = 0 ∨ s.head = s.tail
        · simp [Thread.run_succ, Thread.run_zero, Thread.step, append, next, h1, h2, h4, h5,
            xchg_tail, set_next, store_head, end_marker, cmpxchg_next, is_end]
        · simp [Thread.run_succ, Thread.run_zero, Thread.step, append, next, h1, h2, h4, h5,
            xchg_tail, set_next, store_head, end_marker, cmpxchg_next, is_end]
  · simp [Thread.run_succ, Thread.run_zero, Thread.step, append, next, h1]

/-! ## Interleavings of two threads -/

theorem Config.step_zero (s : State) (a b : Thread) :
    Config.step ⟨s, [a, b]⟩ 0 = ⟨(Thread.step s a).1, [(Thread.step s a).2, b]⟩ := rfl

theorem Config.step_one (s : State) (a b : Thread) :
    Config.step ⟨s, [a, b]⟩ 1 = ⟨(Thread.step s b).1, [a, (Thread.step s b).2]⟩ := rfl

theorem Config.step_other (s : State) (a b : Thread) (i : Nat) :
    Config.step ⟨s, [a, b]⟩ (i + 2) = ⟨s, [a, b]⟩ := rfl

theorem Config.exec_cons (c : Config) (i : Nat) (sched : List Nat) :
    Config.exec c (i :: sched) = Config.exec (Config.step c i) sched := rfl

/-- A property of the shared state and the two calls in progress that every
atomic step of either thread preserves holds after every interleaving. -/
theorem exec_pair_invariant {P : State → Thread → Thread → Prop}
    (h0 : ∀ s a b, P s a b → P (Thread.step s a).1 (Thread.step s a).2 b)
    (h1 : ∀ s a b, P s a b → P (Thread.step s b).1 a (Thread.step s b).2) :
    ∀ (sched : List Nat) (s : State) (a b : Thread), P s a b →
      ∃ s1 a1 b1, Config.exec ⟨s, [a, b]⟩ sched = ⟨s1, [a1, b1]⟩ ∧ P s1 a1 b1
  | [], s, a, b, h => ⟨s, a, b, rfl, h⟩
  | 0 :: sched, s, a, b, h => by
    rw [Config.exec_cons, Config.step_zero]
    exact exec_pair_invariant h0 h1 sched _ _ _ (h0 s a b h)
  | 1 :: sched, s, a, b, h => by
    rw [Config.exec_cons, Config.step_one]
    exact exec_pair_invariant h0 h1 sched _ _ _ (h1 s a b h)
  | (i + 2) :: sched, s, a, b, h => by
    rw [Config.exec_cons, Config.step_other]
    exact exec_pair_invariant h0 h1 sched _ _ _ h

theorem TwoPushes.step_left {self X Y : Nat} (hself : self ≠ NULL) (hX : X ≠ NULL)
    (hY : Y ≠ NULL) (hXs : X ≠ self) (hYs : Y ≠ self) (hXY : X ≠ Y)
    (s : State) (tX tY : Thread) (h : TwoPushes self X Y s tX tY) :
    TwoPushes self X Y (Thread.step s tX).1 (Thread.step s tX).2 tY := by
  obtain ⟨hs, hcases⟩ := h
  have hYX : Y ≠ X := fun e => hXY e.symm
  have h0s : (0 : Nat) ≠ self := fun e => hself e.symm
  unfold NotSwapped SwappedFirst SwappedSecond at hcases
  rcases hcases with ⟨h1, h2, h3, h4⟩ | ⟨h1, h2, h3, h4⟩ | ⟨h1, h2, h3, h4⟩ |
      ⟨h1, h2, h3, h4⟩ | ⟨h1, h2, h3, h4⟩ <;>
    rcases h1 with ⟨rfl, h1⟩ | ⟨rfl, h1⟩ | ⟨rfl, h1⟩ <;>
    rcases h2 with ⟨rfl, h2⟩ | ⟨rfl, h2⟩ | ⟨rfl, h2⟩ <;>
    simp [Thread.step, TwoPushes, NotSwapped, SwappedFirst, SwappedSecond,
      next, set_next, xchg_tail, cmpxchg_next, store_head, is_end, end_marker, *]

theorem TwoPushes.symm {self X Y : Nat} {s : State} {tX tY : Thread}
    (h : TwoPushes self X Y s tX tY) : TwoPushes self Y X s tY tX := by
  obtain ⟨hs, hcases⟩ := h
  refine ⟨hs, ?_⟩
  rcases hcases with ⟨h1, h2, h3, h4⟩ | ⟨h1, h2, h3, h4⟩ | ⟨h1, h2, h3, h4⟩ |
      ⟨h1, h2, h3, h4⟩ | ⟨h1, h2, h3, h4⟩
  · exact Or.inl ⟨h2, h1, h3, h4⟩
  · exact Or.inr (Or.inr (Or.inl ⟨h2, h1, h3, h4⟩))
  · exact Or.inr (Or.inl ⟨h2, h1, h3, h4⟩)
  · exact Or.inr (Or.inr (Or.inr (Or.inr ⟨h2, h1, h3, h4⟩)))
  · exact Or.inr (Or.inr (Or.inr (Or.inl ⟨h2, h1, h3, h4⟩)))

theorem TwoPushes.step_right {self X Y : Nat} (hself : self ≠ NULL) (hX : X ≠ NULL)
    (hY : Y ≠ NULL) (hXs : X ≠ self) (hYs : Y ≠ self) (hXY : X ≠ Y)
    (s : State) (tX tY : Thread) (h : TwoPushes self X Y s tX tY) :
    TwoPushes self X Y (Thread.step s tY).1 tX (Thread.step s tY).2 :=
  (TwoPushes.step_left hself hY hX hYs hXs (fun e => hXY e.symm) s tY tX h.symm).symm

/-- An atomic step uses up one of the steps that the call can still take. -/
theorem Thread.rank_step (s : State) (t : Thread) :
    Thread.rank (Thread.step s t).2 ≤ Thread.rank t - 1 := by
  cases t <;> simp only [Thread.step, Thread.rank] <;> (try split_ifs) <;> simp [Thread.rank]

/-- After an interleaving, each of two threads has used up as many of its
steps as the schedule has given to it. -/
theorem exec_pair_rank :
    ∀ (sched : List Nat) (s : State) (a b : Thread),
      ∃ s1 a1 b1, Config.exec ⟨s, [a, b]⟩ sched = ⟨s1, [a1, b1]⟩ ∧
        Thread.rank a1 ≤ Thread.rank a - sched.count 0 ∧
        Thread.rank b1 ≤ Thread.rank b - sched.count 1
  | [], s, a, b => ⟨s, a, b, rfl, by simp, by simp⟩
  | 0 :: sched, s, a, b => by
    obtain ⟨s1, a1, b1, h1, h2, h3⟩ :=
      exec_pair_rank sched (Thread.step s a).1 (Thread.step s a).2 b
    refine ⟨s1, a1, b1, by rw [Config.exec_cons, Config.step_zero]; exact h1, ?_, ?_⟩
    · have := Thread.rank_step s a
      simp only [List.count_cons_self]
      omega
    · simpa using h3
  | 1 :: sched, s, a, b => by
    obtain ⟨s1, a1, b1, h1, h2, h3⟩ :=
      exec_pair_rank sched (Thread.step s b).1 a (Thread.step s b).2
    refine ⟨s1, a1, b1, by rw [Config.exec_cons, Config.step_one]; exact h1, ?_, ?_⟩
    · simpa using h2
    · have := Thread.rank_step s b
      simp only [List.count_cons_self]
      omega
  | (i + 2) :: sched, s, a, b => by
    obtain ⟨s1, a1, b1, h1, h2, h3⟩ := exec_pair_rank sched s a b
    refine ⟨s1, a1, b1, by rw [Config.exec_cons, Config.step_other]; exact h1, ?_, ?_⟩
    · simpa using h2
    · simpa using h3

theorem PushPop.step_push {self A B p : Nat} (hself : self ≠ NULL) (hA : A ≠ NULL)
    (hB : B ≠ NULL) (hBs : B ≠ self) (hAB : A ≠ B)
    (s : State) (tP tC : Thread) (h : PushPop self A B p s tP tC) :
    PushPop self A B p (Thread.step s tP).1 (Thread.step s tP).2 tC := by
  obtain ⟨hs, hcases⟩ := h
  have hBA : B ≠ A := fun e => hAB e.symm
  have h0s : (0 : Nat) ≠ self := fun e => hself e.symm
  unfold NotSwapped PushRaced at hcases
  rcases hcases with ⟨hc, hh, hp⟩ | ⟨hc, rfl, hh, ht, hsA, hsB⟩ | ⟨hc, rfl, hh, ht, hsA, hsB⟩ |
    ⟨hsA, hp⟩
  · rcases hp with ⟨hp, ht, hsA⟩ | ⟨rfl, ht, hsA, hsB⟩ | ⟨rfl, ht, hsA, hsB⟩
    · rcases hp with ⟨rfl, hsB⟩ | ⟨rfl, hsB⟩ | ⟨rfl, hsB⟩ <;>
        simp [Thread.step, PushPop, NotSwapped, PushRaced, next, set_next, xchg_tail,
          cmpxchg_next, store_head, is_end, end_marker, *]
    · simp [Thread.step, PushPop, NotSwapped, PushRaced, next, set_next, xchg_tail,
        cmpxchg_next, store_head, is_end, end_marker, *]
    · simp [Thread.step, PushPop, NotSwapped, PushRaced, next, set_next, xchg_tail,
        cmpxchg_next, store_head, is_end, end_marker, *]
  · simp [Thread.step, PushPop, NotSwapped, PushRaced, *]
  · simp [Thread.step, PushPop, NotSwapped, PushRaced, *]
  · rcases hp with ⟨hc, hp, hh, ht⟩ | ⟨hc, hp, hh, ht, hsB⟩ | ⟨hc, hp, hh, ht⟩ |
      ⟨hc, hp, hh, ht⟩ | ⟨hc, hp, hh, ht, hsB⟩ | ⟨hc, rfl, hh, ht, hsB⟩ |
      ⟨hc, rfl, hh, ht, hsB⟩
    · rcases hp with ⟨rfl, hsB⟩ | ⟨rfl, hsB⟩ | ⟨rfl, hsB⟩ <;>
        simp [Thread.step, PushPop, NotSwapped, PushRaced, next, set_next, xchg_tail,
          cmpxchg_next, store_head, is_end, end_marker, *]
    · rcases hp with rfl | rfl | rfl <;>
        simp [Thread.step, PushPop, NotSwapped, PushRaced, next, set_next, xchg_tail,
          cmpxchg_next, store_head, is_end, end_marker, *]
    · rcases hp with ⟨rfl, hsB⟩ | ⟨rfl, hsB⟩ | ⟨rfl, hsB⟩ <;>
        simp [Thread.step, PushPop, NotSwapped, PushRaced, next, set_next, xchg_tail,
          cmpxchg_next, store_head, is_end, end_marker, *]
    · rcases hp with ⟨rfl, hsB⟩ | ⟨rfl, hsB⟩ | ⟨rfl, hsB⟩ <;>
        simp [Thread.step, PushPop, NotSwapped, PushRaced, next, set_next, xchg_tail,
          cmpxchg_next, store_head, is_end, end_marker, *]
    · rcases hp with rfl | rfl | rfl <;>
        simp [Thread.step, PushPop, NotSwapped, PushRaced, next, set_next, xchg_tail,
          cmpxchg_next, store_head, is_end, end_marker, *]
    · simp [Thread.step, PushPop, NotSwapped, PushRaced, next, set_next, xchg_tail,
        cmpxchg_next, store_head, is_end, end_marker, *]
    · simp [Thread.step, PushPop, NotSwapped, PushRaced, *]

theorem PushPop.step_pop {self A B p : Nat} (hself : self ≠ NULL) (hA : A ≠ NULL)
    (hB : B ≠ NULL) (hBs : B ≠ self) (hAB : A ≠ B)
    (s : State) (tP tC : Thread) (h : PushPop self A B p s tP tC) :
    PushPop self A B p (Thread.step s tC).1 tP (Thread.step s tC).2 := by
  obtain ⟨hs, hcases⟩ := h
  have hBA : B ≠ A := fun e => hAB e.symm
  have h0s : (0 : Nat) ≠ self := fun e => hself e.symm
  rcases hcases with ⟨hc, hh, hp⟩ | ⟨hc, rfl, hh, ht, hsA, hsB⟩ | ⟨rfl, rfl, hh, ht, hsA, hsB⟩ |
    ⟨hsA, hp⟩
  · rcases hp with ⟨hp, ht, hsA⟩ | ⟨rfl, ht, hsA, hsB⟩ | ⟨rfl, ht, hsA, hsB⟩ <;>
      rcases hc with rfl | rfl | rfl <;>
      simp [Thread.step, PushPop, PushRaced, next, set_next, cmpxchg_head, cmpxchg_tail,
        cmpxchg_next, is_end, end_marker, NotSwapped, *] <;>
      (simp only [NotSwapped, end_marker, hs] at hp; tauto)
  · rcases hc with rfl | rfl <;>
      simp [Thread.step, PushPop, PushRaced, next, set_next, cmpxchg_head, cmpxchg_tail,
        cmpxchg_next, is_end, end_marker, *]
  · simp [Thread.step, PushPop, PushRaced, next, set_next, cmpxchg_head, cmpxchg_tail,
      cmpxchg_next, is_end, end_marker, *]
  · rcases hp with ⟨rfl, hp, hh, ht⟩ | ⟨rfl, hp, hh, ht, hsB⟩ | ⟨rfl, hp, hh, ht⟩ |
      ⟨rfl, hp, hh, ht⟩ | ⟨hc, hp, hh, ht, hsB⟩ | ⟨rfl, rfl, hh, ht, hsB⟩ |
      ⟨hc, rfl, hh, ht, hsB⟩
    · simp [Thread.step, PushPop, PushRaced, next, set_next, cmpxchg_head, cmpxchg_tail,
        cmpxchg_next, is_end, end_marker, NotSwapped, *]
      simp only [NotSwapped, end_marker, hs] at hp; tauto
    · simp [Thread.step, PushPop, PushRaced, next, set_next, cmpxchg_head, cmpxchg_tail,
        cmpxchg_next, is_end, end_marker, *]
      simp only [PushRaced] at hp; tauto
    · simp [Thread.step, PushPop, PushRaced, next, set_next, cmpxchg_head, cmpxchg_tail,
        cmpxchg_next, is_end, end_marker, NotSwapped, *]
      simp only [NotSwapped, end_marker, hs] at hp; tauto
    · simp [Thread.step, PushPop, PushRaced, next, set_next, cmpxchg_head, cmpxchg_tail,
        cmpxchg_next, is_end, end_marker, NotSwapped, *]
      simp only [NotSwapped, end_marker, hs] at hp; tauto
    · rcases hc with rfl | rfl <;>
        simp [Thread.step, PushPop, PushRaced, next, set_next, cmpxchg_head, cmpxchg_tail,
          cmpxchg_next, is_end, end_marker, *] <;>
        (simp only [PushRaced] at hp; tauto)
    · simp [Thread.step, PushPop, PushRaced, next, set_next, cmpxchg_head, cmpxchg_tail,
        cmpxchg_next, is_end, end_marker, *]
    · rcases hc with rfl | rfl | rfl <;>
        simp [Thread.step, PushPop, PushRaced, next, set_next, cmpxchg_head, cmpxchg_tail,
          cmpxchg_next, is_end, end_marker, *]

theorem PushPop.not_failed {self A B p : Nat} {s : State} {tP tC : Thread}
    (h : PushPop self A B p s tP tC) (f : Fault) : tP ≠ .failed f ∧ tC ≠ .failed f := by
  constructor <;> rintro rfl <;> simp [PushPop, NotSwapped, PushRaced] at h

theorem PushPop.push_done {self A B p : Nat} {s : State} {tP tC : Thread}
    (h : PushPop self A B p s tP tC) (h0 : Thread.rank tP = 0) : tP = .append_done := by
  cases tP <;> simp [Thread.rank] at h0 ⊢ <;> simp [PushPop, NotSwapped, PushRaced] at h

theorem PushPop.pop_done {self A B p : Nat} {s : State} {tP tC : Thread}
    (h : PushPop self A B p s tP tC) (h0 : Thread.rank tC = 0) :
    ∃ r n, tC = .pop_done r n := by
  cases tC <;> simp [Thread.rank] at h0 ⊢ <;> simp [PushPop, NotSwapped, PushRaced] at h

theorem Config.exec_append (c : Config) (l1 l2 : List Nat) :
    Config.exec c (l1 ++ l2) = Config.exec (Config.exec c l1) l2 := by
  simp [Config.exec, List.foldl_append]

/-- The first of two threads takes `n` atomic steps in a row. -/
theorem exec_replicate_zero (n : Nat) :
    ∀ (s : State) (a b : Thread),
      Config.exec ⟨s, [a, b]⟩ (List.replicate n 0) =
        ⟨(Thread.run n s a).1, [(Thread.run n s a).2, b]⟩ := by
  induction n with
  | zero => intro s a b; rfl
  | succ k ih =>
    intro s a b
    rw [List.replicate_succ, Config.exec_cons, Config.step_zero, ih, Thread.run_succ]

/-- After `take_all` the nodes that were in the queue are still linked, and the
last one is followed by null. -/
theorem take_all_linked {s : State} {L : List Nat} (hwf : WellFormed s L) :
    Linked (take_all s).2.slot NULL L := by
  obtain ⟨-, -, -, h4⟩ := take_all_wellFormed hwf
  by_cases hne : L = []
  · subst hne; trivial
  · obtain ⟨L0, t, rfl⟩ := exists_snoc hne
    have htail : s.tail = t := by rw [hwf.2.2.2.1, List.getLastD_concat]
    have htL0 : t ∉ L0 := fun h =>
      List.disjoint_of_nodup_append hwf.nodup h (List.mem_singleton_self t)
    refine Linked_relink hwf.2.2.2.2 (fun a ha => ?_) ?_
    · have hat : a ≠ t := fun e => htL0 (e ▸ ha)
      rw [h4, htail, if_neg (fun h => hat h.1)]
    · rw [h4, htail, if_pos ⟨rfl, hne⟩]

/-- A `try_pop` on an empty queue, next to a call that has returned: its first
step returns success with no node, and nothing changes. -/
theorem exec_pop_on_empty (s : State) (d : Thread) (p : Nat) (hd : Thread.step s d = (s, d))
    (hh : s.head = NULL) :
    ∀ rest : List Nat,
      (Config.exec ⟨s, [d, .pop_done true NULL]⟩ rest = ⟨s, [d, .pop_done true NULL]⟩) ∧
      (Config.exec ⟨s, [d, .pop_start p]⟩ rest =
        ⟨s, [d, if rest.count 1 = 0 then .pop_start p else .pop_done true NULL]⟩)
  | [] => ⟨rfl, rfl⟩
  | 0 :: rest => by
    obtain ⟨h1, h2⟩ := exec_pop_on_empty s d p hd hh rest
    constructor
    · rw [Config.exec_cons, Config.step_zero, hd]; exact h1
    · rw [Config.exec_cons, Config.step_zero, hd, h2]; simp
  | 1 :: rest => by
    obtain ⟨h1, h2⟩ := exec_pop_on_empty s d p hd hh rest
    constructor
    · rw [Config.exec_cons, Config.step_one]; exact h1
    · rw [Config.exec_cons, Config.step_one]
      simp only [Thread.step, hh, if_true]
      rw [h1]; simp
  | (i + 2) :: rest => by
    obtain ⟨h1, h2⟩ := exec_pop_on_empty s d p hd hh rest
    constructor
    · rw [Config.exec_cons, Config.step_other]; exact h1
    · rw [Config.exec_cons, Config.step_other, h2]; simp

/-! ## Neighbours in a list -/

theorem Adjacent.mem_left {a b : Nat} {l : List Nat} (h : Adjacent a b l) : a ∈ l := by
  induction l with
  | nil => exact h.elim
  | cons x l ih =>
    rcases h with ⟨rfl, _⟩ | h
    · exact List.mem_cons_self _ _
    · exact List.mem_cons_of_mem _ (ih h)

theorem Adjacent.mem_right {a b : Nat} {l : List Nat} (h : Adjacent a b l) : b ∈ l := by
  induction l with
  | nil => exact h.elim
  | cons x l ih =>
    rcases h with ⟨_, h⟩ | h
    · exact List.mem_cons_of_mem _ (List.mem_of_mem_head? h)
    · exact List.mem_cons_of_mem _ (ih h)

theorem head?_concat_of_some {l : List Nat} {b : Nat} (h : l.head? = some b) (n : Nat) :
    (l ++ [n]).head? = some b := by
  cases l with
  | nil => simp at h
  | cons x l => simpa using h

theorem Adjacent.snoc {a b : Nat} {l : List Nat} (h : Adjacent a b l) (n : Nat) :
    Adjacent a b (l ++ [n]) := by
  induction l with
  | nil => exact h.elim
  | cons x l ih =>
    rcases h with ⟨rfl, h⟩ | h
    · exact Or.inl ⟨rfl, head?_concat_of_some h n⟩
    · exact Or.inr (ih h)

theorem Adjacent_last {l : List Nat} {x : Nat} (h : l.getLast? = some x) (n : Nat) :
    Adjacent x n (l ++ [n]) := by
  induction l with
  | nil => simp at h
  | cons y l ih =>
    cases l with
    | nil =>
      simp at h
      subst h
      exact Or.inl ⟨rfl, rfl⟩
    | cons z l =>
      rw [List.getLast?_cons_cons] at h
      exact Or.inr (ih h)

theorem Adjacent_of_concat {a b n : Nat} {l : List Nat} (h : Adjacent a b (l ++ [n])) :
    Adjacent a b l ∨ (l.getLast? = some a ∧ b = n) := by
  induction l with
  | nil =>
    rcases h with ⟨_, h⟩ | h
    · simp at h
    · exact h.elim
  | cons x l ih =>
    rcases h with ⟨rfl, h⟩ | h
    · cases l with
      | nil =>
        right
        simp at h
        simp [h]
      | cons z l =>
        left
        exact Or.inl ⟨rfl, by simpa using h⟩
    · rcases ih h with h1 | ⟨h1, h2⟩
      · exact Or.inl (Or.inr h1)
      · right
        refine ⟨?_, h2⟩
        cases l with
        | nil => simp at h1
        | cons z l => rw [List.getLast?_cons_cons]; exact h1

theorem Adjacent.right_unique {a b c : Nat} {l : List Nat} (hnd : l.Nodup)
    (h1 : Adjacent a b l) (h2 : Adjacent a c l) : b = c := by
  induction l with
  | nil => exact h1.elim
  | cons x l ih =>
    rw [List.nodup_cons] at hnd
    rcases h1 with ⟨rfl, h1⟩ | h1
    · rcases h2 with ⟨_, h2⟩ | h2
      · rw [h1] at h2
        exact Option.some.inj h2
      · exact absurd h2.mem_left hnd.1
    · rcases h2 with ⟨rfl, _⟩ | h2
      · exact absurd h1.mem_left hnd.1
      · exact ih hnd.2 h1 h2

theorem Adjacent.not_head {a n : Nat} {l : List Nat} (hnd : l.Nodup) (hn : l.head? = some n)
    (h : Adjacent a n l) : False := by
  cases l with
  | nil => exact h.elim
  | cons x l =>
    simp at hn
    subst hn
    rw [List.nodup_cons] at hnd
    rcases h with ⟨_, h⟩ | h
    · exact hnd.1 (List.mem_of_mem_head? h)
    · exact hnd.1 h.mem_right

theorem Adjacent.left_unique {a b c : Nat} {l : List Nat} (hnd : l.Nodup)
    (h1 : Adjacent a c l) (h2 : Adjacent b c l) : a = b := by
  induction l with
  | nil => exact h1.elim
  | cons x l ih =>
    rw [List.nodup_cons] at hnd
    rcases h1 with ⟨rfl, h1⟩ | h1
    · rcases h2 with ⟨rfl, _⟩ | h2
      · rfl
      · exact (Adjacent.not_head hnd.2 h1 h2).elim
    · rcases h2 with ⟨rfl, h2⟩ | h2
      · exact (Adjacent.not_head hnd.2 h2 h1).elim
      · exact ih hnd.2 h1 h2

theorem Adjacent.not_last {a b : Nat} {l : List Nat} (hnd : l.Nodup) (hl : l.getLast? = some a)
    (h : Adjacent a b l) : False := by
  induction l with
  | nil => exact h.elim
  | cons x l ih =>
    rw [List.nodup_cons] at hnd
    cases l with
    | nil =>
      rcases h with ⟨_, h⟩ | h
      · simp at h
      · exact h.elim
    | cons y l =>
      rw [List.getLast?_cons_cons] at hl
      rcases h with ⟨rfl, _⟩ | h
      · exact hnd.1 (List.mem_of_mem_getLast? hl)
      · exact ih hnd.2 hl h

/-! ## Consequences of the invariant -/

theorem Inv.live_nodup {gone live adv : List Nat} {s : State} {ths : List Thread}
    {pu po : List Nat} (h : Inv gone live adv s ths pu po) : live.Nodup :=
  h.nodup.of_append_right

theorem Inv.gone_nodup {gone live adv : List Nat} {s : State} {ths : List Thread}
    {pu po : List Nat} (h : Inv gone live adv s ths pu po) : gone.Nodup :=
  h.nodup.of_append_left

theorem Inv.not_live {gone live adv : List Nat} {s : State} {ths : List Thread}
    {pu po : List Nat} (h : Inv gone live adv s ths pu po) {n : Nat} (hn : n ∈ gone) :
    n ∉ live :=
  fun hl => List.disjoint_of_nodup_append h.nodup hn hl

theorem Inv.not_gone {gone live adv : List Nat} {s : State} {ths : List Thread}
    {pu po : List Nat} (h : Inv gone live adv s ths pu po) {n : Nat} (hn : n ∈ live) :
    n ∉ gone :=
  fun hg => List.disjoint_of_nodup_append h.nodup hg hn

theorem Inv.node_gone {gone live adv : List Nat} {s : State} {ths : List Thread}
    {pu po : List Nat} (h : Inv gone live adv s ths pu po) {n : Nat} (hn : n ∈ gone) :
    n ≠ NULL ∧ n ≠ s.self :=
  h.nodes n (List.mem_append_left _ hn)

theorem Inv.node_live {gone live adv : List Nat} {s : State} {ths : List Thread}
    {pu po : List Nat} (h : Inv gone live adv s ths pu po) {n : Nat} (hn : n ∈ live) :
    n ≠ NULL ∧ n ≠ s.self :=
  h.nodes n (List.mem_append_right _ hn)

/-- The head is null, or the first unclaimed node, or the last claimed node,
claimed by Clause 2. -/
theorem Inv.head_cases {gone live adv : List Nat} {s : State} {ths : List Thread}
    {pu po : List Nat} (h : Inv gone live adv s ths pu po) :
    s.head = NULL ∨ live.head? = some s.head ∨
      (gone.getLast? = some s.head ∧ s.head ∉ adv) := by
  cases hl : live with
  | nil =>
    rcases h.tail_ok with h1 | ⟨_, h1 | ⟨h1, h2, _, h3 | h3⟩⟩
    · simp [hl] at h1
    · exact Or.inl h1.2
    · exact Or.inl h3
    · rw [h3]; exact Or.inr (Or.inr ⟨h1, h2⟩)
  | cons n l =>
    rcases h.head_ok n (by simp [hl]) with h1 | ⟨_, h1 | h1⟩
    · right; left; simp [h1]
    · exact Or.inl h1
    · exact Or.inr (Or.inr h1)

/-- The next-slot of a claimed node does not hold the end marker. -/
theorem Inv.gone_slot_ne_self {gone live adv : List Nat} {s : State} {ths : List Thread}
    {pu po : List Nat} (h : Inv gone live adv s ths pu po) {n : Nat} (hn : n ∈ gone) :
    s.slot n ≠ s.self := by
  rcases h.gone_slots n hn with h1 | h1
  · rw [h1]; exact fun e => h.self_ne e.symm
  · exact h1.2.2

/-- The next-slot of the first unclaimed node holds the end marker or the
second unclaimed node. -/
theorem Inv.first_slot {gone live adv : List Nat} {s : State} {ths : List Thread}
    {pu po : List Nat} (h : Inv gone live adv s ths pu po) {a : Nat} {rest : List Nat}
    (hl : live = a :: rest) :
    s.slot a = s.self ∨ ∃ b, rest.head? = some b ∧ s.slot a = b ∧ b ≠ NULL ∧ b ≠ s.self := by
  cases rest with
  | nil => exact Or.inl (h.last_link a (by simp [hl]))
  | cons b l =>
    have hb : b ∈ live := by simp [hl]
    rcases h.links a b (by rw [hl]; exact Or.inl ⟨rfl, rfl⟩) with h1 | h1
    · exact Or.inr ⟨b, rfl, h1, h.node_live hb⟩
    · exact Or.inl h1.1

theorem filterMap_cons_congr {f : Thread → Option Nat} {t t1 : Thread} (h : f t1 = f t)
    (l : List Thread) : (t1 :: l).filterMap f = (t :: l).filterMap f := by
  simp [List.filterMap_cons, h]

/-- A step that changes neither the shared state nor what the stepping thread
holds or has claimed keeps the invariant, if the thread knows enough for its
new step. -/
theorem Inv.swap {gone live adv : List Nat} {s : State} {t t1 : Thread} {others : List Thread}
    {pu po : List Nat} (h : Inv gone live adv s (t :: others) pu po)
    (hh : t1.holding = t.holding) (hc : t1.claimed = t.claimed)
    (hu : t1.unlinked = t.unlinked) (hl : Local gone live adv s t1) :
    Inv gone live adv s (t1 :: others) pu po := by
  have e1 := filterMap_cons_congr hh others
  have e2 := filterMap_cons_congr hc others
  have e3 := filterMap_cons_congr hu others
  refine ⟨h.self_ne, h.nodup, h.nodes, h.adv_sub, ?_, ?_, ?_, h.last_link, ?_, ?_, ?_,
    h.pushed_nodup, ?_, ?_⟩
  · rw [e2]; exact h.tail_ok
  · rw [e1]; exact h.head_ok
  · rw [e1]; exact h.links
  · rw [e2]; exact h.gone_slots
  · rw [e2]; exact h.claimed
  · rw [e1]; exact h.holding
  · rw [e3]; exact h.pushed_perm
  · intro u hu
    rcases List.mem_cons.1 hu with rfl | hu
    · exact hl
    · exact h.loc u (List.mem_cons_of_mem _ hu)

/-- What a thread knows depends on the shared state only through the end
marker, the head, and the next-slots of the nodes that have exchanged `tail`
and of the node that the thread is pushing. -/
theorem Local.congr {gone live adv : List Nat} {s s1 : State} {u : Thread}
    (h : Local gone live adv s u) (hself : s1.self = s.self) (hhead : s1.head = s.head)
    (hslot : ∀ a, a ∈ gone ++ live ∨ u.holding = some a → s1.slot a = s.slot a) :
    Local gone live adv s1 u := by
  have hg : ∀ {a}, a ∈ gone → s1.slot a = s.slot a :=
    fun ha => hslot _ (Or.inl (List.mem_append_left _ ha))
  have hv : ∀ {a}, a ∈ live → s1.slot a = s.slot a :=
    fun ha => hslot _ (Or.inl (List.mem_append_right _ ha))
  have hr : ∀ {n m}, Raced gone live adv s n m → Raced gone live adv s1 n m := by
    intro n m ⟨h1, h2, h3, h4, h5⟩
    exact ⟨h1, h2, by rw [hg (List.mem_of_mem_getLast? h1)]; exact h3, h4, by rw [hhead]; exact h5⟩
  cases u with
  | append_start f l =>
    obtain ⟨h1, h2, h3, h4⟩ := h
    exact ⟨h1, h2, by rw [hslot f (Or.inr rfl)]; exact h3,
      by simpa [IsNode, end_marker, hself] using h4⟩
  | append_mark f l =>
    obtain ⟨h1, h2, h3, h4⟩ := h
    exact ⟨h1, h2, by rw [hslot f (Or.inr rfl)]; exact h3,
      by simpa [IsNode, end_marker, hself] using h4⟩
  | append_xchg f l =>
    obtain ⟨h1, h2, h3, h4⟩ := h
    exact ⟨h1, h2, by rw [hslot f (Or.inr rfl), hself]; exact h3,
      by simpa [IsNode, end_marker, hself] using h4⟩
  | append_check_empty n => exact ⟨h.1, by rw [hhead]; exact h.2⟩
  | append_link n m =>
    rcases h with ⟨h1, h2⟩ | h
    · exact Or.inl ⟨h1, by rw [hv h1.mem_left, hself]; exact h2⟩
    · exact Or.inr (hr h)
  | append_check_raced n m => exact hr h
  | append_install n => exact ⟨h.1, by simpa [Stale, hhead] using h.2⟩
  | append_done => trivial
  | pop_start p => trivial
  | pop_load_next p oh => simpa [Local, Seen, hhead] using h
  | pop_advance p oh nn =>
    obtain ⟨h1, h2, h3⟩ := h
    refine ⟨by simpa [Seen, hhead] using h1, by rw [hself]; exact h2, ?_⟩
    rcases h3 with h3 | ⟨h3, h4 | ⟨h4, h5⟩⟩
    · exact Or.inl h3
    · exact Or.inr ⟨h3, Or.inl h4⟩
    · exact Or.inr ⟨h3, Or.inr ⟨h4, by rw [hv (List.mem_of_mem_head? h4)]; exact h5⟩⟩
  | pop_claim p oh nn => exact ⟨by rw [hself]; exact h.1, by simpa [Seen, hhead] using h.2⟩
  | pop_unlink oh => exact h
  | pop_clear_head oh => exact ⟨h.1, h.2.1, by rw [hg h.1]; exact h.2.2⟩
  | pop_clear_tail oh =>
    exact ⟨h.1, h.2.1, by rw [hg h.1]; exact h.2.2.1, by rw [hhead]; exact h.2.2.2⟩
  | pop_done r n => trivial
  | take_done a b => trivial
  | take_start => exact h
  | take_clear a => exact h
  | take_load_head a => exact h
  | take_store_head a b => exact h
  | take_store_tail a b => exact h
  | failed f => exact h

/-! ## The atomic steps of `push` keep the invariant -/

theorem mem_holding {u : Thread} {l : List Thread} {a : Nat} (hu : u ∈ l)
    (ha : u.holding = some a) : a ∈ l.filterMap Thread.holding :=
  List.mem_filterMap.2 ⟨u, hu, ha⟩

theorem Inv.step_append_start {gone live adv : List Nat} {s : State} {f l : Nat}
    {others : List Thread} {pu po : List Nat}
    (h : Inv gone live adv s (.append_start f l :: others) pu po) :
    Thread.step s (.append_start f l) = (s, .append_mark f l) ∧
      Inv gone live adv s (.append_mark f l :: others) pu po := by
  have hl : Local gone live adv s (.append_start f l) := h.loc _ (List.mem_cons_self _ _)
  obtain ⟨rfl, h2, h3, h4⟩ := hl
  refine ⟨by simp [Thread.step, next, h3], h.swap rfl rfl rfl ⟨rfl, h2, h3, h4⟩⟩

theorem Inv.step_append_mark {gone live adv : List Nat} {s : State} {f l : Nat}
    {others : List Thread} {pu po : List Nat}
    (h : Inv gone live adv s (.append_mark f l :: others) pu po) :
    Inv gone live adv (set_next s l (end_marker s)) (.append_xchg f l :: others) pu po := by
  have hl : Local gone live adv s (.append_mark f l) := h.loc _ (List.mem_cons_self _ _)
  obtain ⟨rfl, h2, h3, h4⟩ := hl
  have hnd := h.holding
  simp only [List.filterMap_cons, Thread.holding, List.nodup_cons] at hnd
  have hslot : ∀ a, a ∈ gone ++ live → (set_next s f (end_marker s)).slot a = s.slot a := by
    intro a ha
    have : a ≠ f := fun e => h2 (e ▸ ha)
    simp [set_next, this]
  refine ⟨h.self_ne, h.nodup, h.nodes, h.adv_sub, h.tail_ok, h.head_ok, ?_, ?_, ?_, h.claimed,
    h.holding, h.pushed_nodup, h.pushed_perm, ?_⟩
  · intro a b hab
    rw [hslot a (List.mem_append_right _ hab.mem_left)]
    exact h.links a b hab
  · intro a ha
    rw [hslot a (List.mem_append_right _ (List.mem_of_mem_getLast? ha))]
    exact h.last_link a ha
  · intro n hn
    rw [hslot n (List.mem_append_left _ hn)]
    exact h.gone_slots n hn
  · intro u hu
    rcases List.mem_cons.1 hu with rfl | hu
    · exact ⟨rfl, h2, by simp [set_next, end_marker], h4⟩
    · refine (h.loc u (List.mem_cons_of_mem _ hu)).congr rfl rfl ?_
      rintro a (ha | ha)
      · exact hslot a ha
      · have : a ≠ f := fun e => hnd.1 (e ▸ mem_holding hu ha)
        simp [set_next, this]

/-- Another node exchanges `tail`: what the other threads know stays true. -/
theorem Local.concat {gone live adv : List Nat} {s : State} {u : Thread}
    (h : Local gone live adv s u) (n v : Nat) (hn : u.holding ≠ some n) :
    Local gone (live ++ [n]) adv { s with tail := v } u := by
  have hr : ∀ {k m}, Raced gone live adv s k m →
      Raced gone (live ++ [n]) adv { s with tail := v } k m :=
    fun ⟨h1, h2, h3⟩ => ⟨h1, head?_concat_of_some h2 n, h3⟩
  have hseen : ∀ {oh}, Seen gone live s oh → Seen gone (live ++ [n]) { s with tail := v } oh := by
    rintro oh (h1 | ⟨h1, h2⟩)
    · exact Or.inl h1
    · exact Or.inr ⟨head?_concat_of_some h1 n, h2⟩
  have hfresh : ∀ {f}, f ≠ n → f ∉ gone ++ live → f ∉ gone ++ (live ++ [n]) := by
    intro f h1 h2
    simp only [List.mem_append, List.mem_singleton, not_or] at h2 ⊢
    exact ⟨h2.1, h2.2, h1⟩
  cases u with
  | append_start f l =>
    exact ⟨h.1, hfresh (fun e => hn (by simp [Thread.holding, e])) h.2.1, h.2.2⟩
  | append_mark f l =>
    exact ⟨h.1, hfresh (fun e => hn (by simp [Thread.holding, e])) h.2.1, h.2.2⟩
  | append_xchg f l =>
    exact ⟨h.1, hfresh (fun e => hn (by simp [Thread.holding, e])) h.2.1, h.2.2⟩
  | append_check_empty k => exact ⟨head?_concat_of_some h.1 n, h.2⟩
  | append_link k m =>
    rcases h with ⟨h1, h2⟩ | h
    · exact Or.inl ⟨h1.snoc n, h2⟩
    · exact Or.inr (hr h)
  | append_check_raced k m => exact hr h
  | append_install k => exact ⟨head?_concat_of_some h.1 n, h.2⟩
  | append_done => trivial
  | pop_start p => trivial
  | pop_load_next p oh => exact hseen h
  | pop_advance p oh nn =>
    obtain ⟨h1, h2, h3⟩ := h
    refine ⟨hseen h1, h2, ?_⟩
    rcases h3 with h3 | ⟨h3, h4 | ⟨h4, h5⟩⟩
    · exact Or.inl h3
    · exact Or.inr ⟨h3, Or.inl h4⟩
    · exact Or.inr ⟨h3, Or.inr ⟨head?_concat_of_some h4 n, h5⟩⟩
  | pop_claim p oh nn => exact ⟨h.1, hseen h.2⟩
  | pop_unlink oh => exact h
  | pop_clear_head oh => exact h
  | pop_clear_tail oh => exact h
  | pop_done r n => trivial
  | take_done a b => trivial
  | take_start => exact h
  | take_clear a => exact h
  | take_load_head a => exact h
  | take_store_head a b => exact h
  | take_store_tail a b => exact h
  | failed f => exact h

theorem Inv.step_append_xchg {gone live adv : List Nat} {s : State} {f l : Nat}
    {others : List Thread} {pu po : List Nat}
    (h : Inv gone live adv s (.append_xchg f l :: others) pu po) :
    Inv gone (live ++ [l]) adv (Thread.step s (.append_xchg f l)).1
      ((Thread.step s (.append_xchg f l)).2 :: others) pu po := by
  have hl : Local gone live adv s (.append_xchg f l) := h.loc _ (List.mem_cons_self _ _)
  obtain ⟨rfl, h2, h3, h4⟩ := hl
  have hnd := h.holding
  simp only [List.filterMap_cons, Thread.holding, List.nodup_cons] at hnd
  have hstate : (Thread.step s (.append_xchg f f)).1 = { s with tail := f } := by
    simp only [Thread.step, xchg_tail]; split_ifs <;> rfl
  have hhold : (Thread.step s (.append_xchg f f)).2.holding = some f := by
    simp only [Thread.step, xchg_tail]; split_ifs <;> rfl
  have hclaim : (Thread.step s (.append_xchg f f)).2.claimed = none := by
    simp only [Thread.step, xchg_tail]; split_ifs <;> rfl
  have hunl : (Thread.step s (.append_xchg f f)).2.unlinked = none := by
    simp only [Thread.step, xchg_tail]; split_ifs <;> rfl
  have hH : ((Thread.step s (.append_xchg f f)).2 :: others).filterMap Thread.holding =
      f :: others.filterMap Thread.holding := by
    simp [List.filterMap_cons, hhold]
  have hC : ((Thread.step s (.append_xchg f f)).2 :: others).filterMap Thread.claimed =
      (Thread.append_xchg f f :: others).filterMap Thread.claimed :=
    filterMap_cons_congr (by rw [hclaim]; rfl) others
  have hU : ((Thread.step s (.append_xchg f f)).2 :: others).filterMap Thread.unlinked =
      others.filterMap Thread.unlinked := by
    simp [List.filterMap_cons, hunl]
  have hfg : f ∉ gone := fun e => h2 (List.mem_append_left _ e)
  have hfl : f ∉ live := fun e => h2 (List.mem_append_right _ e)
  rw [hstate]
  refine ⟨h.self_ne, ?_, ?_, h.adv_sub, ?_, ?_, ?_, ?_, ?_, ?_, ?_, h.pushed_nodup, ?_, ?_⟩
  · -- nodup
    rw [← List.append_assoc]
    exact List.Nodup.append h.nodup (List.nodup_singleton f) (by simpa using h2)
  · -- nodes
    intro n hn
    rw [← List.append_assoc, List.mem_append, List.mem_singleton] at hn
    rcases hn with hn | rfl
    · exact h.nodes n hn
    · exact h4
  · exact Or.inl (by simp)
  · -- head
    intro k hk
    rw [hH]
    cases hlive : live with
    | nil =>
      rw [hlive] at hk
      simp at hk
      subst hk
      right
      refine ⟨List.mem_cons_self _ _, ?_⟩
      rcases h.tail_ok with h1 | ⟨_, h1 | ⟨h1, h5, _, h6⟩⟩
      · simp [hlive] at h1
      · exact Or.inl h1.2
      · rcases h6 with h6 | h6
        · exact Or.inl h6
        · exact Or.inr (by simpa [h6] using ⟨h1, h5⟩)
    | cons x rest =>
      rw [hlive] at hk
      simp at hk
      subst hk
      have := h.head_ok x (by simp [hlive])
      simpa [List.filterMap_cons, Thread.holding, Stale] using this
  · -- links
    intro a b hab
    rw [hH]
    rcases Adjacent_of_concat hab with hab | ⟨ha, rfl⟩
    · simpa [List.filterMap_cons, Thread.holding] using h.links a b hab
    · exact Or.inr ⟨h.last_link a ha, List.mem_cons_self _ _⟩
  · intro a ha
    simp at ha
    subst ha
    exact h3
  · rw [hC]; exact h.gone_slots
  · rw [hC]; exact h.claimed
  · rw [hH]; simpa [List.filterMap_cons, Thread.holding] using h.holding
  · rw [hU]
    simpa [List.filterMap_cons, Thread.unlinked] using h.pushed_perm
  · intro u hu
    rcases List.mem_cons.1 hu with rfl | hu
    · -- the stepping thread
      simp only [Thread.step, xchg_tail]
      split_ifs with ht
      · -- the tail was null: the queue was empty
        rcases h.tail_ok with h1 | ⟨hlive, h1 | ⟨h1, _⟩⟩
        · exact absurd ht (h.node_live (List.mem_of_mem_getLast? h1)).1
        · exact ⟨by simp [hlive], h1.2⟩
        · exact absurd ht (h.node_gone (List.mem_of_mem_getLast? h1)).1
      · rcases h.tail_ok with h1 | ⟨hlive, h1 | ⟨h1, h5, _, h6⟩⟩
        · exact Or.inl ⟨Adjacent_last h1 f, h.last_link _ h1⟩
        · exact absurd h1.1 ht
        · right
          refine ⟨h1, by simp [hlive], ?_, h5, h6⟩
          rcases h.gone_slots _ (List.mem_of_mem_getLast? h1) with h7 | h7
          · exact h7
          · exact absurd h7.1 h5
    · exact (h.loc u (List.mem_cons_of_mem _ hu)).concat f f
        (fun e => hnd.1 (mem_holding hu e))

theorem Inv.step_append_check_empty {gone live adv : List Nat} {s : State} {n : Nat}
    {others : List Thread} {pu po : List Nat}
    (h : Inv gone live adv s (.append_check_empty n :: others) pu po) :
    Thread.step s (.append_check_empty n) = (s, .append_install n) ∧
      Inv gone live adv s (.append_install n :: others) pu po := by
  have hl : Local gone live adv s (.append_check_empty n) := h.loc _ (List.mem_cons_self _ _)
  exact ⟨by simp [Thread.step, hl.2], h.swap rfl rfl rfl ⟨hl.1, Or.inl hl.2⟩⟩

theorem Inv.step_append_check_raced {gone live adv : List Nat} {s : State} {n m : Nat}
    {others : List Thread} {pu po : List Nat}
    (h : Inv gone live adv s (.append_check_raced n m :: others) pu po) :
    Thread.step s (.append_check_raced n m) = (s, .append_install n) ∧
      Inv gone live adv s (.append_install n :: others) pu po := by
  have hl : Local gone live adv s (.append_check_raced n m) := h.loc _ (List.mem_cons_self _ _)
  obtain ⟨h1, h2, _, h4, h5⟩ := hl
  refine ⟨by simp [Thread.step, h5], h.swap rfl rfl rfl ⟨h2, ?_⟩⟩
  rcases h5 with h5 | h5
  · exact Or.inl h5
  · exact Or.inr (by rw [h5]; exact ⟨h1, h4⟩)

/-- A push links its node behind the unclaimed node `m`: what the other threads
know stays true. -/
theorem Local.link {gone live adv : List Nat} {s : State} {u : Thread} {m n : Nat}
    (h : Local gone live adv s u) (hnd : live.Nodup) (hmn : Adjacent m n live)
    (hmg : m ∉ gone) (hs : s.slot m = s.self) (hn : u.holding ≠ some n) :
    Local gone live adv (set_next s m n) u := by
  have hslot : ∀ {a}, a ≠ m → (set_next s m n).slot a = s.slot a := by
    intro a ha
    simp [set_next, ha]
  have hg : ∀ {a}, a ∈ gone → (set_next s m n).slot a = s.slot a :=
    fun ha => hslot (fun e => hmg (e ▸ ha))
  have hf : ∀ {a}, a ∉ gone ++ live → (set_next s m n).slot a = s.slot a :=
    fun ha => hslot (fun e => ha (e ▸ List.mem_append_right _ hmn.mem_left))
  have hr : ∀ {k m1}, Raced gone live adv s k m1 → Raced gone live adv (set_next s m n) k m1 :=
    fun ⟨h1, h2, h3, h4⟩ => ⟨h1, h2, by rw [hg (List.mem_of_mem_getLast? h1)]; exact h3, h4⟩
  cases u with
  | append_start f l => exact ⟨h.1, h.2.1, by rw [hf h.2.1]; exact h.2.2.1, h.2.2.2⟩
  | append_mark f l => exact ⟨h.1, h.2.1, by rw [hf h.2.1]; exact h.2.2.1, h.2.2.2⟩
  | append_xchg f l => exact ⟨h.1, h.2.1, by rw [hf h.2.1]; exact h.2.2.1, h.2.2.2⟩
  | append_check_empty k => exact h
  | append_link k m1 =>
    rcases h with ⟨h1, h2⟩ | h
    · left
      refine ⟨h1, ?_⟩
      rw [hslot]
      · exact h2
      · rintro rfl
        exact hn (by rw [Adjacent.right_unique hnd h1 hmn]; rfl)
    · exact Or.inr (hr h)
  | append_check_raced k m1 => exact hr h
  | append_install k => exact h
  | append_done => trivial
  | pop_start p => trivial
  | pop_load_next p oh => exact h
  | pop_advance p oh nn =>
    obtain ⟨h1, h2, h3⟩ := h
    refine ⟨h1, h2, ?_⟩
    rcases h3 with h3 | ⟨h3, h4 | ⟨h4, h5⟩⟩
    · exact Or.inl h3
    · exact Or.inr ⟨h3, Or.inl h4⟩
    · refine Or.inr ⟨h3, Or.inr ⟨h4, ?_⟩⟩
      rw [hslot]
      · exact h5
      · rintro rfl
        exact h2 (h5 ▸ hs)
  | pop_claim p oh nn => exact h
  | pop_unlink oh => exact h
  | pop_clear_head oh => exact ⟨h.1, h.2.1, by rw [hg h.1]; exact h.2.2⟩
  | pop_clear_tail oh => exact ⟨h.1, h.2.1, by rw [hg h.1]; exact h.2.2.1, h.2.2.2⟩
  | pop_done r n => trivial
  | take_done a b => trivial
  | take_start => exact h
  | take_clear a => exact h
  | take_load_head a => exact h
  | take_store_head a b => exact h
  | take_store_tail a b => exact h
  | failed f => exact h

theorem Inv.step_append_link {gone live adv : List Nat} {s : State} {n m : Nat}
    {others : List Thread} {pu po : List Nat}
    (h : Inv gone live adv s (.append_link n m :: others) pu po) :
    Inv gone live adv (Thread.step s (.append_link n m)).1
      ((Thread.step s (.append_link n m)).2 :: others) pu po := by
  have hl : Local gone live adv s (.append_link n m) := h.loc _ (List.mem_cons_self _ _)
  have hnd := h.holding
  simp only [List.filterMap_cons, Thread.holding, List.nodup_cons] at hnd
  by_cases hs : s.slot m = s.self
  · -- the compare-and-swap succeeds
    have hstep : Thread.step s (.append_link n m) = (set_next s m n, .append_done) := by
      simp [Thread.step, cmpxchg_next, is_end, end_marker, hs, set_next]
    rw [hstep]
    have hmn : Adjacent m n live := by
      rcases hl with h1 | h1
      · exact h1.1
      · exact absurd (hs.symm.trans h1.2.2.1) h.self_ne
    have hml : m ∈ live := hmn.mem_left
    have hmg : m ∉ gone := h.not_gone hml
    have hslot : ∀ {a}, a ≠ m → (set_next s m n).slot a = s.slot a := by
      intro a ha
      simp [set_next, ha]
    refine ⟨h.self_ne, h.nodup, h.nodes, h.adv_sub, h.tail_ok, ?_, ?_, ?_, ?_, h.claimed,
      hnd.2, h.pushed_nodup, h.pushed_perm, ?_⟩
    · intro k hk
      rcases h.head_ok k hk with h1 | ⟨h1, h2⟩
      · exact Or.inl h1
      · refine Or.inr ⟨?_, h2⟩
        simp only [List.filterMap_cons, Thread.holding, List.mem_cons] at h1
        rcases h1 with rfl | h1
        · exact (Adjacent.not_head h.live_nodup hk hmn).elim
        · exact h1
    · intro a b hab
      by_cases ha : a = m
      · subst ha
        left
        rw [Adjacent.right_unique h.live_nodup hab hmn]
        simp [set_next]
      · rw [hslot ha]
        rcases h.links a b hab with h1 | ⟨h1, h2⟩
        · exact Or.inl h1
        · refine Or.inr ⟨h1, ?_⟩
          simp only [List.filterMap_cons, Thread.holding, List.mem_cons] at h2
          rcases h2 with rfl | h2
          · exact absurd (Adjacent.left_unique h.live_nodup hab hmn) ha
          · exact h2
    · intro a ha
      have : a ≠ m := by
        rintro rfl
        exact Adjacent.not_last h.live_nodup ha hmn
      rw [hslot this]
      exact h.last_link a ha
    · intro g hg
      rw [hslot (fun e => hmg (e ▸ hg))]
      exact h.gone_slots g hg
    · intro u hu
      rcases List.mem_cons.1 hu with rfl | hu
      · trivial
      · exact (h.loc u (List.mem_cons_of_mem _ hu)).link h.live_nodup hmn hmg hs
          (fun e => hnd.1 (mem_holding hu e))
  · -- the compare-and-swap fails: the node `m` has been claimed
    have hstep : Thread.step s (.append_link n m) = (s, .append_check_raced n m) := by
      simp [Thread.step, cmpxchg_next, is_end, end_marker, hs]
    rw [hstep]
    refine h.swap rfl rfl rfl ?_
    rcases hl with h1 | h1
    · exact absurd h1.2 hs
    · exact h1

/-- A push installs the first unclaimed node as the head: what the other
threads know stays true. -/
theorem Local.install {gone live adv : List Nat} {s : State} {u : Thread} {n : Nat}
    (h : Local gone live adv s u) (hfirst : live.head? = some n) (hng : n ∉ gone)
    (hn : u.holding ≠ some n) : Local gone live adv (store_head s n) u := by
  have hk : ∀ {k}, live.head? = some k → k = n := fun hk => Option.some.inj (hk.symm.trans hfirst)
  have hseen : ∀ {oh}, Seen gone live s oh → Seen gone live (store_head s n) oh := by
    rintro oh (h1 | ⟨h1, _⟩)
    · exact Or.inl h1
    · exact Or.inr ⟨h1, (hk h1).symm⟩
  cases u with
  | append_start f l => exact h
  | append_mark f l => exact h
  | append_xchg f l => exact h
  | append_check_empty k => exact absurd (by rw [hk h.1]; rfl) hn
  | append_link k m =>
    rcases h with h | h
    · exact Or.inl h
    · exact absurd (by rw [hk h.2.1]; rfl) hn
  | append_check_raced k m => exact absurd (by rw [hk h.2.1]; rfl) hn
  | append_install k => exact absurd (by rw [hk h.1]; rfl) hn
  | append_done => trivial
  | pop_start p => trivial
  | pop_load_next p oh => exact hseen h
  | pop_advance p oh nn => exact ⟨hseen h.1, h.2⟩
  | pop_claim p oh nn => exact ⟨h.1, hseen h.2⟩
  | pop_unlink oh => exact h
  | pop_clear_head oh => exact h
  | pop_clear_tail oh =>
    refine ⟨h.1, h.2.1, h.2.2.1, ?_⟩
    show n ≠ oh
    rintro rfl
    exact hng h.1
  | pop_done r n => trivial
  | take_done a b => trivial
  | take_start => exact h
  | take_clear a => exact h
  | take_load_head a => exact h
  | take_store_head a b => exact h
  | take_store_tail a b => exact h
  | failed f => exact h

theorem Inv.step_append_install {gone live adv : List Nat} {s : State} {n : Nat}
    {others : List Thread} {pu po : List Nat}
    (h : Inv gone live adv s (.append_install n :: others) pu po) :
    Inv gone live adv (store_head s n) (.append_done :: others) pu po := by
  have hl : Local gone live adv s (.append_install n) := h.loc _ (List.mem_cons_self _ _)
  have hnd := h.holding
  simp only [List.filterMap_cons, Thread.holding, List.nodup_cons] at hnd
  have hk : ∀ {k}, live.head? = some k → k = n := fun hk => Option.some.inj (hk.symm.trans hl.1)
  have hnl : n ∈ live := List.mem_of_mem_head? hl.1
  refine ⟨h.self_ne, h.nodup, h.nodes, h.adv_sub, ?_, ?_, ?_, h.last_link, h.gone_slots,
    h.claimed, hnd.2, h.pushed_nodup, h.pushed_perm, ?_⟩
  · rcases h.tail_ok with h1 | ⟨h1, _⟩
    · exact Or.inl h1
    · rw [h1] at hnl
      simp at hnl
  · intro k hk1
    exact Or.inl (hk hk1).symm
  · intro a b hab
    rcases h.links a b hab with h1 | ⟨h1, h2⟩
    · exact Or.inl h1
    · refine Or.inr ⟨h1, ?_⟩
      simp only [List.filterMap_cons, Thread.holding, List.mem_cons] at h2
      rcases h2 with rfl | h2
      · exact (Adjacent.not_head h.live_nodup hl.1 hab).elim
      · exact h2
  · intro u hu
    rcases List.mem_cons.1 hu with rfl | hu
    · trivial
    · exact (h.loc u (List.mem_cons_of_mem _ hu)).install hl.1 (h.not_gone hnl)
        (fun e => hnd.1 (mem_holding hu e))

/-! ## The atomic steps of `try_pop` keep the invariant -/

theorem Inv.step_pop_start {gone live adv : List Nat} {s : State} {p : Nat}
    {others : List Thread} {pu po : List Nat}
    (h : Inv gone live adv s (.pop_start p :: others) pu po) :
    Inv gone live adv (Thread.step s (.pop_start p)).1
      ((Thread.step s (.pop_start p)).2 :: others) pu
      (Thread.delivers (.pop_start p) (Thread.step s (.pop_start p)).2 ++ po) := by
  by_cases hh : s.head = NULL
  · have hstep : Thread.step s (.pop_start p) = (s, .pop_done true NULL) := by
      simp [Thread.step, hh]
    rw [hstep]
    exact h.swap rfl rfl rfl trivial
  · have hstep : Thread.step s (.pop_start p) = (s, .pop_load_next p s.head) := by
      simp [Thread.step, hh]
    rw [hstep]
    refine h.swap rfl rfl rfl ?_
    rcases h.head_cases with h1 | h1 | h1
    · exact absurd h1 hh
    · exact Or.inr ⟨h1, rfl⟩
    · exact Or.inl (List.mem_of_mem_getLast? h1.1)

theorem Inv.step_pop_load_next {gone live adv : List Nat} {s : State} {p oh : Nat}
    {others : List Thread} {pu po : List Nat}
    (h : Inv gone live adv s (.pop_load_next p oh :: others) pu po) :
    Inv gone live adv (Thread.step s (.pop_load_next p oh)).1
      ((Thread.step s (.pop_load_next p oh)).2 :: others) pu
      (Thread.delivers (.pop_load_next p oh) (Thread.step s (.pop_load_next p oh)).2 ++ po) := by
  have hl : Local gone live adv s (.pop_load_next p oh) := h.loc _ (List.mem_cons_self _ _)
  by_cases hs : s.slot oh = s.self
  · have hstep : Thread.step s (.pop_load_next p oh) = (s, .pop_claim p oh (s.slot oh)) := by
      simp [Thread.step, is_end, end_marker, hs]
    rw [hstep]
    exact h.swap rfl rfl rfl ⟨hs, hl⟩
  · have hstep : Thread.step s (.pop_load_next p oh) = (s, .pop_advance p oh (s.slot oh)) := by
      simp [Thread.step, is_end, end_marker, hs]
    rw [hstep]
    refine h.swap rfl rfl rfl ⟨hl, hs, ?_⟩
    rcases hl with h1 | ⟨h1, _⟩
    · rcases h.gone_slots oh h1 with h2 | h2
      · exact Or.inl ⟨h2, h1⟩
      · by_cases h3 : s.slot oh = NULL
        · exact Or.inl ⟨h3, h1⟩
        · exact Or.inr ⟨h3, Or.inl h2.1⟩
    · obtain ⟨rest, hrest⟩ : ∃ rest, live = oh :: rest := by
        cases live with
        | nil => simp at h1
        | cons x rest => exact ⟨rest, by simpa using h1⟩
      rcases h.first_slot hrest with h2 | ⟨b, _, h2, h3, _⟩
      · exact absurd h2 hs
      · exact Or.inr ⟨by rw [h2]; exact h3, Or.inr ⟨h1, rfl⟩⟩

/-- The head, which holds a claimed node, is cleared: what the other threads
know stays true. -/
theorem Local.head_null {gone live adv : List Nat} {s : State} {u : Thread}
    (h : Local gone live adv s u) (hg : s.head ∈ gone) (hnode : ∀ n ∈ gone, n ≠ NULL) :
    Local gone live adv { s with head := NULL } u := by
  have hne : s.head ≠ NULL := hnode _ hg
  have hr : ∀ {k m}, Raced gone live adv s k m →
      Raced gone live adv { s with head := NULL } k m :=
    fun ⟨h1, h2, h3, h4, _⟩ => ⟨h1, h2, h3, h4, Or.inl rfl⟩
  have hseen : ∀ {oh}, Seen gone live s oh → Seen gone live { s with head := NULL } oh := by
    rintro oh (h1 | ⟨h1, h2⟩)
    · exact Or.inl h1
    · exact Or.inl (h2 ▸ hg)
  cases u with
  | append_start f l => exact h
  | append_mark f l => exact h
  | append_xchg f l => exact h
  | append_check_empty k => exact absurd h.2 hne
  | append_link k m =>
    rcases h with h | h
    · exact Or.inl h
    · exact Or.inr (hr h)
  | append_check_raced k m => exact hr h
  | append_install k => exact ⟨h.1, Or.inl rfl⟩
  | append_done => trivial
  | pop_start p => trivial
  | pop_load_next p oh => exact hseen h
  | pop_advance p oh nn => exact ⟨hseen h.1, h.2⟩
  | pop_claim p oh nn => exact ⟨h.1, hseen h.2⟩
  | pop_unlink oh => exact h
  | pop_clear_head oh => exact h
  | pop_clear_tail oh => exact ⟨h.1, h.2.1, h.2.2.1, fun e => hnode oh h.1 e.symm⟩
  | pop_done r n => trivial
  | take_done a b => trivial
  | take_start => exact h
  | take_clear a => exact h
  | take_load_head a => exact h
  | take_store_head a b => exact h
  | take_store_tail a b => exact h
  | failed f => exact h

/-- A compare-and-swap that clears a head holding a claimed node keeps the
invariant. -/
theorem Inv.clear_head {gone live adv : List Nat} {s : State} {t t1 : Thread}
    {others : List Thread} {pu po : List Nat} (h : Inv gone live adv s (t :: others) pu po)
    (hg : s.head ∈ gone) (hh : t1.holding = t.holding) (hc : t1.claimed = t.claimed)
    (hu : t1.unlinked = t.unlinked) (hl : Local gone live adv { s with head := NULL } t1) :
    Inv gone live adv { s with head := NULL } (t1 :: others) pu po := by
  have e1 := filterMap_cons_congr hh others
  have e2 := filterMap_cons_congr hc others
  have e3 := filterMap_cons_congr hu others
  have hne : s.head ≠ NULL := (h.node_gone hg).1
  refine ⟨h.self_ne, h.nodup, h.nodes, h.adv_sub, ?_, ?_, ?_, h.last_link, ?_, ?_, ?_,
    h.pushed_nodup, ?_, ?_⟩
  · rw [e2]
    rcases h.tail_ok with h1 | ⟨h0, h1 | ⟨h1, h2, h3, _⟩⟩
    · exact Or.inl h1
    · exact absurd h1.2 hne
    · exact Or.inr ⟨h0, Or.inr ⟨h1, h2, h3, Or.inl rfl⟩⟩
  · rw [e1]
    intro k hk
    rcases h.head_ok k hk with h1 | ⟨h1, _⟩
    · exact absurd (List.mem_of_mem_head? hk) (h.not_live (h1 ▸ hg))
    · exact Or.inr ⟨h1, Or.inl rfl⟩
  · rw [e1]; exact h.links
  · rw [e2]; exact h.gone_slots
  · rw [e2]; exact h.claimed
  · rw [e1]; exact h.holding
  · rw [e3]; exact h.pushed_perm
  · intro u hu
    rcases List.mem_cons.1 hu with rfl | hu
    · exact hl
    · exact (h.loc u (List.mem_cons_of_mem _ hu)).head_null hg
        (fun n hn => (h.node_gone hn).1)

theorem Inv.step_pop_clear_head {gone live adv : List Nat} {s : State} {oh : Nat}
    {others : List Thread} {pu po : List Nat}
    (h : Inv gone live adv s (.pop_clear_head oh :: others) pu po) :
    Inv gone live adv (Thread.step s (.pop_clear_head oh)).1
      ((Thread.step s (.pop_clear_head oh)).2 :: others) pu
      (Thread.delivers (.pop_clear_head oh) (Thread.step s (.pop_clear_head oh)).2 ++ po) := by
  have hl : Local gone live adv s (.pop_clear_head oh) := h.loc _ (List.mem_cons_self _ _)
  by_cases hh : s.head = oh
  · have hstep : Thread.step s (.pop_clear_head oh) =
        ({ s with head := NULL }, .pop_clear_tail oh) := by
      simp [Thread.step, cmpxchg_head, hh]
    rw [hstep]
    exact h.clear_head (hh ▸ hl.1) rfl rfl rfl
      ⟨hl.1, hl.2.1, hl.2.2, fun e => (h.node_gone hl.1).1 e.symm⟩
  · have hstep : Thread.step s (.pop_clear_head oh) = (s, .pop_clear_tail oh) := by
      simp [Thread.step, cmpxchg_head, hh]
    rw [hstep]
    exact h.swap rfl rfl rfl ⟨hl.1, hl.2.1, hl.2.2, hh⟩

/-- A `try_pop` claims the first unclaimed node `oh` by advancing the head to
the node `b` that follows it: what the other threads know stays true. -/
theorem Local.advance {gone rest adv : List Nat} {s : State} {u : Thread} {oh b : Nat}
    (h : Local gone (oh :: rest) adv s u) (hhead : s.head = oh) (hoh : oh ≠ NULL)
    (hog : oh ∉ gone) (hslot : s.slot oh ≠ s.self) (hbg : b ∉ gone) :
    Local (gone ++ [oh]) rest (oh :: adv) { s with head := b } u := by
  have hfresh : ∀ {f}, f ∉ gone ++ oh :: rest → f ∉ (gone ++ [oh]) ++ rest := by
    intro f hf
    simpa using hf
  have hnr : ∀ {k m}, ¬ Raced gone (oh :: rest) adv s k m := by
    rintro k m ⟨h1, _, _, _, h5 | h5⟩
    · exact hoh (hhead.symm.trans h5)
    · exact hog (by rw [← hhead, h5]; exact List.mem_of_mem_getLast? h1)
  have hseen : ∀ {x}, Seen gone (oh :: rest) s x → x ∈ gone ++ [oh] := by
    rintro x (h1 | ⟨h1, _⟩)
    · exact List.mem_append_left _ h1
    · simp at h1
      simp [h1]
  cases u with
  | append_start f l => exact ⟨h.1, hfresh h.2.1, h.2.2⟩
  | append_mark f l => exact ⟨h.1, hfresh h.2.1, h.2.2⟩
  | append_xchg f l => exact ⟨h.1, hfresh h.2.1, h.2.2⟩
  | append_check_empty k => exact absurd (hhead.symm.trans h.2) hoh
  | append_link k m =>
    rcases h with ⟨h1 | h1, h2⟩ | h
    · exact absurd (h1.1 ▸ h2) hslot
    · exact Or.inl ⟨h1, h2⟩
    · exact (hnr h).elim
  | append_check_raced k m => exact (hnr h).elim
  | append_install k =>
    rcases h.2 with h1 | h1
    · exact absurd (hhead.symm.trans h1) hoh
    · exact absurd (by rw [← hhead]; exact List.mem_of_mem_getLast? h1.1) hog
  | append_done => trivial
  | pop_start p => trivial
  | pop_load_next p x => exact Or.inl (hseen h)
  | pop_advance p x nn =>
    obtain ⟨h1, h2, h3⟩ := h
    refine ⟨Or.inl (hseen h1), h2, ?_⟩
    rcases h3 with h3 | ⟨h3, h4 | ⟨h4, _⟩⟩
    · exact Or.inl ⟨h3.1, List.mem_append_left _ h3.2⟩
    · exact Or.inr ⟨h3, Or.inl (List.mem_cons_of_mem _ h4)⟩
    · simp at h4
      exact Or.inr ⟨h3, Or.inl (by simp [h4])⟩
  | pop_claim p x nn => exact ⟨h.1, Or.inl (hseen h.2)⟩
  | pop_unlink x => exact List.mem_cons_of_mem _ h
  | pop_clear_head x =>
    refine ⟨List.mem_append_left _ h.1, ?_, h.2.2⟩
    simp only [List.mem_cons, not_or]
    exact ⟨fun e => hog (e ▸ h.1), h.2.1⟩
  | pop_clear_tail x =>
    refine ⟨List.mem_append_left _ h.1, ?_, h.2.2.1, ?_⟩
    · simp only [List.mem_cons, not_or]
      exact ⟨fun e => hog (e ▸ h.1), h.2.1⟩
    · show b ≠ x
      rintro rfl
      exact hbg h.1
  | pop_done r n => trivial
  | take_done a b => trivial
  | take_start => exact h
  | take_clear a => exact h
  | take_load_head a => exact h
  | take_store_head a b => exact h
  | take_store_tail a b => exact h
  | failed f => exact h

theorem Inv.step_pop_advance {gone live adv : List Nat} {s : State} {p oh nn : Nat}
    {others : List Thread} {pu po : List Nat}
    (h : Inv gone live adv s (.pop_advance p oh nn :: others) pu po) :
    ∃ gone1 live1 adv1, Inv gone1 live1 adv1 (Thread.step s (.pop_advance p oh nn)).1
      ((Thread.step s (.pop_advance p oh nn)).2 :: others) pu
      (Thread.delivers (.pop_advance p oh nn) (Thread.step s (.pop_advance p oh nn)).2 ++ po) := by
  have hl : Local gone live adv s (.pop_advance p oh nn) := h.loc _ (List.mem_cons_self _ _)
  obtain ⟨h1, h2, h3⟩ := hl
  by_cases hh : s.head = oh
  · by_cases hn : nn = NULL
    · -- Clause 1b: the node had been claimed
      have hstep : Thread.step s (.pop_advance p oh nn) =
          ({ s with head := NULL }, .pop_done false p) := by
        simp [Thread.step, cmpxchg_head, hh, hn]
      rw [hstep]
      have hg : oh ∈ gone := by
        rcases h3 with h3 | h3
        · exact h3.2
        · exact absurd hn h3.1
      exact ⟨gone, live, adv, h.clear_head (hh ▸ hg) rfl rfl rfl trivial⟩
    · -- Clause 1c: the node is claimed by this step
      have hstep : Thread.step s (.pop_advance p oh nn) =
          ({ s with head := nn }, .pop_unlink oh) := by
        simp [Thread.step, cmpxchg_head, hh, hn]
      rw [hstep]
      have hog : oh ∉ gone := by
        intro hg
        rcases h.head_cases with h4 | h4 | h4
        · exact (h.node_gone hg).1 (hh.symm.trans h4)
        · exact h.not_live hg (hh ▸ List.mem_of_mem_head? h4)
        · rw [hh] at h4
          rcases h3 with h3 | ⟨_, h3 | h3⟩
          · exact hn h3.1
          · exact h4.2 h3
          · exact h.not_live hg (List.mem_of_mem_head? h3.1)
      have h5 : live.head? = some oh ∧ s.slot oh = nn := by
        rcases h3 with h3 | ⟨_, h3 | h3⟩
        · exact absurd h3.1 hn
        · exact absurd (h.adv_sub _ h3) hog
        · exact h3
      obtain ⟨rest, hrest⟩ : ∃ rest, live = oh :: rest := by
        cases live with
        | nil => simp at h5
        | cons x rest => exact ⟨rest, by simpa using h5.1⟩
      subst hrest
      have hb : rest.head? = some nn := by
        rcases h.first_slot rfl with h6 | ⟨b, h6, h7, _⟩
        · exact absurd (h5.2.symm.trans h6) h2
        · rw [h6, ← h7, h5.2]
      have hbl : nn ∈ rest := List.mem_of_mem_head? hb
      have hrne : rest ≠ [] := List.ne_nil_of_mem hbl
      have hnd := h.live_nodup
      rw [List.nodup_cons] at hnd
      refine ⟨gone ++ [oh], rest, oh :: adv, h.self_ne, ?_, ?_, ?_, ?_, ?_, ?_, ?_, ?_, ?_,
        h.holding, h.pushed_nodup, ?_, ?_⟩
      · simpa using h.nodup
      · intro n hn1
        exact h.nodes n (by simpa using hn1)
      · intro n hn1
        rcases List.mem_cons.1 hn1 with rfl | hn1
        · simp
        · exact List.mem_append_left _ (h.adv_sub n hn1)
      · left
        rcases h.tail_ok with h6 | ⟨h6, _⟩
        · cases rest with
          | nil => exact absurd rfl hrne
          | cons y l => rw [List.getLast?_cons_cons] at h6; exact h6
        · simp at h6
      · intro k hk
        exact Or.inl (Option.some.inj (hb.symm.trans hk))
      · intro a c hac
        exact h.links a c (Or.inr hac)
      · intro a ha
        refine h.last_link a ?_
        cases rest with
        | nil => exact absurd rfl hrne
        | cons y l => rw [List.getLast?_cons_cons]; exact ha
      · intro n hn1
        rcases List.mem_append.1 hn1 with hn1 | hn1
        · rcases h.gone_slots n hn1 with h6 | ⟨h6, h7, h8⟩
          · exact Or.inl h6
          · exact Or.inr ⟨List.mem_cons_of_mem _ h6, by
              simpa [List.filterMap_cons, Thread.claimed] using Or.inr h7, h8⟩
        · simp at hn1
          subst hn1
          exact Or.inr ⟨List.mem_cons_self _ _, by simp [List.filterMap_cons, Thread.claimed],
            by show s.slot n ≠ s.self; rw [h5.2]; exact h2⟩
      · have := h.claimed
        simp only [List.filterMap_cons, Thread.claimed] at this ⊢
        exact (List.perm_middle.trans ((this.cons oh).trans (List.perm_append_singleton oh gone).symm))
      · have := h.pushed_perm
        simpa [List.filterMap_cons, Thread.unlinked] using this
      · intro u hu
        rcases List.mem_cons.1 hu with rfl | hu
        · exact List.mem_cons_self _ _
        · exact (h.loc u (List.mem_cons_of_mem _ hu)).advance hh (h.node_live (by simp)).1 hog
            (by rw [h5.2]; exact h2) (h.not_gone (List.mem_cons_of_mem _ hbl))
  · have hstep : Thread.step s (.pop_advance p oh nn) = (s, .pop_done false p) := by
      simp [Thread.step, cmpxchg_head, hh, Ne.symm hh]
    rw [hstep]
    exact ⟨gone, live, adv, h.swap rfl rfl rfl trivial⟩

/-- The claimer of `oh` (Clause 1c) clears the next-slot of `oh`: what the
other threads know stays true. -/
theorem Local.unlink {gone live adv : List Nat} {s : State} {u : Thread} {oh : Nat}
    (h : Local gone live adv s u) (hoa : oh ∈ adv) (hog : oh ∈ gone) (hol : oh ∉ live) :
    Local gone live adv (set_next s oh NULL) u := by
  have hslot : ∀ {a}, a ≠ oh → (set_next s oh NULL).slot a = s.slot a := by
    intro a ha
    simp [set_next, ha]
  have hv : ∀ {a}, a ∈ live → (set_next s oh NULL).slot a = s.slot a :=
    fun ha => hslot (fun e => hol (e ▸ ha))
  have hf : ∀ {a}, a ∉ gone ++ live → (set_next s oh NULL).slot a = s.slot a :=
    fun ha => hslot (fun e => ha (e ▸ List.mem_append_left _ hog))
  have hna : ∀ {a}, a ∉ adv → (set_next s oh NULL).slot a = s.slot a :=
    fun ha => hslot (fun e => ha (e ▸ hoa))
  have hr : ∀ {k m}, Raced gone live adv s k m →
      Raced gone live adv (set_next s oh NULL) k m :=
    fun ⟨h1, h2, h3, h4, h5⟩ => ⟨h1, h2, by rw [hna h4]; exact h3, h4, h5⟩
  cases u with
  | append_start f l => exact ⟨h.1, h.2.1, by rw [hf h.2.1]; exact h.2.2.1, h.2.2.2⟩
  | append_mark f l => exact ⟨h.1, h.2.1, by rw [hf h.2.1]; exact h.2.2.1, h.2.2.2⟩
  | append_xchg f l => exact ⟨h.1, h.2.1, by rw [hf h.2.1]; exact h.2.2.1, h.2.2.2⟩
  | append_check_empty k => exact h
  | append_link k m =>
    rcases h with ⟨h1, h2⟩ | h
    · exact Or.inl ⟨h1, by rw [hv h1.mem_left]; exact h2⟩
    · exact Or.inr (hr h)
  | append_check_raced k m => exact hr h
  | append_install k => exact h
  | append_done => trivial
  | pop_start p => trivial
  | pop_load_next p x => exact h
  | pop_advance p x nn =>
    obtain ⟨h1, h2, h3⟩ := h
    refine ⟨h1, h2, ?_⟩
    rcases h3 with h3 | ⟨h3, h4 | ⟨h4, h5⟩⟩
    · exact Or.inl h3
    · exact Or.inr ⟨h3, Or.inl h4⟩
    · exact Or.inr ⟨h3, Or.inr ⟨h4, by rw [hv (List.mem_of_mem_head? h4)]; exact h5⟩⟩
  | pop_claim p x nn => exact h
  | pop_unlink x => exact h
  | pop_clear_head x => exact ⟨h.1, h.2.1, by rw [hna h.2.1]; exact h.2.2⟩
  | pop_clear_tail x => exact ⟨h.1, h.2.1, by rw [hna h.2.1]; exact h.2.2.1, h.2.2.2⟩
  | pop_done r n => trivial
  | take_done a b => trivial
  | take_start => exact h
  | take_clear a => exact h
  | take_load_head a => exact h
  | take_store_head a b => exact h
  | take_store_tail a b => exact h
  | failed f => exact h

theorem Inv.step_pop_unlink {gone live adv : List Nat} {s : State} {oh : Nat}
    {others : List Thread} {pu po : List Nat}
    (h : Inv gone live adv s (.pop_unlink oh :: others) pu po) :
    Inv gone live adv (Thread.step s (.pop_unlink oh)).1
      ((Thread.step s (.pop_unlink oh)).2 :: others) pu
      (Thread.delivers (.pop_unlink oh) (Thread.step s (.pop_unlink oh)).2 ++ po) := by
  have hoa : oh ∈ adv := h.loc _ (List.mem_cons_self _ _)
  have hog : oh ∈ gone := h.adv_sub oh hoa
  have hol : oh ∉ live := h.not_live hog
  have hne : oh ≠ NULL := (h.node_gone hog).1
  have hstep : Thread.step s (.pop_unlink oh) = (set_next s oh NULL, .pop_done true oh) := rfl
  have hdel : Thread.delivers (.pop_unlink oh) (.pop_done true oh) = [oh] := by
    simp [Thread.delivers, Thread.idle, hne]
  rw [hstep]
  simp only [hdel]
  have hslot : ∀ {a}, a ≠ oh → (set_next s oh NULL).slot a = s.slot a := by
    intro a ha
    simp [set_next, ha]
  have hv : ∀ {a}, a ∈ live → (set_next s oh NULL).slot a = s.slot a :=
    fun ha => hslot (fun e => hol (e ▸ ha))
  have hC : ∀ {n}, n ∉ adv →
      n ∈ (Thread.pop_unlink oh :: others).filterMap Thread.claimed →
      n ∈ (Thread.pop_done true oh :: others).filterMap Thread.claimed := by
    intro n hn hm
    simp only [List.filterMap_cons, Thread.claimed, List.mem_cons] at hm ⊢
    rcases hm with rfl | hm
    · exact absurd hoa hn
    · exact hm
  have hC1 : ∀ {n}, n ≠ oh →
      n ∈ (Thread.pop_unlink oh :: others).filterMap Thread.claimed →
      n ∈ (Thread.pop_done true oh :: others).filterMap Thread.claimed := by
    intro n hn hm
    simp only [List.filterMap_cons, Thread.claimed, List.mem_cons] at hm ⊢
    rcases hm with rfl | hm
    · exact absurd rfl hn
    · exact hm
  refine ⟨h.self_ne, h.nodup, h.nodes, h.adv_sub, ?_, h.head_ok, ?_, ?_, ?_, ?_, h.holding,
    h.pushed_nodup, h.pushed_perm, ?_⟩
  · rcases h.tail_ok with h1 | ⟨h0, h1 | ⟨h1, h2, h3, h4⟩⟩
    · exact Or.inl h1
    · exact Or.inr ⟨h0, Or.inl h1⟩
    · exact Or.inr ⟨h0, Or.inr ⟨h1, h2, hC h2 h3, h4⟩⟩
  · intro a b hab
    rw [hv hab.mem_left]
    exact h.links a b hab
  · intro a ha
    rw [hv (List.mem_of_mem_getLast? ha)]
    exact h.last_link a ha
  · intro n hn
    by_cases e : n = oh
    · left
      simp [set_next, e]
    · rw [hslot e]
      rcases h.gone_slots n hn with h1 | ⟨h1, h2, h3⟩
      · exact Or.inl h1
      · exact Or.inr ⟨h1, hC1 e h2, h3⟩
  · have := h.claimed
    simp only [List.filterMap_cons, Thread.claimed] at this ⊢
    exact List.perm_middle.symm.trans this
  · intro u hu
    rcases List.mem_cons.1 hu with rfl | hu
    · trivial
    · exact (h.loc u (List.mem_cons_of_mem _ hu)).unlink hoa hog hol

theorem Inv.step_pop_clear_tail {gone live adv : List Nat} {s : State} {oh : Nat}
    {others : List Thread} {pu po : List Nat}
    (h : Inv gone live adv s (.pop_clear_tail oh :: others) pu po) :
    Inv gone live adv (Thread.step s (.pop_clear_tail oh)).1
      ((Thread.step s (.pop_clear_tail oh)).2 :: others) pu
      (Thread.delivers (.pop_clear_tail oh) (Thread.step s (.pop_clear_tail oh)).2 ++ po) := by
  have hl : Local gone live adv s (.pop_clear_tail oh) := h.loc _ (List.mem_cons_self _ _)
  obtain ⟨hog, hoa, _, hhead⟩ := hl
  have hne : oh ≠ NULL := (h.node_gone hog).1
  have hstep : Thread.step s (.pop_clear_tail oh) =
      ((cmpxchg_tail s oh NULL).2, .pop_done true oh) := rfl
  have hdel : Thread.delivers (.pop_clear_tail oh) (.pop_done true oh) = [oh] := by
    simp [Thread.delivers, Thread.idle, hne]
  rw [hstep]
  simp only [hdel]
  have hself : (cmpxchg_tail s oh NULL).2.self = s.self := by
    simp only [cmpxchg_tail]; split_ifs <;> rfl
  have hhd : (cmpxchg_tail s oh NULL).2.head = s.head := by
    simp only [cmpxchg_tail]; split_ifs <;> rfl
  have hsl : (cmpxchg_tail s oh NULL).2.slot = s.slot := by
    simp only [cmpxchg_tail]; split_ifs <;> rfl
  have hC1 : ∀ {n}, n ≠ oh →
      n ∈ (Thread.pop_clear_tail oh :: others).filterMap Thread.claimed →
      n ∈ (Thread.pop_done true oh :: others).filterMap Thread.claimed := by
    intro n hn hm
    simp only [List.filterMap_cons, Thread.claimed, List.mem_cons] at hm ⊢
    rcases hm with rfl | hm
    · exact absurd rfl hn
    · exact hm
  refine ⟨by rw [hself]; exact h.self_ne, h.nodup, ?_, h.adv_sub, ?_, ?_, ?_, ?_, ?_, ?_,
    h.holding, h.pushed_nodup, h.pushed_perm, ?_⟩
  · intro n hn
    have := h.nodes n hn
    simpa [IsNode, end_marker, hself] using this
  · rw [hhd]
    by_cases ht : s.tail = oh
    · have e : (cmpxchg_tail s oh NULL).2.tail = NULL := by simp [cmpxchg_tail, ht]
      rw [e]
      rcases h.tail_ok with h1 | ⟨h0, h1 | ⟨_, _, _, h4⟩⟩
      · exact absurd (List.mem_of_mem_getLast? h1) (h.not_live (ht ▸ hog))
      · exact absurd (ht.symm.trans h1.1) hne
      · refine Or.inr ⟨h0, Or.inl ⟨rfl, ?_⟩⟩
        rcases h4 with h4 | h4
        · exact h4
        · exact absurd (h4.trans ht) hhead
    · have e : (cmpxchg_tail s oh NULL).2.tail = s.tail := by simp [cmpxchg_tail, ht]
      rw [e]
      rcases h.tail_ok with h1 | ⟨h0, h1 | ⟨h1, h2, h3, h4⟩⟩
      · exact Or.inl h1
      · exact Or.inr ⟨h0, Or.inl h1⟩
      · exact Or.inr ⟨h0, Or.inr ⟨h1, h2, hC1 ht h3, h4⟩⟩
  · rw [hhd]
    intro k hk
    rcases h.head_ok k hk with h1 | ⟨h1, h2⟩
    · exact Or.inl h1
    · exact Or.inr ⟨h1, by simpa [Stale, hhd] using h2⟩
  · rw [hsl, hself]
    exact h.links
  · rw [hsl, hself]
    exact h.last_link
  · rw [hsl, hself]
    intro n hn
    rcases h.gone_slots n hn with h1 | ⟨h1, h2, h3⟩
    · exact Or.inl h1
    · exact Or.inr ⟨h1, hC1 (fun e => hoa (e ▸ h1)) h2, h3⟩
  · have := h.claimed
    simp only [List.filterMap_cons, Thread.claimed] at this ⊢
    exact List.perm_middle.symm.trans this
  · intro u hu
    rcases List.mem_cons.1 hu with rfl | hu
    · trivial
    · exact (h.loc u (List.mem_cons_of_mem _ hu)).congr hself hhd (fun a _ => by rw [hsl])

/-- A `try_pop` claims the first unclaimed node `oh` by the compare-and-swap of
its next-slot (Clause 2): what the other threads know stays true.  A push that
was about to link its node behind `oh` will find `oh` claimed. -/
theorem Local.claim {gone rest adv : List Nat} {s : State} {u : Thread} {oh : Nat}
    (h : Local gone (oh :: rest) adv s u) (hhead : s.head = oh) (hoh : oh ≠ NULL)
    (hog : oh ∉ gone) (hor : oh ∉ rest) (hoa : oh ∉ adv) (hs : s.slot oh = s.self) :
    Local (gone ++ [oh]) rest adv (set_next s oh NULL) u := by
  have hslot : ∀ {a}, a ≠ oh → (set_next s oh NULL).slot a = s.slot a := by
    intro a ha
    simp [set_next, ha]
  have hg : ∀ {a}, a ∈ gone → (set_next s oh NULL).slot a = s.slot a :=
    fun ha => hslot (fun e => hog (e ▸ ha))
  have hfresh : ∀ {f}, f ∉ gone ++ oh :: rest →
      f ∉ (gone ++ [oh]) ++ rest ∧ (set_next s oh NULL).slot f = s.slot f := by
    intro f hf
    refine ⟨by simpa using hf, hslot ?_⟩
    rintro rfl
    exact hf (by simp)
  have hnr : ∀ {k m}, ¬ Raced gone (oh :: rest) adv s k m := by
    rintro k m ⟨h1, _, _, _, h5 | h5⟩
    · exact hoh (hhead.symm.trans h5)
    · exact hog (by rw [← hhead, h5]; exact List.mem_of_mem_getLast? h1)
  have hseen : ∀ {x}, Seen gone (oh :: rest) s x → x ∈ gone ++ [oh] := by
    rintro x (h1 | ⟨h1, _⟩)
    · exact List.mem_append_left _ h1
    · simp at h1
      simp [h1]
  cases u with
  | append_start f l =>
    exact ⟨h.1, (hfresh h.2.1).1, by rw [(hfresh h.2.1).2]; exact h.2.2.1, h.2.2.2⟩
  | append_mark f l =>
    exact ⟨h.1, (hfresh h.2.1).1, by rw [(hfresh h.2.1).2]; exact h.2.2.1, h.2.2.2⟩
  | append_xchg f l =>
    exact ⟨h.1, (hfresh h.2.1).1, by rw [(hfresh h.2.1).2]; exact h.2.2.1, h.2.2.2⟩
  | append_check_empty k => exact absurd (hhead.symm.trans h.2) hoh
  | append_link k m =>
    rcases h with ⟨⟨h1, h3⟩ | h1, h2⟩ | h
    · subst h1
      exact Or.inr ⟨by simp, h3, by simp [set_next], hoa, Or.inr hhead⟩
    · refine Or.inl ⟨h1, ?_⟩
      rw [hslot (fun e => hor (e ▸ h1.mem_left))]
      exact h2
    · exact (hnr h).elim
  | append_check_raced k m => exact (hnr h).elim
  | append_install k =>
    rcases h.2 with h1 | h1
    · exact absurd (hhead.symm.trans h1) hoh
    · exact absurd (by rw [← hhead]; exact List.mem_of_mem_getLast? h1.1) hog
  | append_done => trivial
  | pop_start p => trivial
  | pop_load_next p x => exact Or.inl (hseen h)
  | pop_advance p x nn =>
    obtain ⟨h1, h2, h3⟩ := h
    refine ⟨Or.inl (hseen h1), h2, ?_⟩
    rcases h3 with h3 | ⟨h3, h4 | ⟨h4, h5⟩⟩
    · exact Or.inl ⟨h3.1, List.mem_append_left _ h3.2⟩
    · exact Or.inr ⟨h3, Or.inl h4⟩
    · simp at h4
      subst h4
      exact absurd (h5.symm.trans hs) h2
  | pop_claim p x nn => exact ⟨h.1, Or.inl (hseen h.2)⟩
  | pop_unlink x => exact h
  | pop_clear_head x =>
    exact ⟨List.mem_append_left _ h.1, h.2.1, by rw [hg h.1]; exact h.2.2⟩
  | pop_clear_tail x =>
    exact ⟨List.mem_append_left _ h.1, h.2.1, by rw [hg h.1]; exact h.2.2.1, h.2.2.2⟩
  | pop_done r n => trivial
  | take_done a b => trivial
  | take_start => exact h
  | take_clear a => exact h
  | take_load_head a => exact h
  | take_store_head a b => exact h
  | take_store_tail a b => exact h
  | failed f => exact h

theorem Inv.step_pop_claim {gone live adv : List Nat} {s : State} {p oh nn : Nat}
    {others : List Thread} {pu po : List Nat}
    (h : Inv gone live adv s (.pop_claim p oh nn :: others) pu po) :
    ∃ gone1 live1 adv1, Inv gone1 live1 adv1 (Thread.step s (.pop_claim p oh nn)).1
      ((Thread.step s (.pop_claim p oh nn)).2 :: others) pu
      (Thread.delivers (.pop_claim p oh nn) (Thread.step s (.pop_claim p oh nn)).2 ++ po) := by
  have hl : Local gone live adv s (.pop_claim p oh nn) := h.loc _ (List.mem_cons_self _ _)
  obtain ⟨rfl, h1⟩ := hl
  by_cases hs : s.slot oh = s.self
  · -- Clause 2: the node is claimed by this step
    have hstep : Thread.step s (.pop_claim p oh s.self) =
        (set_next s oh NULL, .pop_clear_head oh) := by
      simp [Thread.step, cmpxchg_next, is_end, end_marker, hs, set_next]
    rw [hstep]
    have hog : oh ∉ gone := fun hg => h.gone_slot_ne_self hg hs
    have hoa : oh ∉ adv := fun ha => hog (h.adv_sub oh ha)
    obtain ⟨h2, hhead⟩ : live.head? = some oh ∧ s.head = oh := by
      rcases h1 with h1 | h1
      · exact absurd h1 hog
      · exact h1
    obtain ⟨rest, hrest⟩ : ∃ rest, live = oh :: rest := by
      cases live with
      | nil => simp at h2
      | cons x rest => exact ⟨rest, by simpa using h2⟩
    subst hrest
    have hnd := h.live_nodup
    rw [List.nodup_cons] at hnd
    have hne : oh ≠ NULL := (h.node_live (List.mem_cons_self _ _)).1
    have hslot : ∀ {a}, a ≠ oh → (set_next s oh NULL).slot a = s.slot a := by
      intro a ha
      simp [set_next, ha]
    have hv : ∀ {a}, a ∈ rest → (set_next s oh NULL).slot a = s.slot a :=
      fun ha => hslot (fun e => hnd.1 (e ▸ ha))
    have hlast : (gone ++ [oh]).getLast? = some oh := by simp
    refine ⟨gone ++ [oh], rest, adv, h.self_ne, ?_, ?_, ?_, ?_, ?_, ?_, ?_, ?_, ?_,
      h.holding, h.pushed_nodup, ?_, ?_⟩
    · simpa using h.nodup
    · intro n hn1
      exact h.nodes n (by simpa using hn1)
    · intro n hn1
      exact List.mem_append_left _ (h.adv_sub n hn1)
    · cases hr : rest with
      | nil =>
        right
        refine ⟨rfl, Or.inr ?_⟩
        have ht : s.tail = oh := by
          rcases h.tail_ok with h6 | ⟨h6, _⟩
          · simpa [hr] using h6.symm
          · simp at h6
        have ht1 : (set_next s oh NULL).tail = oh := ht
        have hh1 : (set_next s oh NULL).head = oh := hhead
        rw [ht1, hh1]
        exact ⟨hlast, hoa, by simp [List.filterMap_cons, Thread.claimed], Or.inr rfl⟩
      | cons y l =>
        left
        rcases h.tail_ok with h6 | ⟨h6, _⟩
        · rw [hr, List.getLast?_cons_cons] at h6
          exact h6
        · simp at h6
    · intro b hb
      right
      have hbl : b ∈ oh :: rest := List.mem_cons_of_mem _ (List.mem_of_mem_head? hb)
      refine ⟨?_, Or.inr ⟨by rw [show (set_next s oh NULL).head = oh from hhead]; exact hlast,
        by rw [show (set_next s oh NULL).head = oh from hhead]; exact hoa⟩⟩
      rcases h.links oh b (Or.inl ⟨rfl, hb⟩) with h6 | h6
      · exact absurd (h6.symm.trans hs) (h.node_live hbl).2
      · exact h6.2
    · intro a c hac
      rw [hv hac.mem_left]
      exact h.links a c (Or.inr hac)
    · intro a ha
      rw [hv (List.mem_of_mem_getLast? ha)]
      refine h.last_link a ?_
      cases rest with
      | nil => simp at ha
      | cons y l => rw [List.getLast?_cons_cons]; exact ha
    · intro n hn1
      rcases List.mem_append.1 hn1 with hn1 | hn1
      · rw [hslot (fun e => hog (e ▸ hn1))]
        rcases h.gone_slots n hn1 with h6 | ⟨h6, h7, h8⟩
        · exact Or.inl h6
        · exact Or.inr ⟨h6, by
            simpa [List.filterMap_cons, Thread.claimed] using Or.inr h7, h8⟩
      · simp at hn1
        subst hn1
        left
        simp [set_next]
    · have := h.claimed
      simp only [List.filterMap_cons, Thread.claimed] at this ⊢
      exact (List.perm_middle.trans ((this.cons oh).trans (List.perm_append_singleton oh gone).symm))
    · have := h.pushed_perm
      simpa [List.filterMap_cons, Thread.unlinked] using this
    · intro u hu
      rcases List.mem_cons.1 hu with rfl | hu
      · exact ⟨by simp, hoa, by simp [set_next]⟩
      · exact (h.loc u (List.mem_cons_of_mem _ hu)).claim hhead hne hog hnd.1 hoa hs
  · have hstep : Thread.step s (.pop_claim p oh s.self) = (s, .pop_done false p) := by
      simp [Thread.step, cmpxchg_next, is_end, end_marker, hs]
    rw [hstep]
    exact ⟨gone, live, adv, h.swap rfl rfl rfl trivial⟩

/-! ## Every event keeps the invariant -/

/-- Every atomic step of a thread keeps the invariant. -/
theorem Inv.step {gone live adv : List Nat} {s : State} {t : Thread} {others : List Thread}
    {pu po : List Nat} (h : Inv gone live adv s (t :: others) pu po) :
    ∃ gone1 live1 adv1, Inv gone1 live1 adv1 (Thread.step s t).1
      ((Thread.step s t).2 :: others) pu (Thread.delivers t (Thread.step s t).2 ++ po) := by
  have hl : Local gone live adv s t := h.loc _ (List.mem_cons_self _ _)
  cases t with
  | append_start f l =>
    obtain ⟨h1, h2⟩ := h.step_append_start
    rw [h1]
    exact ⟨gone, live, adv, h2⟩
  | append_mark f l => exact ⟨gone, live, adv, h.step_append_mark⟩
  | append_xchg f l =>
    refine ⟨gone, live ++ [l], adv, ?_⟩
    have h1 := h.step_append_xchg
    have h2 : Thread.delivers (.append_xchg f l) (Thread.step s (.append_xchg f l)).2 = [] := by
      simp only [Thread.step]
      split_ifs <;> rfl
    rw [h2]
    exact h1
  | append_check_empty n =>
    obtain ⟨h1, h2⟩ := h.step_append_check_empty
    rw [h1]
    exact ⟨gone, live, adv, h2⟩
  | append_link n m =>
    refine ⟨gone, live, adv, ?_⟩
    have h1 := h.step_append_link
    have h2 : Thread.delivers (.append_link n m) (Thread.step s (.append_link n m)).2 = [] := by
      simp only [Thread.step]
      split_ifs <;> rfl
    rw [h2]
    exact h1
  | append_check_raced n m =>
    obtain ⟨h1, h2⟩ := h.step_append_check_raced
    rw [h1]
    exact ⟨gone, live, adv, h2⟩
  | append_install n => exact ⟨gone, live, adv, h.step_append_install⟩
  | append_done => exact ⟨gone, live, adv, h⟩
  | pop_start p => exact ⟨gone, live, adv, h.step_pop_start⟩
  | pop_load_next p oh => exact ⟨gone, live, adv, h.step_pop_load_next⟩
  | pop_advance p oh nn => exact h.step_pop_advance
  | pop_claim p oh nn => exact h.step_pop_claim
  | pop_unlink oh => exact ⟨gone, live, adv, h.step_pop_unlink⟩
  | pop_clear_head oh => exact ⟨gone, live, adv, h.step_pop_clear_head⟩
  | pop_clear_tail oh => exact ⟨gone, live, adv, h.step_pop_clear_tail⟩
  | pop_done r n =>
    refine ⟨gone, live, adv, ?_⟩
    have h2 : Thread.delivers (.pop_done r n) (Thread.step s (.pop_done r n)).2 = [] := by
      cases r <;> simp [Thread.step, Thread.delivers, Thread.idle]
    rw [h2]
    exact h
  | take_done a b => exact ⟨gone, live, adv, h⟩
  | take_start => exact hl.elim
  | take_clear a => exact hl.elim
  | take_load_head a => exact hl.elim
  | take_store_head a b => exact hl.elim
  | take_store_tail a b => exact hl.elim
  | failed f => exact hl.elim

/-- The invariant does not depend on the order of the threads. -/
theorem Inv.perm {gone live adv : List Nat} {s : State} {ths ths1 : List Thread}
    {pu po : List Nat} (h : Inv gone live adv s ths pu po) (hp : ths.Perm ths1) :
    Inv gone live adv s ths1 pu po := by
  have hH := hp.filterMap Thread.holding
  have hC := hp.filterMap Thread.claimed
  have hU := hp.filterMap Thread.unlinked
  refine ⟨h.self_ne, h.nodup, h.nodes, h.adv_sub, ?_, ?_, ?_, h.last_link, ?_, ?_, ?_,
    h.pushed_nodup, ?_, ?_⟩
  · rcases h.tail_ok with h1 | ⟨h0, h1 | ⟨h1, h2, h3, h4⟩⟩
    · exact Or.inl h1
    · exact Or.inr ⟨h0, Or.inl h1⟩
    · exact Or.inr ⟨h0, Or.inr ⟨h1, h2, hC.mem_iff.1 h3, h4⟩⟩
  · intro n hn
    rcases h.head_ok n hn with h1 | ⟨h1, h2⟩
    · exact Or.inl h1
    · exact Or.inr ⟨hH.mem_iff.1 h1, h2⟩
  · intro a b hab
    rcases h.links a b hab with h1 | ⟨h1, h2⟩
    · exact Or.inl h1
    · exact Or.inr ⟨h1, hH.mem_iff.1 h2⟩
  · intro n hn
    rcases h.gone_slots n hn with h1 | ⟨h1, h2, h3⟩
    · exact Or.inl h1
    · exact Or.inr ⟨h1, hC.mem_iff.1 h2, h3⟩
  · exact ((hC.symm.append_left po).trans h.claimed)
  · exact hH.nodup_iff.1 h.holding
  · exact h.pushed_perm.trans (hU.append_left _)
  · intro t ht
    exact h.loc t (hp.mem_iff.2 ht)

theorem perm_cons_eraseIdx {l : List Thread} {i : Nat} {t : Thread} (h : l[i]? = some t) :
    l.Perm (t :: l.eraseIdx i) := by
  induction l generalizing i with
  | nil => simp at h
  | cons x l ih =>
    cases i with
    | zero =>
      simp at h
      subst h
      exact List.Perm.refl _
    | succ j =>
      simp at h
      exact ((ih h).cons x).trans (List.Perm.swap t x _)

theorem set_perm_cons_eraseIdx {l : List Thread} {i : Nat} {t : Thread} (h : l[i]? = some t)
    (t1 : Thread) : (l.set i t1).Perm (t1 :: l.eraseIdx i) := by
  induction l generalizing i with
  | nil => simp at h
  | cons x l ih =>
    cases i with
    | zero => exact List.Perm.refl _
    | succ j =>
      simp at h
      exact ((ih h).cons x).trans (List.Perm.swap t1 x _)

theorem Thread.idle_holding {t : Thread} (h : t.idle = true) :
    t.holding = none ∧ t.claimed = none ∧ t.unlinked = none := by
  cases t <;> simp [Thread.idle] at h <;> exact ⟨rfl, rfl, rfl⟩

/-- A node that a push in progress is pushing has been passed to `push`. -/
theorem Inv.holding_pushed {gone live adv : List Nat} {s : State} {ths : List Thread}
    {pu po : List Nat} (h : Inv gone live adv s ths pu po) {n : Nat}
    (hn : n ∈ ths.filterMap Thread.holding) : n ∈ pu := by
  obtain ⟨u, hu, hun⟩ := List.mem_filterMap.1 hn
  have hl := h.loc u hu
  rw [h.pushed_perm.mem_iff]
  cases u <;> simp only [Thread.holding, Option.some.injEq] at hun <;> try exact absurd hun (by simp)
  all_goals subst hun
  · exact List.mem_append_right _ (List.mem_filterMap.2 ⟨_, hu, rfl⟩)
  · exact List.mem_append_right _ (List.mem_filterMap.2 ⟨_, hu, rfl⟩)
  · exact List.mem_append_right _ (List.mem_filterMap.2 ⟨_, hu, rfl⟩)
  · exact List.mem_append_left _ (List.mem_append_right _ (List.mem_of_mem_head? hl.1))
  · rcases hl with hl | hl
    · exact List.mem_append_left _ (List.mem_append_right _ hl.1.mem_right)
    · exact List.mem_append_left _ (List.mem_append_right _ (List.mem_of_mem_head? hl.2.1))
  · exact List.mem_append_left _ (List.mem_append_right _ (List.mem_of_mem_head? hl.2.1))
  · exact List.mem_append_left _ (List.mem_append_right _ (List.mem_of_mem_head? hl.1))

/-- A call to `try_pop` by a thread between calls keeps the invariant. -/
theorem Inv.call_try_pop {gone live adv : List Nat} {s : State} {t : Thread}
    {others : List Thread} {pu po : List Nat} (h : Inv gone live adv s (t :: others) pu po)
    (hi : t.idle = true) (p : Nat) : Inv gone live adv s (.pop_start p :: others) pu po := by
  obtain ⟨h1, h2, h3⟩ := Thread.idle_holding hi
  exact h.swap (by rw [h1]; rfl) (by rw [h2]; rfl) (by rw [h3]; rfl) trivial

/-- A call to `push` by a thread between calls keeps the invariant, if the
node is a real node with a null next-slot that has not been pushed before. -/
theorem Inv.call_push {gone live adv : List Nat} {s : State} {t : Thread}
    {others : List Thread} {pu po : List Nat} (h : Inv gone live adv s (t :: others) pu po)
    (hi : t.idle = true) {n : Nat} (hn : n ∉ pu) (hnode : IsNode s n) (hs : s.slot n = NULL) :
    Inv gone live adv s (.append_start n n :: others) (n :: pu) po := by
  obtain ⟨h1, h2, h3⟩ := Thread.idle_holding hi
  have eH : (t :: others).filterMap Thread.holding = others.filterMap Thread.holding := by
    simp [List.filterMap_cons, h1]
  have eC : (t :: others).filterMap Thread.claimed = others.filterMap Thread.claimed := by
    simp [List.filterMap_cons, h2]
  have eU : (t :: others).filterMap Thread.unlinked = others.filterMap Thread.unlinked := by
    simp [List.filterMap_cons, h3]
  have eH1 : (Thread.append_start n n :: others).filterMap Thread.holding =
      n :: others.filterMap Thread.holding := rfl
  have eC1 : (Thread.append_start n n :: others).filterMap Thread.claimed =
      others.filterMap Thread.claimed := rfl
  have eU1 : (Thread.append_start n n :: others).filterMap Thread.unlinked =
      n :: others.filterMap Thread.unlinked := rfl
  have hchain : n ∉ gone ++ live := fun hc =>
    hn (h.pushed_perm.mem_iff.2 (List.mem_append_left _ hc))
  have hnH : n ∉ others.filterMap Thread.holding := fun hc =>
    hn (h.holding_pushed (by rw [eH]; exact hc))
  refine ⟨h.self_ne, h.nodup, h.nodes, h.adv_sub, ?_, ?_, ?_, h.last_link, ?_, ?_, ?_,
    ?_, ?_, ?_⟩
  · rw [eC1, ← eC]; exact h.tail_ok
  · intro k hk
    rcases h.head_ok k hk with h4 | ⟨h4, h5⟩
    · exact Or.inl h4
    · exact Or.inr ⟨by rw [eH1]; rw [eH] at h4; exact List.mem_cons_of_mem _ h4, h5⟩
  · intro a b hab
    rcases h.links a b hab with h4 | ⟨h4, h5⟩
    · exact Or.inl h4
    · exact Or.inr ⟨h4, by rw [eH1]; rw [eH] at h5; exact List.mem_cons_of_mem _ h5⟩
  · rw [eC1, ← eC]; exact h.gone_slots
  · rw [eC1, ← eC]; exact h.claimed
  · rw [eH1]
    exact List.nodup_cons.2 ⟨hnH, by rw [← eH]; exact h.holding⟩
  · exact List.nodup_cons.2 ⟨hn, h.pushed_nodup⟩
  · rw [eU1]
    have := h.pushed_perm
    rw [eU] at this
    exact (this.cons n).trans List.perm_middle.symm
  · intro u hu
    rcases List.mem_cons.1 hu with rfl | hu
    · exact ⟨rfl, hchain, hs, hnode⟩
    · exact h.loc u (List.mem_cons_of_mem _ hu)

theorem filterMap_idle {f : Thread → Option Nat} {ths : List Thread}
    (hf : ∀ t : Thread, t.idle = true → f t = none) (h : ∀ t ∈ ths, t.idle = true) :
    ths.filterMap f = [] := by
  induction ths with
  | nil => rfl
  | cons t l ih =>
    rw [List.filterMap_cons, hf t (h t (List.mem_cons_self _ _))]
    exact ih (fun u hu => h u (List.mem_cons_of_mem _ hu))

theorem Machine.start_good (self : Nat) (slot : Nat → Nat) (n : Nat) (hself : self ≠ NULL) :
    (Machine.start self slot n).Good := by
  have hid : ∀ t ∈ List.replicate n Thread.append_done, t.idle = true := by
    intro t ht
    rw [List.eq_of_mem_replicate ht]
    rfl
  have hH := filterMap_idle (fun t ht => (Thread.idle_holding ht).1) hid
  have hC := filterMap_idle (fun t ht => (Thread.idle_holding ht).2.1) hid
  have hU := filterMap_idle (fun t ht => (Thread.idle_holding ht).2.2) hid
  refine ⟨[], [], [], hself, List.nodup_nil, ?_, ?_, ?_, ?_, ?_, ?_, ?_, ?_, ?_,
    List.nodup_nil, ?_, ?_⟩
  · intro k hk; simp at hk
  · intro k hk; simp at hk
  · exact Or.inr ⟨rfl, Or.inl ⟨rfl, rfl⟩⟩
  · intro k hk; simp at hk
  · intro a b hab; exact hab.elim
  · intro a ha; simp at ha
  · intro k hk; simp at hk
  · show ([] ++ (List.replicate n Thread.append_done).filterMap Thread.claimed).Perm []
    rw [hC]
    exact List.Perm.refl _
  · show ((List.replicate n Thread.append_done).filterMap Thread.holding).Nodup
    rw [hH]
    exact List.nodup_nil
  · show List.Perm [] ([] ++ [] ++ (List.replicate n Thread.append_done).filterMap Thread.unlinked)
    rw [hU]
    exact List.Perm.refl _
  · intro t ht
    have := List.eq_of_mem_replicate ht
    subst this
    trivial

/-- Every event keeps the invariant. -/
theorem Machine.fire_good {c : Machine} (h : c.Good) (e : Event) : (c.fire e).Good := by
  obtain ⟨gone, live, adv, h⟩ := h
  cases e with
  | push i n =>
    simp only [Machine.fire]
    cases hti : c.threads[i]? with
    | none => exact ⟨gone, live, adv, h⟩
    | some t =>
      simp only
      split_ifs with hc
      · obtain ⟨h1, h2, h3, h4⟩ := hc
        have h5 := (h.perm (perm_cons_eraseIdx hti)).call_push h1 h2 h3 h4
        exact ⟨gone, live, adv, h5.perm (set_perm_cons_eraseIdx hti _).symm⟩
      · exact ⟨gone, live, adv, h⟩
  | try_pop i p =>
    simp only [Machine.fire]
    cases hti : c.threads[i]? with
    | none => exact ⟨gone, live, adv, h⟩
    | some t =>
      simp only
      split_ifs with hc
      · have h5 := (h.perm (perm_cons_eraseIdx hti)).call_try_pop hc p
        exact ⟨gone, live, adv, h5.perm (set_perm_cons_eraseIdx hti _).symm⟩
      · exact ⟨gone, live, adv, h⟩
  | step i =>
    simp only [Machine.fire]
    cases hti : c.threads[i]? with
    | none => exact ⟨gone, live, adv, h⟩
    | some t =>
      simp only
      obtain ⟨g1, l1, a1, h5⟩ := (h.perm (perm_cons_eraseIdx hti)).step
      exact ⟨g1, l1, a1, h5.perm (set_perm_cons_eraseIdx hti _).symm⟩

theorem Machine.exec_good {c : Machine} (h : c.Good) (evs : List Event) : (c.exec evs).Good := by
  induction evs generalizing c with
  | nil => exact h
  | cons e evs ih => exact ih (Machine.fire_good h e)

/-- When every thread is between calls, the queue is well-formed and holds the
unclaimed nodes, every claimed node has been returned, and every pushed node
is claimed or in the queue. -/
theorem Inv.quiescent {gone live adv : List Nat} {s : State} {ths : List Thread}
    {pu po : List Nat} (h : Inv gone live adv s ths pu po) (hq : ∀ t ∈ ths, t.idle = true) :
    WellFormed s live ∧ (po ++ live).Perm pu := by
  have hH := filterMap_idle (fun t ht => (Thread.idle_holding ht).1) hq
  have hC := filterMap_idle (fun t ht => (Thread.idle_holding ht).2.1) hq
  have hU := filterMap_idle (fun t ht => (Thread.idle_holding ht).2.2) hq
  have hlinks := h.links
  have hhead := h.head_ok
  have htail := h.tail_ok
  have hcl := h.claimed
  have hpp := h.pushed_perm
  rw [hH] at hlinks hhead
  rw [hC] at htail hcl
  rw [hU] at hpp
  simp only [List.append_nil] at hcl hpp
  refine ⟨⟨h.self_ne, fun n hn => h.node_live hn, ?_, ?_, ?_⟩, ?_⟩
  · cases hl : live with
    | nil =>
      rcases htail with h1 | ⟨_, h1 | h1⟩
      · simp [hl] at h1
      · exact h1.2
      · simp at h1
    | cons x l =>
      rcases hhead x (by simp [hl]) with h1 | h1
      · exact h1
      · simp at h1
  · cases hl : live with
    | nil =>
      rcases htail with h1 | ⟨_, h1 | h1⟩
      · simp [hl] at h1
      · exact h1.1
      · simp at h1
    | cons x l =>
      rcases htail with h1 | ⟨h1, _⟩
      · rw [hl] at h1
        rw [List.getLastD_eq_getLast?, h1]
        rfl
      · simp [hl] at h1
  · have hlast := h.last_link
    clear hhead htail hpp h
    induction live with
    | nil => trivial
    | cons x l ih =>
      refine ⟨?_, ih (fun a b hab => hlinks a b (Or.inr hab)) ?_⟩
      · cases l with
        | nil => exact hlast x rfl
        | cons y l =>
          rcases hlinks x y (Or.inl ⟨rfl, rfl⟩) with h1 | h1
          · exact h1
          · simp at h1
      · intro a ha
        cases l with
        | nil => simp at ha
        | cons y l => exact hlast a (by rw [List.getLast?_cons_cons]; exact ha)
  · exact (hcl.append_right live).trans hpp.symm

/-! ## Every call returns, and the queue can be drained -/

theorem Machine.exec_events (c : Machine) (l1 l2 : List Event) :
    c.exec (l1 ++ l2) = (c.exec l1).exec l2 := by
  simp [Machine.exec, List.foldl_append]

theorem Machine.exec_event (c : Machine) (e : Event) (l : List Event) :
    c.exec (e :: l) = (c.fire e).exec l := rfl

theorem Machine.fire_step {c : Machine} {i : Nat} {t : Thread} (h : c.threads[i]? = some t) :
    (c.fire (.step i)).state = (Thread.step c.state t).1 ∧
    (c.fire (.step i)).threads = c.threads.set i (Thread.step c.state t).2 ∧
    (c.fire (.step i)).pushed = c.pushed := by
  simp [Machine.fire, h]

theorem Machine.fire_step_none {c : Machine} {i : Nat} (h : c.threads[i]? = none) :
    c.fire (.step i) = c := by
  simp [Machine.fire, h]

theorem set_same {l : List Thread} {i : Nat} {t : Thread} (h : l[i]? = some t) :
    l.set i t = l := by
  induction l generalizing i with
  | nil => rfl
  | cons x l ih =>
    cases i with
    | zero =>
      simp at h
      simp [h]
    | succ j =>
      simp at h
      simp [ih h]

/-- A thread that takes its steps alone executes its call as `Thread.run`
does. -/
theorem Machine.steps_alone (i : Nat) :
    ∀ (k : Nat) (c : Machine) (t : Thread), c.threads[i]? = some t →
      (c.exec (List.replicate k (.step i))).state = (Thread.run k c.state t).1 ∧
      (c.exec (List.replicate k (.step i))).threads =
        c.threads.set i (Thread.run k c.state t).2 ∧
      (c.exec (List.replicate k (.step i))).pushed = c.pushed
  | 0, c, t, h => by
    refine ⟨rfl, ?_, rfl⟩
    exact (set_same h).symm
  | k + 1, c, t, h => by
    obtain ⟨h1, h2, h3⟩ := Machine.fire_step h
    have hi : i < c.threads.length := by
      by_contra hlt
      rw [List.getElem?_eq_none (Nat.le_of_not_lt hlt)] at h
      exact Option.noConfusion h
    have h4 : (c.fire (.step i)).threads[i]? = some (Thread.step c.state t).2 := by
      rw [h2]
      simp [hi]
    obtain ⟨h5, h6, h7⟩ := Machine.steps_alone i k (c.fire (.step i)) _ h4
    rw [List.replicate_succ, Machine.exec_event]
    refine ⟨?_, ?_, ?_⟩
    · rw [h5, h1, Thread.run_succ]
    · rw [h6, h1, h2, List.set_set, Thread.run_succ]
    · rw [h7, h3]

/-- A thread that takes its steps alone completes its call. -/
theorem Thread.rank_run (k : Nat) : ∀ (s : State) (t : Thread),
    Thread.rank (Thread.run k s t).2 ≤ Thread.rank t - k := by
  induction k with
  | zero => intro s t; simp [Thread.run_zero]
  | succ k ih =>
    intro s t
    rw [Thread.run_succ]
    have h1 := ih (Thread.step s t).1 (Thread.step s t).2
    have h2 := Thread.rank_step s t
    omega

/-- From every state of the machine the calls in progress can be completed:
some sequence of steps leaves no thread inside a call. -/
theorem Machine.finish (c : Machine) : ∀ k : Nat, ∃ evs : List Event,
    (c.exec evs).pushed = c.pushed ∧ (c.exec evs).threads.length = c.threads.length ∧
    (∀ j, k ≤ j → (c.exec evs).threads[j]? = c.threads[j]?) ∧
    ∀ j, j < k → ∀ t, (c.exec evs).threads[j]? = some t → Thread.rank t = 0 := by
  intro k
  induction k with
  | zero => exact ⟨[], rfl, rfl, fun _ _ => rfl, fun j hj => absurd hj (Nat.not_lt_zero j)⟩
  | succ k ih =>
    obtain ⟨evs, h1, h2, h3, h4⟩ := ih
    cases hk : (c.exec evs).threads[k]? with
    | none =>
      refine ⟨evs, h1, h2, fun j hj => h3 j (by omega), ?_⟩
      intro j hj t ht
      by_cases e : j = k
      · subst e
        rw [hk] at ht
        exact Option.noConfusion ht
      · exact h4 j (by omega) t ht
    | some t =>
      obtain ⟨h5, h6, h7⟩ := Machine.steps_alone k (Thread.rank t) (c.exec evs) t hk
      refine ⟨evs ++ List.replicate (Thread.rank t) (.step k), ?_, ?_, ?_, ?_⟩
      · rw [Machine.exec_events, h7, h1]
      · rw [Machine.exec_events, h6, List.length_set, h2]
      · intro j hj
        rw [Machine.exec_events, h6, List.getElem?_set_ne (by omega)]
        exact h3 j (by omega)
      · intro j hj u hu
        rw [Machine.exec_events, h6] at hu
        by_cases e : j = k
        · subst e
          have hlt : j < (c.exec evs).threads.length := by
            by_contra hlt
            rw [List.getElem?_eq_none (Nat.le_of_not_lt hlt)] at hk
            exact Option.noConfusion hk
          rw [List.getElem?_set_self hlt] at hu
          have := Thread.rank_run (Thread.rank t) (c.exec evs).state t
          rw [← Option.some.inj hu]
          omega
        · rw [List.getElem?_set_ne (fun e1 => e e1.symm)] at hu
          exact h4 j (by omega) u hu

theorem Local.idle_of_rank {gone live adv : List Nat} {s : State} {t : Thread}
    (h : Local gone live adv s t) (hr : Thread.rank t = 0) : t.idle = true := by
  cases t <;> simp [Thread.rank] at hr <;> first | rfl | exact h.elim

theorem Machine.fire_length (c : Machine) (e : Event) :
    (c.fire e).threads.length = c.threads.length := by
  cases e with
  | push i n =>
    simp only [Machine.fire]
    cases c.threads[i]? with
    | none => rfl
    | some t =>
      simp only
      split_ifs
      · simp
      · rfl
  | try_pop i p =>
    simp only [Machine.fire]
    cases c.threads[i]? with
    | none => rfl
    | some t =>
      simp only
      split_ifs
      · simp
      · rfl
  | step i =>
    simp only [Machine.fire]
    cases c.threads[i]? with
    | none => rfl
    | some t => simp

theorem Machine.exec_length (c : Machine) (evs : List Event) :
    (c.exec evs).threads.length = c.threads.length := by
  induction evs generalizing c with
  | nil => rfl
  | cons e evs ih => rw [Machine.exec_event, ih, Machine.fire_length]

/-- A well-formed queue with no call in progress can be drained: one thread
calls `try_pop` once for every node of the queue. -/
theorem Machine.drain : ∀ (L : List Nat) (c : Machine), WellFormed c.state L →
    (∀ t ∈ c.threads, t.idle = true) → c.threads ≠ [] →
    ∃ evs : List Event, (c.exec evs).pushed = c.pushed ∧
      (∀ t ∈ (c.exec evs).threads, t.idle = true) ∧ (c.exec evs).state.head = NULL
  | [], c, hwf, hq, _ => ⟨[], rfl, hq, hwf.2.2.1⟩
  | a :: rest, c, hwf, hq, hne => by
    obtain ⟨t, l, hl⟩ : ∃ t l, c.threads = t :: l := by
      cases hc : c.threads with
      | nil => exact absurd hc hne
      | cons t l => exact ⟨t, l, rfl⟩
    have h0 : c.threads[0]? = some t := by rw [hl]; simp
    have hti : t.idle = true := hq t (by rw [hl]; exact List.mem_cons_self _ _)
    have hfire : c.fire (.try_pop 0 0) = { c with threads := c.threads.set 0 (.pop_start 0) } := by
      simp [Machine.fire, h0, hti]
    have h1 : (c.fire (.try_pop 0 0)).threads[0]? = some (.pop_start 0) := by
      rw [hfire, hl]; simp
    obtain ⟨h2, h3, h4⟩ := Machine.steps_alone 0 5 (c.fire (.try_pop 0 0)) _ h1
    obtain ⟨s1, h5, h6, _⟩ := try_pop_wellFormed hwf 0
    have hst : (c.fire (.try_pop 0 0)).state = c.state := by rw [hfire]
    rw [hst, run_pop_start, h5] at h2 h3
    have hq1 : ∀ u ∈ ((c.fire (.try_pop 0 0)).exec (List.replicate 5 (.step 0))).threads,
        u.idle = true := by
      intro u hu
      rw [h3, hfire, List.set_set] at hu
      rcases List.mem_or_eq_of_mem_set hu with hu | rfl
      · exact hq u hu
      · rfl
    have hne1 : ((c.fire (.try_pop 0 0)).exec (List.replicate 5 (.step 0))).threads ≠ [] := by
      intro e
      have := Machine.exec_length (c.fire (.try_pop 0 0)) (List.replicate 5 (.step 0))
      rw [e, Machine.fire_length, hl] at this
      simp at this
    obtain ⟨evs, h7, h8, h9⟩ := Machine.drain rest
      ((c.fire (.try_pop 0 0)).exec (List.replicate 5 (.step 0))) (by rw [h2]; exact h6) hq1 hne1
    refine ⟨.try_pop 0 0 :: (List.replicate 5 (.step 0) ++ evs), ?_, ?_, ?_⟩
    · rw [Machine.exec_event, Machine.exec_events, h7, h4, hfire]
    · rw [Machine.exec_event, Machine.exec_events]; exact h8
    · rw [Machine.exec_event, Machine.exec_events]; exact h9

/-- From every state that the machine can be in, the calls in progress can be
completed and the queue can then be drained. -/
theorem Machine.can_drain {c : Machine} (h : c.Good) (hne : c.threads ≠ []) :
    ∃ evs : List Event, (c.exec evs).pushed = c.pushed ∧
      (∀ t ∈ (c.exec evs).threads, t.idle = true) ∧ (c.exec evs).state.head = NULL := by
  obtain ⟨evs1, h1, h2, _, h4⟩ := Machine.finish c c.threads.length
  obtain ⟨gone, live, adv, hinv⟩ := Machine.exec_good h evs1
  have hq : ∀ t ∈ (c.exec evs1).threads, t.idle = true := by
    intro t ht
    obtain ⟨j, hj, hjt⟩ := List.getElem_of_mem ht
    refine (hinv.loc t ht).idle_of_rank (h4 j (by rw [← h2]; exact hj) t ?_)
    rw [List.getElem?_eq_getElem hj, hjt]
  have hne1 : (c.exec evs1).threads ≠ [] := by
    intro e
    rw [e] at h2
    exact hne (List.length_eq_zero.1 h2.symm)
  obtain ⟨evs2, h5, h6, h7⟩ := Machine.drain live (c.exec evs1) (hinv.quiescent hq).1 hq hne1
  refine ⟨evs1 ++ evs2, ?_, ?_, ?_⟩
  · rw [Machine.exec_events, h5, h1]
  · rw [Machine.exec_events]; exact h6
  · rw [Machine.exec_events]; exact h7

/-! ## A call that runs next to a call that has returned -/

theorem Thread.run_add (a : Nat) : ∀ (b : Nat) (s : State) (t : Thread),
    Thread.run (a + b) s t = Thread.run b (Thread.run a s t).1 (Thread.run a s t).2 := by
  induction a with
  | zero => intro b s t; simp [Thread.run_zero]
  | succ a ih =>
    intro b s t
    rw [Nat.add_right_comm, Thread.run_succ, ih, Thread.run_succ]

/-- A call that has returned or failed takes no step. -/
theorem Thread.run_fixed (s : State) (t : Thread) (ht : ∀ s1, Thread.step s1 t = (s1, t)) :
    ∀ n : Nat, Thread.run n s t = (s, t) := by
  intro n
  induction n with
  | zero => rfl
  | succ n ih => rw [Thread.run_succ, ht, ih]

/-- The second of two threads takes its steps next to a thread whose call has
returned: it executes its call as `Thread.run` does. -/
theorem exec_alone_second (d : Thread) (hd : ∀ s, Thread.step s d = (s, d)) :
    ∀ (rest : List Nat) (s : State) (a : Thread),
      Config.exec ⟨s, [d, a]⟩ rest =
        ⟨(Thread.run (rest.count 1) s a).1, [d, (Thread.run (rest.count 1) s a).2]⟩
  | [], s, a => rfl
  | 0 :: rest, s, a => by
    rw [Config.exec_cons, Config.step_zero, hd, exec_alone_second d hd rest]
    simp
  | 1 :: rest, s, a => by
    rw [Config.exec_cons, Config.step_one, exec_alone_second d hd rest]
    simp [Thread.run_succ]
  | (i + 2) :: rest, s, a => by
    rw [Config.exec_cons, Config.step_other, exec_alone_second d hd rest]
    simp

/-- An `append` that runs alone and whose call returns a state does not fail
an assertion at any step, and has returned after six steps. -/
theorem run_append_ok {s s1 : State} {f l : Nat} (h : append s f l = .ok s1) (k : Nat) :
    (∀ e, (Thread.run k s (.append_start f l)).2 ≠ .failed e) ∧
    (6 ≤ k → Thread.run k s (.append_start f l) = (s1, .append_done)) := by
  have h6 : Thread.run 6 s (.append_start f l) = (s1, .append_done) := by
    have := run_append_start s f l
    rw [h] at this
    exact this
  have hlate : ∀ j, Thread.run (6 + j) s (.append_start f l) = (s1, .append_done) := by
    intro j
    rw [Thread.run_add, h6]
    exact Thread.run_fixed s1 .append_done (fun _ => rfl) j
  constructor
  · intro e he
    by_cases hk : 6 ≤ k
    · obtain ⟨j, rfl⟩ := Nat.exists_eq_add_of_le hk
      rw [hlate j] at he
      exact Thread.noConfusion he
    · obtain ⟨j, hj⟩ := Nat.exists_eq_add_of_le (Nat.le_of_lt (Nat.lt_of_not_le hk))
      have h1 := Thread.run_add k j s (.append_start f l)
      rw [← hj, h6] at h1
      have h2 : Thread.run j (Thread.run k s (.append_start f l)).1
          (Thread.run k s (.append_start f l)).2 =
          ((Thread.run k s (.append_start f l)).1, .failed e) := by
        rw [he]
        exact Thread.run_fixed _ (.failed e) (fun _ => rfl) j
      rw [h2] at h1
      exact Thread.noConfusion (congrArg Prod.snd h1)
  · intro hk
    obtain ⟨j, rfl⟩ := Nat.exists_eq_add_of_le hk
    exact hlate j

/-! ## The claims -/

/-- C1: take a newly constructed queue and a finite sequence of `push` and
`pop` calls in which every pushed node is a real node and has a null next-slot
when it is pushed (no precondition assertion fails during the execution).
Then the execution returns, the pops return exactly what the FIFO list of the
specification returns (null for a pop on the empty list), so the nodes
returned by the pops are, in order, the first pushed nodes in push order; and
`pop()` on a queue whose `head` is null returns null. -/
theorem C1_fifo (self : Nat) (slot : Nat → Nat) (ops : List Op) (fuel : Nat)
    (hself : self ≠ NULL) (hnodes : ∀ n ∈ pushed ops, n ≠ NULL ∧ n ≠ self)
    (hpre : run (fuel + 1) (new self slot) ops ≠ .error .precondition) :
    (∃ s out, run (fuel + 1) (new self slot) ops = .ok (s, out) ∧
      out = fifo_spec [] ops ∧
      out.filter (fun x => decide (x ≠ NULL)) <+: pushed ops) ∧
    (∀ s0 : State, s0.head = NULL → pop s0 (fuel + 1) = .ok (NULL, s0)) := by
  have hwf : WellFormed (new self slot) [] := ⟨hself, by simp, rfl, rfl, trivial⟩
  refine ⟨?_, ?_⟩
  · rcases run_refines fuel ops (new self slot) [] hwf hnodes with h | ⟨s1, h1, -⟩
    · exact absurd h hpre
    · refine ⟨s1, _, h1, rfl, ?_⟩
      simpa using fifo_spec_prefix ops [] (by simp) (fun n hn => (hnodes n hn).1)
  · intro s0 h0
    simp [pop, pop_loop, try_pop_of_head_null h0]

/-- An instance of C1: on the newly constructed queue, `push(1)`, `push(2)`,
`push(3)` followed by four pops; the FIFO list returns `1, 2, 3` and then
null. -/
theorem C1_witness :
    ((100 : Nat) ≠ NULL ∧
      (∀ n ∈ pushed [.push 1, .push 2, .push 3, .pop, .pop, .pop, .pop], n ≠ NULL ∧ n ≠ 100) ∧
      run (0 + 1) demo0 [.push 1, .push 2, .push 3, .pop, .pop, .pop, .pop] ≠
        .error .precondition ∧
      fifo_spec [] [.push 1, .push 2, .push 3, .pop, .pop, .pop, .pop] = [1, 2, 3, NULL]) ∧
    ((∃ s out, run (0 + 1) (new 100 (fun _ => NULL))
        [.push 1, .push 2, .push 3, .pop, .pop, .pop, .pop] = .ok (s, out) ∧
      out = fifo_spec [] [.push 1, .push 2, .push 3, .pop, .pop, .pop, .pop] ∧
      out.filter (fun x => decide (x ≠ NULL)) <+:
        pushed [.push 1, .push 2, .push 3, .pop, .pop, .pop, .pop]) ∧
    (∀ s0 : State, s0.head = NULL → pop s0 (0 + 1) = .ok (NULL, s0))) :=
  ⟨⟨by decide, by decide, fun h => Except.noConfusion h, by decide⟩,
    C1_fifo 100 (fun _ => NULL) [.push 1, .push 2, .push 3, .pop, .pop, .pop, .pop] 0
      (by decide) (by decide) (fun h => Except.noConfusion h)⟩

/-- C2: on a well-formed queue with contents `L`, appending a sublist `M` of
real nodes that is linked through the next-slots and whose last next-slot is
null returns (no assertion fails) and leaves a well-formed queue with contents
`L ++ M`: `tail` is the last node of `M`, whose next-slot is the end-marker;
`head` is the first node of `M` if `L` was empty, and otherwise `head` is
unchanged and the next-slot of the old tail holds the first node of `M`.
(That the nodes of `M` are distinct and not in `L` follows from the
hypotheses.) -/
theorem C2_append_wellformed (s : State) (L M : List Nat) (hwf : WellFormed s L)
    (hM : M ≠ []) (hnode : ∀ n ∈ M, IsNode s n) (hlink : Linked s.slot NULL M) :
    ∃ s1, append s (M.headD NULL) (M.getLastD NULL) = .ok s1 ∧
      WellFormed s1 (L ++ M) ∧
      s1.tail = M.getLastD NULL ∧ next s1 (M.getLastD NULL) = end_marker s1 ∧
      (L = [] → s1.head = M.headD NULL) ∧
      (L ≠ [] → s1.head = s.head ∧ next s1 s.tail = M.headD NULL) := by
  obtain ⟨s1, h1, h2, h3, h4, h5, h6⟩ := append_wellFormed hwf hM hnode hlink
    (hwf.disjoint_of_linked hnode hlink)
  refine ⟨s1, h1, h2, h4, ?_, ?_, ?_⟩
  · simp [next, h6, end_marker, h3]
  · intro hL; rw [h5, if_pos hL]
  · intro hL
    refine ⟨by rw [h5, if_neg hL], ?_⟩
    have htL : s.tail ∈ L := by
      rcases hwf.head_tail with h | h
      · exact absurd h.1 hL
      · exact h.2.2.1
    have hlast : M.getLastD NULL ∈ M := by
      obtain ⟨l0, b, hb⟩ := exists_snoc hM
      rw [hb, List.getLastD_concat]; simp
    have hne : s.tail ≠ M.getLastD NULL := fun h =>
      hwf.disjoint_of_linked hnode hlink _ hlast (h ▸ htL)
    rw [next, h6, if_neg hne, if_pos ⟨rfl, hL⟩]

/-- An instance of C2: the queue holds node `1` and the sublist `2, 3` is
appended. -/
theorem C2_witness :
    (WellFormed demo1c [1] ∧ ([2, 3] : List Nat) ≠ [] ∧ (∀ n ∈ [2, 3], IsNode demo1c n) ∧
      Linked demo1c.slot NULL [2, 3]) ∧
    ∃ s1, append demo1c ([2, 3].headD NULL) ([2, 3].getLastD NULL) = .ok s1 ∧
      WellFormed s1 ([1] ++ [2, 3]) ∧
      s1.tail = [2, 3].getLastD NULL ∧ next s1 ([2, 3].getLastD NULL) = end_marker s1 ∧
      (([1] : List Nat) = [] → s1.head = [2, 3].headD NULL) ∧
      (([1] : List Nat) ≠ [] →
        s1.head = demo1c.head ∧ next s1 demo1c.tail = [2, 3].headD NULL) :=
  ⟨⟨by decide, by decide, by decide, by decide⟩,
    C2_append_wellformed demo1c [1] [2, 3] (by decide) (by decide) (by decide) (by decide)⟩

/-- C3: for every state, a `try_pop` executed without interference returns
success with no node and changes nothing when `head` is null; and whenever it
returns success with a node `n`, that node was `head` before the call and its
next-slot is null after the call (which is the precondition of `append`). -/
theorem C3_try_pop_result (s : State) (p : Nat) :
    (s.head = NULL → try_pop s p = (true, NULL, s)) ∧
    ∀ n, (try_pop s p).1 = true → (try_pop s p).2.1 = n → n ≠ NULL →
      n = s.head ∧ next (try_pop s p).2.2 n = NULL := by
  refine ⟨fun h => try_pop_of_head_null h p, ?_⟩
  intro n h1 h2 h3
  unfold try_pop at h1 h2 ⊢
  simp only [cmpxchg_head, cmpxchg_next, cmpxchg_tail, is_end, end_marker, set_next, next] at h1 h2 ⊢
  split_ifs at h1 h2 ⊢ <;> simp_all

/-- An instance of C3: `try_pop` on the queue that holds `1` and `2` returns
node `1`, which was `head`, and the next-slot of `1` is null afterwards. -/
theorem C3_witness :
    (try_pop demo2 7).1 = true ∧ (try_pop demo2 7).2.1 = 1 ∧
      (1 = demo2.head ∧ next (try_pop demo2 7).2.2 1 = NULL) :=
  ⟨by decide, by decide, (C3_try_pop_result demo2 7).2 1 (by decide) (by decide) (by decide)⟩

/-- C4: on a well-formed queue with contents `L`, `try_pop` never reports a
lost race, whatever `*node_ptr` held; `pop()` returns after exactly one call
to `try_pop` (one unit of fuel is enough, and more fuel changes nothing), and
its result is the front node of `L`, or null when `L` is empty. -/
theorem C4_pop_single_try (s : State) (L : List Nat) (fuel : Nat)
    (hwf : WellFormed s L) :
    (∀ p, (try_pop s p).1 = true) ∧
    ∃ s1, try_pop s NULL = (true, L.headD NULL, s1) ∧
      pop s 1 = .ok (L.headD NULL, s1) ∧
      pop s (fuel + 1) = .ok (L.headD NULL, s1) := by
  constructor
  · intro p
    cases L with
    | nil => rw [try_pop_of_head_null hwf.2.2.1]
    | cons a t =>
      obtain ⟨s1, h1, -⟩ := try_pop_wellFormed hwf p
      rw [h1]
  · obtain ⟨s1, h1, h2, -⟩ := pop_wellFormed hwf fuel
    obtain ⟨s2, h3, h4, -⟩ := pop_wellFormed hwf 0
    have : s2 = s1 := by
      rw [h2] at h4
      exact (Prod.mk.inj (Prod.mk.inj h4).2).2.symm
    subst this
    exact ⟨s2, h2, h3, h1⟩

/-- An instance of C4: the queue that holds `1` and `2`. -/
theorem C4_witness :
    WellFormed demo2 [1, 2] ∧
    ((∀ p, (try_pop demo2 p).1 = true) ∧
    ∃ s1, try_pop demo2 NULL = (true, [1, 2].headD NULL, s1) ∧
      pop demo2 1 = .ok ([1, 2].headD NULL, s1) ∧
      pop demo2 (5 + 1) = .ok ([1, 2].headD NULL, s1)) :=
  ⟨by decide, C4_pop_single_try demo2 [1, 2] 5 (by decide)⟩

/-- C5: in every state reached in single-threaded use, `take_all` returns the
pair (`head` before the call, `tail` before the call); the two are both null
or both non-null; after the call `head` and `tail` are null, `empty()` is
true, and a following `try_pop` returns success with no node. -/
theorem C5_take_all (s : State) (h : Reachable s) :
    (take_all s).1 = (s.head, s.tail) ∧
    ((s.head = NULL ∧ s.tail = NULL) ∨ (s.head ≠ NULL ∧ s.tail ≠ NULL)) ∧
    (take_all s).2.head = NULL ∧ (take_all s).2.tail = NULL ∧
    empty (take_all s).2 = true ∧
    ∀ p, try_pop (take_all s).2 p = (true, NULL, (take_all s).2) := by
  obtain ⟨L, hwf⟩ := reachable_wellFormed h
  obtain ⟨h1, h2, -⟩ := take_all_wellFormed hwf
  have hh : (take_all s).2.head = NULL := h2.2.2.1
  refine ⟨?_, ?_, hh, h2.2.2.2.1, ?_, fun p => try_pop_of_head_null hh p⟩
  · rw [h1, hwf.2.2.1, hwf.2.2.2.1]
  · rcases hwf.head_tail with h3 | h3
    · exact Or.inl h3.2
    · exact Or.inr ⟨(hwf.2.1 _ h3.2.1).1, (hwf.2.1 _ h3.2.2.1).1⟩
  · simp [empty, hh]

/-- An instance of C5: `take_all` on the queue that holds `1` and `2`. -/
theorem C5_witness :
    Reachable demo2 ∧
    ((take_all demo2).1 = (demo2.head, demo2.tail) ∧
    ((demo2.head = NULL ∧ demo2.tail = NULL) ∨ (demo2.head ≠ NULL ∧ demo2.tail ≠ NULL)) ∧
    (take_all demo2).2.head = NULL ∧ (take_all demo2).2.tail = NULL ∧
    empty (take_all demo2).2 = true ∧
    ∀ p, try_pop (take_all demo2).2 p = (true, NULL, (take_all demo2).2)) :=
  ⟨demo2_reachable, C5_take_all demo2 demo2_reachable⟩

/-- C6: for every list of `N` pairwise distinct real nodes whose next-slots
are null, pushing them onto a newly constructed queue and then calling `pop()`
`N` times returns exactly those nodes in push order; afterwards `head` and
`tail` are null, so the assertions of the destructor hold, and a further
`try_pop` returns success with no node. -/
theorem C6_round_trip (self : Nat) (slot : Nat → Nat) (nodes : List Nat) (fuel p : Nat)
    (hself : self ≠ NULL) (hnd : nodes.Nodup)
    (hnodes : ∀ n ∈ nodes, n ≠ NULL ∧ n ≠ self ∧ slot n = NULL) :
    ∃ s, run (fuel + 1) (new self slot)
          (nodes.map Op.push ++ List.replicate nodes.length Op.pop) = .ok (s, nodes) ∧
      s.head = NULL ∧ s.tail = NULL ∧ destroy s = .ok () ∧
      try_pop s p = (true, NULL, s) := by
  have hwf : WellFormed (new self slot) [] := ⟨hself, by simp, rfl, rfl, trivial⟩
  obtain ⟨s1, h1, -, h3⟩ := run_pushes nodes (new self slot) [] hwf hnd
    (fun n hn => ⟨⟨(hnodes n hn).1, (hnodes n hn).2.1⟩, (hnodes n hn).2.2⟩)
  rw [List.nil_append] at h1
  obtain ⟨s2, h4, h5⟩ := run_pops fuel nodes s1 h1
  have hh : s2.head = NULL := h5.2.2.1
  have ht : s2.tail = NULL := h5.2.2.2.1
  refine ⟨s2, by rw [h3, h4], hh, ht, ?_, try_pop_of_head_null hh p⟩
  simp [destroy, hh, ht]

/-- An instance of C6: the nodes `1`, `2`, `3` and a newly constructed queue. -/
theorem C6_witness :
    ((100 : Nat) ≠ NULL ∧ ([1, 2, 3] : List Nat).Nodup ∧
      (∀ n ∈ [1, 2, 3], n ≠ NULL ∧ n ≠ 100 ∧ (fun _ => NULL) n = NULL)) ∧
    ∃ s, run (0 + 1) (new 100 (fun _ => NULL))
          ([1, 2, 3].map Op.push ++ List.replicate [1, 2, 3].length Op.pop) =
          .ok (s, [1, 2, 3]) ∧
      s.head = NULL ∧ s.tail = NULL ∧ destroy s = .ok () ∧
      try_pop s 7 = (true, NULL, s) :=
  ⟨⟨by decide, by decide, by decide⟩,
    C6_round_trip 100 (fun _ => NULL) [1, 2, 3] 0 7 (by decide) (by decide) (by decide)⟩

/-- C7: `empty()` is true for a newly constructed queue; in every state
reached in single-threaded use, a push of a real node whose next-slot is null
returns and `empty()` is false right after it; and on a queue whose only node
is `a`, `pop()` returns `a` and `empty()` is true right after it. -/
theorem C7_empty (self : Nat) (slot : Nat → Nat) (s : State) (n : Nat)
    (s2 : State) (a fuel : Nat)
    (hR : Reachable s) (hn : IsNode s n) (hpre : next s n = NULL)
    (h2 : WellFormed s2 [a]) :
    empty (new self slot) = true ∧
    (∃ s1, push s n = .ok s1 ∧ empty s1 = false) ∧
    (∃ s3, pop s2 (fuel + 1) = .ok (a, s3) ∧ empty s3 = true) := by
  refine ⟨rfl, ?_, ?_⟩
  · obtain ⟨L, hwf⟩ := reachable_wellFormed hR
    obtain ⟨s1, h1, -, -, h4, -⟩ := push_wellFormed hwf hn hpre
    exact ⟨s1, h1, by simp [empty, h4]⟩
  · obtain ⟨s3, h3, -, h5⟩ := pop_wellFormed h2 fuel
    refine ⟨s3, h3, ?_⟩
    have : s3.head = NULL := h5.2.2.1
    simp [empty, this]

/-- An instance of C7: `push(3)` on the queue that holds `1` and `2`, and
`pop()` on the queue that holds only `1`. -/
theorem C7_witness :
    (Reachable demo2 ∧ IsNode demo2 3 ∧ next demo2 3 = NULL ∧ WellFormed demo1 [1]) ∧
    (empty (new 100 (fun _ => NULL)) = true ∧
    (∃ s1, push demo2 3 = .ok s1 ∧ empty s1 = false) ∧
    (∃ s3, pop demo1 (0 + 1) = .ok (1, s3) ∧ empty s3 = true)) :=
  ⟨⟨demo2_reachable, by decide, by decide, by decide⟩,
    C7_empty 100 (fun _ => NULL) demo2 3 demo1 1 0 demo2_reachable (by decide) (by decide)
      (by decide)⟩

/-- C8: `first()` returns `head` when `head` is non-null and the end-marker
otherwise; hence, the end-marker being distinct from null, `first()` never
returns null; and, `head` being null or a real node (so not the end-marker),
`is_end(first())` holds if and only if `empty()` holds. -/
theorem C8_first_never_null (s : State) :
    (s.head ≠ NULL → first s = s.head) ∧
    (s.head = NULL → first s = end_marker s) ∧
    (end_marker s ≠ NULL → first s ≠ NULL) ∧
    (s.head ≠ end_marker s → (is_end s (first s) = true ↔ empty s = true)) := by
  unfold first is_end empty
  by_cases h : s.head = NULL
  · simp [h]
  · simp [h]

/-- An instance of C8: the queue that holds `1` and `2`, where `first()` is
node `1`. -/
theorem C8_witness :
    (end_marker demo2 ≠ NULL ∧ demo2.head ≠ end_marker demo2 ∧ demo2.head ≠ NULL) ∧
    (first demo2 = demo2.head ∧ first demo2 ≠ NULL ∧
      (is_end demo2 (first demo2) = true ↔ empty demo2 = true)) :=
  ⟨⟨by decide, by decide, by decide⟩,
    (C8_first_never_null demo2).1 (by decide),
    (C8_first_never_null demo2).2.2.1 (by decide),
    (C8_first_never_null demo2).2.2.2 (by decide)⟩

/-- C9: in every state reached in single-threaded use the queue has a contents
list `L` and `length()` returns the number of nodes of `L`: its walk from
`first()` reaches the end-marker within `|L| + 1` evaluations of the loop
condition.  That number is 0 exactly when `empty()` is true; and when the
queue is empty, `N` pushes of real nodes whose preconditions hold all return,
and `length()` returns `N` after them. -/
theorem C9_length (s : State) (h : Reachable s) :
    ∃ L, WellFormed s L ∧
      (∀ fuel, length s (L.length + 1 + fuel) = .ok L.length) ∧
      (L.length = 0 ↔ empty s = true) ∧
      (∀ (nodes : List Nat) (fuel : Nat),
        empty s = true → (∀ n ∈ nodes, IsNode s n) →
        run (fuel + 1) s (nodes.map Op.push) ≠ .error .precondition →
        ∃ s1, run (fuel + 1) s (nodes.map Op.push) = .ok (s1, []) ∧
          ∀ fuel1, length s1 (nodes.length + 1 + fuel1) = .ok nodes.length) := by
  obtain ⟨L, hwf⟩ := reachable_wellFormed h
  have hempty : L = [] ↔ empty s = true := by
    rcases hwf.head_tail with h1 | h1
    · simp [empty, h1.1, h1.2.1]
    · have := (hwf.2.1 _ h1.2.1).1
      simp [empty, h1.1, this]
  refine ⟨L, hwf, length_wellFormed hwf, ?_, ?_⟩
  · rw [← hempty]; exact List.length_eq_zero
  · intro nodes fuel he hn hrun
    have hL : L = [] := hempty.mpr he
    subst hL
    rcases run_refines fuel (nodes.map Op.push) s [] hwf
      (by rw [pushed_map_push]; exact hn) with h1 | ⟨s2, h1, h2, -⟩
    · exact absurd h1 hrun
    · rw [fifo_final_map_push, List.nil_append] at h2
      rw [fifo_spec_map_push] at h1
      exact ⟨s2, h1, length_wellFormed h2⟩

/-- An instance of C9: the newly constructed queue is empty, and after
`push(1)` and `push(2)` its length is 2. -/
theorem C9_witness :
    (Reachable demo0 ∧ empty demo0 = true ∧ (∀ n ∈ [1, 2], IsNode demo0 n) ∧
      run (0 + 1) demo0 ([1, 2].map Op.push) ≠ .error .precondition) ∧
    ∃ L, WellFormed demo0 L ∧
      (∀ fuel, length demo0 (L.length + 1 + fuel) = .ok L.length) ∧
      (L.length = 0 ↔ empty demo0 = true) ∧
      ∃ s1, run (0 + 1) demo0 ([1, 2].map Op.push) = .ok (s1, []) ∧
        ∀ fuel1, length s1 ([1, 2].length + 1 + fuel1) = .ok [1, 2].length :=
  have hR : Reachable demo0 := Reachable.new 100 _ (by decide)
  have he : empty demo0 = true := by decide
  have hn : ∀ n ∈ [1, 2], IsNode demo0 n := by decide
  have hp : run (0 + 1) demo0 ([1, 2].map Op.push) ≠ .error .precondition :=
    fun h => Except.noConfusion h
  ⟨⟨hR, he, hn, hp⟩,
    (C9_length demo0 hR).elim fun L hL =>
      ⟨L, hL.1, hL.2.1, hL.2.2.1, hL.2.2.2 [1, 2] 0 he hn hp⟩⟩

/-- C10: in every state reached in single-threaded use by `push`, `append`
(of a linked sublist whose last next-slot is null), `try_pop`, `pop` and
`take_all`, `head` is null if and only if `tail` is null; and if `head` is
non-null, there is a list `L` of pairwise distinct real nodes that starts with
`head`, in which every next-slot holds the following node, that ends with
`tail`, and the next-slot of `tail` is the end-marker. -/
theorem C10_wellformed_invariant (s : State) (h : Reachable s) :
    (s.head = NULL ↔ s.tail = NULL) ∧
    (s.head ≠ NULL → ∃ L : List Nat,
      L.head? = some s.head ∧ L.Nodup ∧ (∀ n ∈ L, IsNode s n) ∧
      Linked s.slot (end_marker s) L ∧ L.getLast? = some s.tail ∧
      next s s.tail = end_marker s) := by
  obtain ⟨L, hwf⟩ := reachable_wellFormed h
  rcases hwf.head_tail with h3 | h3
  · exact ⟨by simp [h3.2.1, h3.2.2], fun hne => absurd h3.2.1 hne⟩
  · have hh := (hwf.2.1 _ h3.2.1).1
    have ht := (hwf.2.1 _ h3.2.2.1).1
    refine ⟨⟨fun e => absurd e hh, fun e => absurd e ht⟩, fun _ => ?_⟩
    refine ⟨L, ?_, hwf.nodup, hwf.2.1, hwf.2.2.2.2, ?_, h3.2.2.2⟩
    · obtain ⟨a, t, rfl⟩ := List.exists_cons_of_ne_nil h3.1
      rw [hwf.2.2.1]; rfl
    · obtain ⟨l0, b, rfl⟩ := exists_snoc h3.1
      rw [hwf.2.2.2.1, List.getLastD_concat]; simp

/-- An instance of C10: the queue that holds `1` and `2`. -/
theorem C10_witness :
    Reachable demo2 ∧
    ((demo2.head = NULL ↔ demo2.tail = NULL) ∧
    (demo2.head ≠ NULL → ∃ L : List Nat,
      L.head? = some demo2.head ∧ L.Nodup ∧ (∀ n ∈ L, IsNode demo2 n) ∧
      Linked demo2.slot (end_marker demo2) L ∧ L.getLast? = some demo2.tail ∧
      next demo2 demo2.tail = end_marker demo2)) :=
  ⟨demo2_reachable, C10_wellformed_invariant demo2 demo2_reachable⟩

/-- C11, as stated, fails: after `push(1)`, `push(2)`, `take_all()` node `1`
has been inserted, has been detached by `take_all` and is not reachable from
`head` (the queue is empty), yet its next-slot still holds node `2`. -/
theorem C11_counterexample :
    Traced (take_all demo2).2 ⟨[2, 1], [1, 2], [1]⟩ ∧
    WellFormed (take_all demo2).2 [] ∧
    ¬ (∀ n ∈ [2, 1], (next (take_all demo2).2 n = NULL ↔ n ∈ [1, 2] ∧ n ∉ ([] : List Nat))) :=
  ⟨demo2_taken_traced, by decide, by decide⟩

/-- C11, amended: in every state reached in single-threaded use, with any
history of the calls that lead to it, the queue has a contents list `L` (the
nodes reachable from `head`), and for every node that has been inserted the
next-slot is null if and only if the node has been claimed or detached, is
not in `L`, and is not one of the nodes that `take_all` detached as a node
other than the last one since they were last inserted.  Those nodes have been
detached, are not in `L`, and their next-slots are not null. -/
theorem C11_null_iff_claimed (s : State) (h : History) (ht : Traced s h) :
    ∃ L, WellFormed s L ∧
      (∀ n ∈ h.ins, (next s n = NULL ↔ n ∈ h.det ∧ n ∉ L ∧ n ∉ h.kept)) ∧
      (∀ k ∈ h.kept, k ∈ h.det ∧ k ∉ L ∧ next s k ≠ NULL) := by
  obtain ⟨L, hwf, hb, hc, hd, he⟩ := traced_inv ht
  refine ⟨L, hwf, ?_, he⟩
  intro n hn
  constructor
  · intro h0
    have hnL : n ∉ L := fun e => hwf.slot_ne_null e h0
    exact ⟨hc n hn hnL, hnL, fun e => (he n e).2.2 h0⟩
  · rintro ⟨-, hnL, hnk⟩
    exact hd n hn hnL hnk

/-- An instance of the amended C11: the state after `push(1)`, `push(2)`,
`take_all()`. -/
theorem C11_witness :
    Traced (take_all demo2).2 ⟨[2, 1], [1, 2], [1]⟩ ∧
    ∃ L, WellFormed (take_all demo2).2 L ∧
      (∀ n ∈ [2, 1], (next (take_all demo2).2 n = NULL ↔ n ∈ [1, 2] ∧ n ∉ L ∧ n ∉ [1])) ∧
      (∀ k ∈ [1], k ∈ [1, 2] ∧ k ∉ L ∧ next (take_all demo2).2 k ≠ NULL) :=
  ⟨demo2_taken_traced, C11_null_iff_claimed _ _ demo2_taken_traced⟩

/-- C12: producers and consumers under every interleaving.  Any number `n` of
threads start on a newly constructed queue; each event is a call to `push`
with a node not pushed before, a call to `try_pop` (the body of the loop of
`pop`), or an atomic step of a call in progress, in any order, and `c` is the
machine after the events `evs`.  Then no assertion has failed; no node is
claimed by two consumers or returned twice; only pushed nodes are returned;
whenever all calls have returned, the queue is well-formed and the returned
nodes together with the nodes in the queue are exactly the pushed nodes, so
that once the queue is drained the returned nodes are the pushed nodes, each
exactly once; and the run can always be continued until all calls have
returned and the queue is drained. -/
theorem C12_producers_consumers (self : Nat) (slot : Nat → Nat) (n : Nat) (evs : List Event)
    (c : Machine) (hself : self ≠ NULL) (hc : c = (Machine.start self slot n).exec evs) :
    (∀ t ∈ c.threads, ∀ f, t ≠ .failed f) ∧
    (c.popped ++ c.threads.filterMap Thread.claimed).Nodup ∧
    c.popped.Nodup ∧
    (∀ x ∈ c.popped, x ∈ c.pushed) ∧
    ((∀ t ∈ c.threads, t.idle = true) →
      (∃ L, WellFormed c.state L ∧ (c.popped ++ L).Perm c.pushed) ∧
      (c.state.head = NULL → c.popped.Perm c.pushed)) ∧
    (0 < n → ∃ more : List Event,
      (∀ t ∈ (c.exec more).threads, t.idle = true) ∧ (c.exec more).state.head = NULL ∧
      (c.exec more).pushed = c.pushed ∧ (c.exec more).popped.Perm c.pushed) := by
  have hgood : c.Good := hc ▸ Machine.exec_good (Machine.start_good self slot n hself) evs
  have hdrained : ∀ {d : Machine} {gone live adv : List Nat},
      Inv gone live adv d.state d.threads d.pushed d.popped →
      (∀ t ∈ d.threads, t.idle = true) →
      (∃ L, WellFormed d.state L ∧ (d.popped ++ L).Perm d.pushed) ∧
      (d.state.head = NULL → d.popped.Perm d.pushed) := by
    intro d gone live adv h hq
    obtain ⟨hwf, hp⟩ := h.quiescent hq
    refine ⟨⟨live, hwf, hp⟩, ?_⟩
    intro hh
    have hl : live = [] := by
      cases hlv : live with
      | nil => rfl
      | cons x l =>
        have h1 := hwf.2.2.1
        rw [hlv, hh] at h1
        exact absurd h1.symm (h.node_live (by simp [hlv])).1
    rw [hl, List.append_nil] at hp
    exact hp
  obtain ⟨gone, live, adv, h⟩ := hgood
  have hnd : (c.popped ++ c.threads.filterMap Thread.claimed).Nodup :=
    h.claimed.nodup_iff.2 h.gone_nodup
  refine ⟨?_, hnd, hnd.of_append_left, ?_, hdrained h, ?_⟩
  · rintro t ht f rfl
    exact h.loc _ ht
  · intro x hx
    rw [h.pushed_perm.mem_iff]
    exact List.mem_append_left _ (List.mem_append_left _
      (h.claimed.mem_iff.1 (List.mem_append_left _ hx)))
  · intro hn
    have hne : c.threads ≠ [] := by
      intro e
      have hlen := Machine.exec_length (Machine.start self slot n) evs
      rw [← hc, e] at hlen
      simp [Machine.start] at hlen
      omega
    obtain ⟨more, h1, h2, h3⟩ := Machine.can_drain ⟨gone, live, adv, h⟩ hne
    obtain ⟨g1, l1, a1, h4⟩ := Machine.exec_good ⟨gone, live, adv, h⟩ more
    exact ⟨more, h2, h3, h1, h1 ▸ (hdrained h4 h2).2 h3⟩

set_option maxRecDepth 20000 in
theorem C12_witness :
    (100 : Nat) ≠ NULL ∧
    (∀ t ∈ ((Machine.start 100 (fun _ => NULL) 4).exec demoEvents).threads, t.idle = true) ∧
    ((Machine.start 100 (fun _ => NULL) 4).exec demoEvents).state.head = NULL ∧
    ((Machine.start 100 (fun _ => NULL) 4).exec demoEvents).pushed = [2, 4, 1, 3] ∧
    ((Machine.start 100 (fun _ => NULL) 4).exec demoEvents).popped = [2, 4, 1, 3] ∧
    ((Machine.start 100 (fun _ => NULL) 4).exec demoEvents).popped.Perm
      ((Machine.start 100 (fun _ => NULL) 4).exec demoEvents).pushed :=
  ⟨by decide, by decide, by decide, by decide, by decide,
    ((C12_producers_consumers 100 (fun _ => NULL) 4 demoEvents _ (by decide) rfl).2.2.2.2.1
      (by decide)).2 (by decide)⟩

/-- C13: two threads push the distinct real nodes `X` and `Y`, whose
next-slots are null, onto a newly constructed queue.  After every
interleaving of their atomic steps no assertion has failed; a push that has
been given six steps has returned; and once both pushes have returned, the
queue is well-formed with contents `X, Y` or `Y, X`, so two calls of `pop()`
by a single consumer return exactly those two nodes, each once, and leave the
queue empty. -/
theorem C13_two_pushes (self : Nat) (slot : Nat → Nat) (X Y : Nat) (sched : List Nat)
    (hself : self ≠ NULL) (hX : X ≠ NULL ∧ X ≠ self) (hY : Y ≠ NULL ∧ Y ≠ self)
    (hXY : X ≠ Y) (hsX : slot X = NULL) (hsY : slot Y = NULL) :
    ∃ s tX tY,
      Config.exec ⟨new self slot, [.append_start X X, .append_start Y Y]⟩ sched =
        ⟨s, [tX, tY]⟩ ∧
      (∀ f, tX ≠ .failed f ∧ tY ≠ .failed f) ∧
      (6 ≤ sched.count 0 → tX = .append_done) ∧
      (6 ≤ sched.count 1 → tY = .append_done) ∧
      (tX = .append_done → tY = .append_done →
        ∃ L, (L = [X, Y] ∨ L = [Y, X]) ∧ WellFormed s L ∧
          ∃ s1, run 1 s [.pop, .pop] = .ok (s1, L) ∧ s1.head = NULL ∧ s1.tail = NULL) := by
  have hinit : TwoPushes self X Y (new self slot) (.append_start X X) (.append_start Y Y) :=
    ⟨rfl, Or.inl ⟨Or.inl ⟨rfl, hsX⟩, Or.inl ⟨rfl, hsY⟩, rfl, rfl⟩⟩
  obtain ⟨s, tX, tY, hexec, hs, hcases⟩ := exec_pair_invariant
    (TwoPushes.step_left hself hX.1 hY.1 hX.2 hY.2 hXY)
    (TwoPushes.step_right hself hX.1 hY.1 hX.2 hY.2 hXY) sched _ _ _ hinit
  obtain ⟨s', tX', tY', hexec', hrX, hrY⟩ :=
    exec_pair_rank sched (new self slot) (.append_start X X) (.append_start Y Y)
  rw [hexec] at hexec'
  obtain ⟨rfl, hth⟩ := Config.mk.inj hexec'
  obtain ⟨rfl, rfl⟩ : tX = tX' ∧ tY = tY' := by simpa using hth
  have hpops : ∀ L, WellFormed s L → L.length = 2 →
      ∃ s1, run 1 s [.pop, .pop] = .ok (s1, L) ∧ s1.head = NULL ∧ s1.tail = NULL := by
    intro L hwf hlen
    obtain ⟨s1, h1, h2⟩ := run_pops 0 L s hwf
    rw [hlen] at h1
    exact ⟨s1, h1, h2.2.2.1, h2.2.2.2.1⟩
  have hself1 : s.self ≠ NULL := by rw [hs]; exact hself
  unfold NotSwapped SwappedFirst SwappedSecond at hcases
  refine ⟨s, tX, tY, hexec, ?_, ?_, ?_, ?_⟩
  · intro f
    rcases hcases with ⟨h1, h2, -⟩ | ⟨h1, h2, -⟩ | ⟨h1, h2, -⟩ | ⟨h1, h2, -⟩ | ⟨h1, h2, -⟩ <;>
      rcases h1 with ⟨rfl, -⟩ | ⟨rfl, -⟩ | ⟨rfl, -⟩ <;>
      rcases h2 with ⟨rfl, -⟩ | ⟨rfl, -⟩ | ⟨rfl, -⟩ <;> simp
  · intro h6
    have h0 : Thread.rank tX = 0 := by
      have : Thread.rank (.append_start X X) = 6 := rfl
      omega
    rcases hcases with ⟨h1, -⟩ | ⟨h1, -⟩ | ⟨h1, -⟩ | ⟨h1, -⟩ | ⟨h1, -⟩ <;>
      rcases h1 with ⟨rfl, -⟩ | ⟨rfl, -⟩ | ⟨rfl, -⟩ <;> simp [Thread.rank] at h0 ⊢
  · intro h6
    have h0 : Thread.rank tY = 0 := by
      have : Thread.rank (.append_start Y Y) = 6 := rfl
      omega
    rcases hcases with ⟨-, h2, -⟩ | ⟨-, h2, -⟩ | ⟨-, h2, -⟩ | ⟨-, h2, -⟩ | ⟨-, h2, -⟩ <;>
      rcases h2 with ⟨rfl, -⟩ | ⟨rfl, -⟩ | ⟨rfl, -⟩ <;> simp [Thread.rank] at h0 ⊢
  · rintro rfl rfl
    rcases hcases with ⟨h1, h2, h3, h4⟩ | ⟨h1, h2, h3, h4⟩ | ⟨h1, h2, h3, h4⟩ |
      ⟨h1, h2, h3, h4⟩ | ⟨h1, h2, h3, h4⟩
    · simp at h1
    · simp at h2
    · simp at h1
    · have hh : s.head = X := by simpa using h1
      have hl : s.slot X = Y := by simpa using h2
      have hwf : WellFormed s [X, Y] :=
        ⟨hself1, by simp [IsNode, end_marker, hs, hX, hY], hh, h3,
          ⟨hl, by simpa [end_marker, hs] using h4, trivial⟩⟩
      exact ⟨[X, Y], Or.inl rfl, hwf, hpops _ hwf rfl⟩
    · have hh : s.head = Y := by simpa using h2
      have hl : s.slot Y = X := by simpa using h1
      have hwf : WellFormed s [Y, X] :=
        ⟨hself1, by simp [IsNode, end_marker, hs, hX, hY], hh, h3,
          ⟨hl, by simpa [end_marker, hs] using h4, trivial⟩⟩
      exact ⟨[Y, X], Or.inr rfl, hwf, hpops _ hwf rfl⟩

/-- An instance of C13: the nodes `1` and `2`, the queue at address `100`,
and a schedule that alternates between the two threads. -/
theorem C13_witness :
    ((100 : Nat) ≠ NULL ∧ ((1 : Nat) ≠ NULL ∧ (1 : Nat) ≠ 100) ∧ ((2 : Nat) ≠ NULL ∧ (2 : Nat) ≠ 100) ∧
      (1 : Nat) ≠ 2) ∧
    ∃ s tX tY,
      Config.exec ⟨new 100 (fun _ => NULL), [.append_start 1 1, .append_start 2 2]⟩
        [0, 1, 0, 1, 1, 0, 1, 0, 0, 1, 0, 1] = ⟨s, [tX, tY]⟩ ∧
      (∀ f, tX ≠ .failed f ∧ tY ≠ .failed f) ∧
      (6 ≤ [0, 1, 0, 1, 1, 0, 1, 0, 0, 1, 0, 1].count 0 → tX = .append_done) ∧
      (6 ≤ [0, 1, 0, 1, 1, 0, 1, 0, 0, 1, 0, 1].count 1 → tY = .append_done) ∧
      (tX = .append_done → tY = .append_done →
        ∃ L, (L = [1, 2] ∨ L = [2, 1]) ∧ WellFormed s L ∧
          ∃ s1, run 1 s [.pop, .pop] = .ok (s1, L) ∧ s1.head = NULL ∧ s1.tail = NULL) :=
  ⟨⟨by decide, by decide, by decide, by decide⟩,
    C13_two_pushes 100 (fun _ => NULL) 1 2 [0, 1, 0, 1, 1, 0, 1, 0, 0, 1, 0, 1]
      (by decide) (by decide) (by decide) (by decide) rfl rfl⟩

/-- C14, as stated, fails.  On the queue that holds `1` and `2`, `take_all`
loads `tail`, clears the end-marker and loads `head`; then `try_pop` runs and
returns node `1`; then `take_all` stores null to `head` and `tail` and returns
`(1, 2)`: node `1` is in the result of `take_all` and has been returned by a
successful `try_pop`, and the next-slot of the returned head `1` is null, so
the pair is not a list from `1` to `2`.  The same happens when the five steps
of `take_all` are taken in a row while a `try_pop` is in progress that has
claimed the last node: on the queue that holds `1`, both return node `1`.
With a concurrent `append` the pair mixes two instants: on the queue that
holds `1`, `take_all` loads `tail = 1` and clears the end-marker of `1`; then
`push(2)` runs, finds its compare-and-swap on the next-slot of `1` failed and
installs `2` as the head; then `take_all` loads `head = 2` and returns
`(2, 1)`, a pair whose head is not followed by its tail (the next-slot of `2`
holds the end-marker), while the queue is left empty. -/
theorem C14_counterexample :
    ((Config.exec ⟨demo2, [.take_start, .pop_start 0]⟩ [0, 0, 0, 1, 1, 1, 1, 0, 0]).threads =
      [.take_done 1 2, .pop_done true 1] ∧
    ¬ Linked (Config.exec ⟨demo2, [.take_start, .pop_start 0]⟩
        [0, 0, 0, 1, 1, 1, 1, 0, 0]).state.slot NULL [1, 2]) ∧
    (Config.exec ⟨demo1, [.take_start, .pop_start 0]⟩ [1, 1, 1, 0, 0, 0, 0, 0, 1, 1]).threads =
      [.take_done 1 1, .pop_done true 1] ∧
    ¬ (∀ (sched : List Nat) (h t n : Nat),
        (Config.exec ⟨demo2, [.take_start, .pop_start 0]⟩ sched).threads =
          [.take_done h t, .pop_done true n] → n ≠ NULL → n ≠ h ∧ n ≠ t) ∧
    ((Config.exec ⟨demo1, [.take_start, .append_start 2 2]⟩
        [0, 0, 1, 1, 1, 1, 1, 1, 0, 0, 0]).threads = [.take_done 2 1, .append_done] ∧
      (Config.exec ⟨demo1, [.take_start, .append_start 2 2]⟩
        [0, 0, 1, 1, 1, 1, 1, 1, 0, 0, 0]).state.head = NULL ∧
      (Config.exec ⟨demo1, [.take_start, .append_start 2 2]⟩
        [0, 0, 1, 1, 1, 1, 1, 1, 0, 0, 0]).state.slot 2 = 100 ∧
      ¬ Linked (Config.exec ⟨demo1, [.take_start, .append_start 2 2]⟩
        [0, 0, 1, 1, 1, 1, 1, 1, 0, 0, 0]).state.slot NULL [2, 1]) ∧
    ¬ (∀ (sched : List Nat) (h t : Nat),
        (Config.exec ⟨demo1, [.take_start, .append_start 2 2]⟩ sched).threads =
          [.take_done h t, .append_done] → (h = 1 ∧ t = 1) ∨ (h = 1 ∧ t = 2)) :=
  ⟨⟨by decide, by decide⟩, by decide,
    fun H => (H [0, 0, 0, 1, 1, 1, 1, 0, 0] 1 2 1 (by decide) (by decide)).1 rfl,
    ⟨by decide, by decide, by decide, by decide⟩,
    fun H => by
      have := H [0, 0, 1, 1, 1, 1, 1, 1, 0, 0, 0] 2 1 (by decide)
      revert this
      decide⟩

/-- C14, amended: `take_all` does not overlap with the other call.  On a
well-formed queue with contents `L` (no call is in progress), the five atomic
steps of `take_all` are taken before the first step of a `try_pop` or of an
`append`, which then runs under any schedule.  Then `take_all` returns the
pair (first node of `L`, last node of `L`), the state is the one that
`take_all` gives without interference: `head` and `tail` are null and the
nodes of `L` are linked in their order, the last one followed by null.  The
`try_pop` returns success with no node at its first step, so no node is both
in the result of `take_all` and returned by the `try_pop`.  The `append` of a
sublist `M` of real nodes, linked and followed by null, executes on the state
left by `take_all` as if alone: no assertion fails, after six steps it has
returned, the queue is well-formed with contents `M`, and the nodes of `L` are
still linked in their order and followed by null. -/
theorem C14_take_all_not_overlapped (s : State) (L : List Nat) (p : Nat)
    (rest : List Nat) (hwf : WellFormed s L) :
    (∃ s1 tC,
      Config.exec ⟨s, [.take_start, .pop_start p]⟩ ([0, 0, 0, 0, 0] ++ rest) =
        ⟨s1, [.take_done (L.headD NULL) (L.getLastD NULL), tC]⟩ ∧
      s1 = (take_all s).2 ∧ s1.head = NULL ∧ s1.tail = NULL ∧ Linked s1.slot NULL L ∧
      (rest.count 1 = 0 → tC = .pop_start p) ∧
      (rest.count 1 ≠ 0 → tC = .pop_done true NULL)) ∧
    (∀ M : List Nat, M ≠ [] → (∀ n ∈ M, IsNode s n) → Linked s.slot NULL M →
      ∃ s1 tA,
        Config.exec ⟨s, [.take_start, .append_start (M.headD NULL) (M.getLastD NULL)]⟩
          ([0, 0, 0, 0, 0] ++ rest) =
          ⟨s1, [.take_done (L.headD NULL) (L.getLastD NULL), tA]⟩ ∧
        (s1, tA) = Thread.run (rest.count 1) (take_all s).2
          (.append_start (M.headD NULL) (M.getLastD NULL)) ∧
        (∀ e, tA ≠ .failed e) ∧
        (6 ≤ rest.count 1 → tA = .append_done ∧
          append (take_all s).2 (M.headD NULL) (M.getLastD NULL) = .ok s1 ∧
          WellFormed s1 M ∧ Linked s1.slot NULL L)) := by
  obtain ⟨h1, h2, h3, h4⟩ := take_all_wellFormed hwf
  have hh : (take_all s).2.head = NULL := h2.2.2.1
  have ht : (take_all s).2.tail = NULL := h2.2.2.2.1
  constructor
  · have hblock : Config.exec ⟨s, [.take_start, .pop_start p]⟩ [0, 0, 0, 0, 0] =
        ⟨(take_all s).2, [.take_done (L.headD NULL) (L.getLastD NULL), .pop_start p]⟩ := by
      have := exec_replicate_zero 5 s .take_start (.pop_start p)
      rw [run_take_start, h1] at this
      exact this
    rw [Config.exec_append, hblock,
      (exec_pop_on_empty (take_all s).2 (.take_done (L.headD NULL) (L.getLastD NULL)) p rfl
        hh rest).2]
    refine ⟨_, _, rfl, rfl, hh, ht, take_all_linked hwf, ?_, ?_⟩
    · intro h0; rw [if_pos h0]
    · intro h0; rw [if_neg h0]
  · intro M hM hnode hlink
    have hdisj : ∀ n ∈ M, n ∉ L := hwf.disjoint_of_linked hnode hlink
    have hnode1 : ∀ n ∈ M, IsNode (take_all s).2 n := by
      intro n hn
      have := hnode n hn
      simpa [IsNode, end_marker, h3] using this
    have hlink1 : Linked (take_all s).2.slot NULL M := by
      refine (Linked_congr NULL (fun a ha => ?_)).2 hlink
      rw [h4, if_neg]
      rintro ⟨rfl, hne⟩
      exact hdisj _ ha (by rw [hwf.2.2.2.1]; exact getLastD_mem hne NULL)
    obtain ⟨s2, h5, h6, -, -, -, h7⟩ :=
      append_wellFormed h2 hM hnode1 hlink1 (fun n _ hn => by simp at hn)
    have hblock :
        Config.exec ⟨s, [.take_start, .append_start (M.headD NULL) (M.getLastD NULL)]⟩
          [0, 0, 0, 0, 0] =
        ⟨(take_all s).2, [.take_done (L.headD NULL) (L.getLastD NULL),
          .append_start (M.headD NULL) (M.getLastD NULL)]⟩ := by
      have := exec_replicate_zero 5 s .take_start
        (.append_start (M.headD NULL) (M.getLastD NULL))
      rw [run_take_start, h1] at this
      exact this
    obtain ⟨h8, h9⟩ := run_append_ok h5 (rest.count 1)
    rw [Config.exec_append, hblock,
      exec_alone_second (.take_done (L.headD NULL) (L.getLastD NULL)) (fun _ => rfl) rest]
    refine ⟨_, _, rfl, rfl, h8, ?_⟩
    intro hk
    rw [h9 hk]
    refine ⟨rfl, h5, by simpa using h6, ?_⟩
    refine (Linked_congr NULL (fun a ha => ?_)).2 (take_all_linked hwf)
    rw [h7, if_neg, if_neg]
    · rintro ⟨-, hne⟩
      exact hne rfl
    · rintro rfl
      exact hdisj _ (getLastD_mem hM NULL) ha

/-- An instance of the amended C14: the queue that holds `1` and `2`; after
the steps of `take_all` the `try_pop` takes its steps, or the push of node `3`
takes its steps. -/
theorem C14_witness :
    WellFormed demo2 [1, 2] ∧
    (∃ s1 tC,
      Config.exec ⟨demo2, [.take_start, .pop_start 7]⟩ ([0, 0, 0, 0, 0] ++ [1, 1, 0, 1, 1, 1, 1]) =
        ⟨s1, [.take_done ([1, 2].headD NULL) ([1, 2].getLastD NULL), tC]⟩ ∧
      s1 = (take_all demo2).2 ∧ s1.head = NULL ∧ s1.tail = NULL ∧
      Linked s1.slot NULL [1, 2] ∧
      ([1, 1, 0, 1, 1, 1, 1].count 1 = 0 → tC = .pop_start 7) ∧
      ([1, 1, 0, 1, 1, 1, 1].count 1 ≠ 0 → tC = .pop_done true NULL)) ∧
    (∃ s1 tA,
      Config.exec ⟨demo2, [.take_start, .append_start ([3].headD NULL) ([3].getLastD NULL)]⟩
          ([0, 0, 0, 0, 0] ++ [1, 1, 0, 1, 1, 1, 1]) =
        ⟨s1, [.take_done ([1, 2].headD NULL) ([1, 2].getLastD NULL), tA]⟩ ∧
      (s1, tA) = Thread.run ([1, 1, 0, 1, 1, 1, 1].count 1) (take_all demo2).2
        (.append_start ([3].headD NULL) ([3].getLastD NULL)) ∧
      (∀ e, tA ≠ .failed e) ∧
      (6 ≤ [1, 1, 0, 1, 1, 1, 1].count 1 → tA = .append_done ∧
        append (take_all demo2).2 ([3].headD NULL) ([3].getLastD NULL) = .ok s1 ∧
        WellFormed s1 [3] ∧ Linked s1.slot NULL [1, 2])) :=
  ⟨by decide,
    (C14_take_all_not_overlapped demo2 [1, 2] 7 [1, 1, 0, 1, 1, 1, 1] (by decide)).1,
    (C14_take_all_not_overlapped demo2 [1, 2] 7 [1, 1, 0, 1, 1, 1, 1] (by decide)).2 [3]
      (by decide) (by decide) (by decide)⟩

/-- C15: on a well-formed non-empty queue with contents `L`, `try_pop` returns
the head node (the front of `L`).  If its next-slot was the end-marker, `head`
and `tail` are null afterwards; otherwise `head` becomes the node that
followed it and `tail` is unchanged.  The next-slot of the returned node
becomes null and no other next-slot changes. -/
theorem C15_try_pop_frame (s : State) (L : List Nat) (p : Nat)
    (hwf : WellFormed s L) (hne : L ≠ []) :
    ∃ s1, try_pop s p = (true, s.head, s1) ∧ L.head? = some s.head ∧
      (next s s.head = end_marker s → s1.head = NULL ∧ s1.tail = NULL) ∧
      (next s s.head ≠ end_marker s → s1.head = next s s.head ∧ s1.tail = s.tail) ∧
      next s1 s.head = NULL ∧ next s s.head ≠ NULL ∧
      ∀ b, b ≠ s.head → next s1 b = next s b := by
  obtain ⟨a, t, rfl⟩ := List.exists_cons_of_ne_nil hne
  obtain ⟨s1, h1, -, -, h4, h5, h6⟩ := try_pop_wellFormed hwf p
  have hh : s.head = a := hwf.2.2.1
  have hslot : s.slot a = t.headD (end_marker s) := hwf.2.2.2.2.1
  rw [hh]
  refine ⟨s1, h1, rfl, ?_, ?_, ?_, ?_, ?_⟩
  · intro he
    cases t with
    | nil => simp [h4, h5]
    | cons b t1 =>
      have hb : IsNode s b := hwf.2.1 b (by simp)
      exact absurd (hslot.symm.trans he) hb.2
  · intro he
    cases t with
    | nil => exact absurd hslot he
    | cons b t1 =>
      refine ⟨by rw [h4, next, hslot]; rfl, by rw [h5]; simp⟩
  · simp [next, h6]
  · exact hwf.slot_ne_null (List.mem_cons_self a t)
  · intro b hb
    simp [next, h6, hb]

/-- An instance of C15: `try_pop` on the queue that holds `1` and `2`. -/
theorem C15_witness :
    (WellFormed demo2 [1, 2] ∧ ([1, 2] : List Nat) ≠ []) ∧
    ∃ s1, try_pop demo2 7 = (true, demo2.head, s1) ∧ [1, 2].head? = some demo2.head ∧
      (next demo2 demo2.head = end_marker demo2 → s1.head = NULL ∧ s1.tail = NULL) ∧
      (next demo2 demo2.head ≠ end_marker demo2 →
        s1.head = next demo2 demo2.head ∧ s1.tail = demo2.tail) ∧
      next s1 demo2.head = NULL ∧ next demo2 demo2.head ≠ NULL ∧
      ∀ b, b ≠ demo2.head → next s1 b = next demo2 b :=
  ⟨⟨by decide, by decide⟩, C15_try_pop_frame demo2 [1, 2] 7 (by decide) (by decide)⟩

/-- C16: in every state whose end-marker is not null (the end-marker is the
address of the queue object), a `try_pop` executed without interference
returns false exactly when `head` is non-null and the next-slot of the head
node is null.  In that case `*node_ptr` is not written, `head` is null after
the call, `tail` and every next-slot are unchanged, and a `try_pop` that
follows returns success with no node. -/
theorem C16_lost_race (s : State) (p : Nat) (hself : end_marker s ≠ NULL) :
    ((try_pop s p).1 = false ↔ (s.head ≠ NULL ∧ next s s.head = NULL)) ∧
    ((try_pop s p).1 = false →
      (try_pop s p).2.1 = p ∧ (try_pop s p).2.2.head = NULL ∧
      (try_pop s p).2.2.tail = s.tail ∧ (∀ a, next (try_pop s p).2.2 a = next s a) ∧
      ∀ q, try_pop (try_pop s p).2.2 q = (true, NULL, (try_pop s p).2.2)) := by
  have hself1 : ¬ s.self = 0 := hself
  have hself2 : ¬ 0 = s.self := fun h => hself h.symm
  constructor
  · unfold try_pop
    simp only [cmpxchg_head, cmpxchg_next, cmpxchg_tail, is_end, end_marker, set_next, next]
    split_ifs <;> simp_all
  · intro hf
    have hcase : s.head ≠ NULL ∧ s.slot s.head = NULL := by
      revert hf
      unfold try_pop
      simp only [cmpxchg_head, cmpxchg_next, cmpxchg_tail, is_end, end_marker, set_next]
      split_ifs <;> simp_all
    have hval : try_pop s p = (false, p, { s with head := NULL }) := by
      simp [try_pop, hcase.1, hcase.2, is_end, end_marker, hself2, cmpxchg_head]
    rw [hval]
    exact ⟨rfl, rfl, rfl, fun a => rfl, fun q => try_pop_of_head_null rfl q⟩

/-- An instance of C16: node `1` is the head of the queue and its next-slot
has been nulled by a competing `try_pop`. -/
theorem C16_witness :
    end_marker demoLost ≠ NULL ∧
    (((try_pop demoLost 7).1 = false ↔ (demoLost.head ≠ NULL ∧ next demoLost demoLost.head = NULL)) ∧
    ((try_pop demoLost 7).1 = false →
      (try_pop demoLost 7).2.1 = 7 ∧ (try_pop demoLost 7).2.2.head = NULL ∧
      (try_pop demoLost 7).2.2.tail = demoLost.tail ∧
      (∀ a, next (try_pop demoLost 7).2.2 a = next demoLost a) ∧
      ∀ q, try_pop (try_pop demoLost 7).2.2 q = (true, NULL, (try_pop demoLost 7).2.2))) ∧
    (try_pop demoLost 7).1 = false :=
  ⟨by decide, C16_lost_race demoLost 7 (by decide), by decide⟩

/-- C17: on a well-formed queue with contents `L = n1 .. nk`, `k ≥ 1`,
`take_all` returns `n1` as head and `nk` as tail; afterwards the next-slots
link `n1 .. nk` in their queue order, the next-slot of `nk` being null (not
the end-marker), and the next-slot of every node other than `nk`, in
particular of `n1 .. n(k-1)`, is unchanged. -/
theorem C17_take_all_list (s : State) (L : List Nat) (hwf : WellFormed s L)
    (hne : L ≠ []) :
    L.head? = some (take_all s).1.1 ∧ L.getLast? = some (take_all s).1.2 ∧
    Linked (take_all s).2.slot NULL L ∧
    next (take_all s).2 (take_all s).1.2 = NULL ∧
    next s (take_all s).1.2 = end_marker s ∧
    (∀ b ∈ L.dropLast, next (take_all s).2 b = next s b) ∧
    (∀ b, b ≠ (take_all s).1.2 → next (take_all s).2 b = next s b) := by
  obtain ⟨h1, -, -, h4⟩ := take_all_wellFormed hwf
  obtain ⟨L0, t, rfl⟩ := exists_snoc hne
  have htail : s.tail = t := by rw [hwf.2.2.2.1, List.getLastD_concat]
  have hnd := hwf.nodup
  have htL0 : t ∉ L0 := fun h =>
    List.disjoint_of_nodup_append hnd h (List.mem_singleton_self t)
  have hfr : ∀ b, b ≠ t → (take_all s).2.slot b = s.slot b := by
    intro b hb
    rw [h4, htail, if_neg (fun h => hb h.1)]
  rw [h1, List.getLastD_concat]
  refine ⟨?_, by simp, ?_, ?_, ?_, ?_, ?_⟩
  · cases L0 <;> rfl
  · refine Linked_relink hwf.2.2.2.2 (fun a ha => hfr a (fun h => htL0 (h ▸ ha))) ?_
    rw [h4, htail, if_pos ⟨rfl, hne⟩]
  · show (take_all s).2.slot t = NULL
    rw [h4, htail, if_pos ⟨rfl, hne⟩]
  · have := Linked_getLastD hwf.2.2.2.2 hne NULL
    rwa [List.getLastD_concat] at this
  · intro b hb
    rw [List.dropLast_concat] at hb
    exact hfr b (fun h => htL0 (h ▸ hb))
  · exact hfr

/-- An instance of C17: `take_all` on the queue that holds `1` and `2`. -/
theorem C17_witness :
    (WellFormed demo2 [1, 2] ∧ ([1, 2] : List Nat) ≠ []) ∧
    ([1, 2].head? = some (take_all demo2).1.1 ∧ [1, 2].getLast? = some (take_all demo2).1.2 ∧
    Linked (take_all demo2).2.slot NULL [1, 2] ∧
    next (take_all demo2).2 (take_all demo2).1.2 = NULL ∧
    next demo2 (take_all demo2).1.2 = end_marker demo2 ∧
    (∀ b ∈ [1, 2].dropLast, next (take_all demo2).2 b = next demo2 b) ∧
    (∀ b, b ≠ (take_all demo2).1.2 → next (take_all demo2).2 b = next demo2 b)) :=
  ⟨⟨by decide, by decide⟩, C17_take_all_list demo2 [1, 2] (by decide) (by decide)⟩

/-- C18: a `push(B)` and a `try_pop` run concurrently on a well-formed queue
that holds the single node `A`; `B` is a real node other than `A` with a null
next-slot.  After every interleaving of their atomic steps no assertion has
failed; the push returns within six steps and `try_pop` within five; and once
both have returned, either `try_pop` has returned `A` and the queue is
well-formed with contents `B`, or `try_pop` has reported a lost race without
writing `*node_ptr` and the queue is well-formed with contents `A, B`.  In
both cases `head` is not null, `tail` is `B` and the next-slot of `B` is the
end-marker.  Moreover, when the push is at its compare-and-swap and the
consumer has nulled the next-slot of `A`, the compare-and-swap fails, the
assertion that follows holds, and the push stores `B` into `head`. -/
theorem C18_push_try_pop (s0 : State) (A B p : Nat) (sched : List Nat)
    (hwf : WellFormed s0 [A]) (hB : IsNode s0 B) (hAB : A ≠ B)
    (hsB : next s0 B = NULL) :
    ∃ s tP tC,
      Config.exec ⟨s0, [.append_start B B, .pop_start p]⟩ sched = ⟨s, [tP, tC]⟩ ∧
      (∀ f, tP ≠ .failed f ∧ tC ≠ .failed f) ∧
      (6 ≤ sched.count 0 → tP = .append_done) ∧
      (5 ≤ sched.count 1 → ∃ r n, tC = .pop_done r n) ∧
      (∀ r n, tP = .append_done → tC = .pop_done r n →
        ((r = true ∧ n = A ∧ WellFormed s [B]) ∨
         (r = false ∧ n = p ∧ WellFormed s [A, B])) ∧
        s.head ≠ NULL ∧ s.tail = B ∧ next s B = end_marker s) ∧
      (tP = .append_link B A → next s A = NULL →
        Thread.step s tP = (s, .append_check_raced B A)) ∧
      (tP = .append_check_raced B A → Thread.step s tP = (s, .append_install B)) ∧
      (tP = .append_install B → Thread.step s tP = (store_head s B, .append_done)) := by
  obtain ⟨hself, hnode, hhead, htail, hlink⟩ := hwf
  have hA : IsNode s0 A := hnode A (by simp)
  have hself0 : s0.self ≠ NULL := hself
  have hinit : PushPop s0.self A B p s0 (.append_start B B) (.pop_start p) :=
    ⟨rfl, Or.inl ⟨Or.inl rfl, hhead, Or.inl ⟨Or.inl ⟨rfl, hsB⟩, htail, hlink.1⟩⟩⟩
  obtain ⟨s, tP, tC, hexec, hs, hcases⟩ := exec_pair_invariant
    (PushPop.step_push hself0 hA.1 hB.1 hB.2 hAB)
    (PushPop.step_pop hself0 hA.1 hB.1 hB.2 hAB) sched _ _ _ hinit
  obtain ⟨s', tP', tC', hexec', hrP, hrC⟩ :=
    exec_pair_rank sched s0 (.append_start B B) (.pop_start p)
  rw [hexec] at hexec'
  obtain ⟨rfl, hth⟩ := Config.mk.inj hexec'
  obtain ⟨rfl, rfl⟩ : tP = tP' ∧ tC = tC' := by simpa using hth
  have hself1 : s.self ≠ NULL := by rw [hs]; exact hself
  have hnodeA : IsNode s A := by simpa [IsNode, end_marker, hs] using hA
  have hnodeB : IsNode s B := by simpa [IsNode, end_marker, hs] using hB
  have h0s : ¬ (0 : Nat) = s0.self := fun e => hself0 e.symm
  have hBs : ¬ B = s0.self := hB.2
  refine ⟨s, tP, tC, hexec, ?_, ?_, ?_, ?_, ?_, ?_, ?_⟩
  · exact PushPop.not_failed ⟨hs, hcases⟩
  · intro h6
    have h0 : Thread.rank tP = 0 := by
      have : Thread.rank (.append_start B B) = 6 := rfl
      omega
    exact PushPop.push_done ⟨hs, hcases⟩ h0
  · intro h5
    have h0 : Thread.rank tC = 0 := by
      have : Thread.rank (.pop_start p) = 5 := rfl
      omega
    exact PushPop.pop_done ⟨hs, hcases⟩ h0
  · rintro r n rfl rfl
    have hinv : PushPop s0.self A B p s .append_done (.pop_done r n) := ⟨hs, hcases⟩
    simp only [PushPop, NotSwapped, PushRaced] at hinv
    simp at hinv
    rcases hinv.2 with ⟨⟨hr, hn⟩, hh, ht, hsA, hsB1⟩ | ⟨-, ⟨hr, hn⟩, hh, ht, hsB1⟩
    · have hwf2 : WellFormed s [A, B] :=
        ⟨hself1, by simp [hnodeA, hnodeB], hh, ht,
          ⟨hsA, by simpa [end_marker, hs] using hsB1, trivial⟩⟩
      refine ⟨Or.inr ⟨hr, hn, hwf2⟩, by rw [hh]; exact hnodeA.1, ht, ?_⟩
      simpa [next, end_marker, hs] using hsB1
    · have hwf1 : WellFormed s [B] :=
        ⟨hself1, by simp [hnodeB], hh, ht, ⟨by simpa [end_marker, hs] using hsB1, trivial⟩⟩
      refine ⟨Or.inl ⟨hr, hn, hwf1⟩, by rw [hh]; exact hnodeB.1, ht, ?_⟩
      simpa [next, end_marker, hs] using hsB1
  · rintro rfl hn
    have hn0 : s.slot A = 0 := hn
    have h0s1 : ¬ (0 : Nat) = s.self := by rw [hs]; exact h0s
    simp [Thread.step, cmpxchg_next, end_marker, is_end, hn0, h0s1]
  · rintro rfl
    have hinv : PushPop s0.self A B p s (.append_check_raced B A) tC := ⟨hs, hcases⟩
    simp only [PushPop, NotSwapped, PushRaced] at hinv
    simp at hinv
    have hh : s.head = NULL ∨ s.head = A := by
      rcases hinv.2.2 with h | h
      · exact Or.inr h.2.1
      · exact Or.inl h.2.1
    simp [Thread.step, hh]
  · rintro rfl
    rfl

/-- An instance of C18: `push(2)` and `try_pop` on the queue that holds node
`1`, under a schedule in which the consumer claims node `1` between the
exchange of `tail` and the compare-and-swap of the push. -/
theorem C18_witness :
    (WellFormed demo1 [1] ∧ IsNode demo1 2 ∧ (1 : Nat) ≠ 2 ∧ next demo1 2 = NULL) ∧
    ∃ s tP tC,
      Config.exec ⟨demo1, [.append_start 2 2, .pop_start 7]⟩
          [0, 0, 1, 1, 0, 1, 0, 1, 0, 0, 1] = ⟨s, [tP, tC]⟩ ∧
      (∀ f, tP ≠ .failed f ∧ tC ≠ .failed f) ∧
      (6 ≤ [0, 0, 1, 1, 0, 1, 0, 1, 0, 0, 1].count 0 → tP = .append_done) ∧
      (5 ≤ [0, 0, 1, 1, 0, 1, 0, 1, 0, 0, 1].count 1 → ∃ r n, tC = .pop_done r n) ∧
      (∀ r n, tP = .append_done → tC = .pop_done r n →
        ((r = true ∧ n = 1 ∧ WellFormed s [2]) ∨
         (r = false ∧ n = 7 ∧ WellFormed s [1, 2])) ∧
        s.head ≠ NULL ∧ s.tail = 2 ∧ next s 2 = end_marker s) ∧
      (tP = .append_link 2 1 → next s 1 = NULL →
        Thread.step s tP = (s, .append_check_raced 2 1)) ∧
      (tP = .append_check_raced 2 1 → Thread.step s tP = (s, .append_install 2)) ∧
      (tP = .append_install 2 → Thread.step s tP = (store_head s 2, .append_done)) :=
  ⟨⟨by decide, by decide, by decide, by decide⟩,
    C18_push_try_pop demo1 1 2 7 [0, 0, 1, 1, 0, 1, 0, 1, 0, 0, 1]
      (by decide) (by decide) (by decide) (by decide)⟩

/-- C19: on a well-formed non-empty queue `s`, `(h, t) = take_all()` followed
by `append(h, t)` satisfies the precondition of `append` (the next-slot of `t`
is null), returns, and restores exactly `s`: the same `head`, the same `tail`
and the same next-slot for every node. -/
theorem C19_take_all_append (s : State) (L : List Nat) (hwf : WellFormed s L)
    (hne : L ≠ []) :
    next (take_all s).2 (take_all s).1.2 = NULL ∧
    append (take_all s).2 (take_all s).1.1 (take_all s).1.2 = .ok s := by
  obtain ⟨h1, h2, h3, h4⟩ := take_all_wellFormed hwf
  have htmem : s.tail ∈ L := by
    rw [hwf.2.2.2.1]; exact getLastD_mem hne NULL
  have ht0 : s.tail ≠ NULL := (hwf.2.1 _ htmem).1
  have htslot : s.slot s.tail = s.self := by
    have := Linked_getLastD hwf.2.2.2.2 hne NULL
    rwa [← hwf.2.2.2.1] at this
  have hres : (take_all s).1 = (s.head, s.tail) := by
    rw [h1, hwf.2.2.1, hwf.2.2.2.1]
  have hpre : next (take_all s).2 s.tail = NULL := by
    show (take_all s).2.slot s.tail = NULL
    rw [h4, if_pos ⟨rfl, hne⟩]
  rw [hres]
  refine ⟨hpre, ?_⟩
  have hslot : (fun a => if a = s.tail then s.self else (take_all s).2.slot a) = s.slot := by
    funext a
    by_cases ha : a = s.tail
    · rw [if_pos ha, ha, htslot]
    · rw [if_neg ha, h4, if_neg (fun h => ha h.1)]
  have hhead : (take_all s).2.head = NULL := h2.2.2.1
  have htail : (take_all s).2.tail = NULL := h2.2.2.2.1
  have hpre1 : (take_all s).2.slot s.tail = 0 := hpre
  simp only [append, next, hpre1, set_next, xchg_tail, htail, hhead, store_head,
    end_marker, h3, hslot]
  simp

/-- An instance of C19: the queue that holds `1` and `2`. -/
theorem C19_witness :
    (WellFormed demo2 [1, 2] ∧ ([1, 2] : List Nat) ≠ []) ∧
    (next (take_all demo2).2 (take_all demo2).1.2 = NULL ∧
    append (take_all demo2).2 (take_all demo2).1.1 (take_all demo2).1.2 = .ok demo2) :=
  ⟨⟨by decide, by decide⟩, C19_take_all_append demo2 [1, 2] (by decide) (by decide)⟩

/-- C20: in every state reached in single-threaded use, an `append` whose
precondition holds (the next-slot of `last` is null) returns without a failed
assertion.  If the exchanged old tail is null then `head` is null, so the
assertion "invariant" holds.  If the old tail is non-null, it is not `last`
and its next-slot is the end-marker, so the compare-and-swap finds the
end-marker and succeeds, `head` is not written and the old tail is linked to
`first`. -/
theorem C20_append_asserts (s : State) (first last : Nat) (h : Reachable s)
    (hpre : next s last = NULL) :
    (xchg_tail (set_next s last (end_marker s)) last).1 = s.tail ∧
    (s.tail = NULL → s.head = NULL) ∧
    (s.tail ≠ NULL → s.tail ≠ last ∧ next s s.tail = end_marker s ∧
      is_end s (cmpxchg_next (xchg_tail (set_next s last (end_marker s)) last).2
        s.tail (end_marker s) first).1 = true) ∧
    ∃ s1, append s first last = .ok s1 ∧
      (s.tail ≠ NULL → s1.head = s.head ∧ next s1 s.tail = first) := by
  obtain ⟨L, hwf⟩ := reachable_wellFormed h
  have hpre0 : s.slot last = 0 := hpre
  refine ⟨rfl, ?_, ?_, ?_⟩
  · intro ht
    rcases hwf.head_tail with h1 | h1
    · exact h1.2.1
    · exact absurd ht (hwf.2.1 _ h1.2.2.1).1
  · intro ht
    rcases hwf.head_tail with h1 | h1
    · exact absurd h1.2.2 ht
    · have hne : s.tail ≠ last := fun e => hwf.slot_ne_null h1.2.2.1 (e ▸ hpre)
      refine ⟨hne, h1.2.2.2, ?_⟩
      have : s.slot s.tail = s.self := h1.2.2.2
      simp [cmpxchg_next, xchg_tail, set_next, is_end, end_marker, hne, this]
  · rcases hwf.head_tail with h1 | h1
    · refine ⟨{ s with head := first, tail := last,
                       slot := fun a => if a = last then s.self else s.slot a },
        ?_, fun ht => absurd h1.2.2 ht⟩
      have ht0 : s.tail = 0 := h1.2.2
      have hh0 : s.head = 0 := h1.2.1
      simp [append, next, hpre0, set_next, xchg_tail, ht0, hh0, store_head, end_marker]
    · have hne : s.tail ≠ last := fun e => hwf.slot_ne_null h1.2.2.1 (e ▸ hpre)
      have ht0 : ¬ s.tail = 0 := (hwf.2.1 _ h1.2.2.1).1
      have hts : s.slot s.tail = s.self := h1.2.2.2
      refine ⟨{ s with tail := last,
                       slot := fun a => if a = s.tail then first
                                        else if a = last then s.self else s.slot a }, ?_, ?_⟩
      · simp [append, next, hpre0, set_next, xchg_tail, ht0, cmpxchg_next, hne, hts,
          end_marker, is_end]
      · intro _
        exact ⟨rfl, by simp [next]⟩

/-- An instance of C20: `append(3, 3)` on the queue that holds `1` and `2`. -/
theorem C20_witness :
    (Reachable demo2 ∧ next demo2 3 = NULL) ∧
    ((xchg_tail (set_next demo2 3 (end_marker demo2)) 3).1 = demo2.tail ∧
    (demo2.tail = NULL → demo2.head = NULL) ∧
    (demo2.tail ≠ NULL → demo2.tail ≠ 3 ∧ next demo2 demo2.tail = end_marker demo2 ∧
      is_end demo2 (cmpxchg_next (xchg_tail (set_next demo2 3 (end_marker demo2)) 3).2
        demo2.tail (end_marker demo2) 3).1 = true) ∧
    ∃ s1, append demo2 3 3 = .ok s1 ∧
      (demo2.tail ≠ NULL → s1.head = demo2.head ∧ next s1 demo2.tail = 3)) :=
  ⟨⟨demo2_reachable, by decide⟩, C20_append_asserts demo2 3 3 demo2_reachable (by decide)⟩

end NonblockingQueue
